import Mathlib

/-!
Verification development for the `btree` repository: a B-tree based ordered
map (`src/map/mod.rs`, `src/map/node.rs`, `src/map/iter.rs`).

The Rust code is shallowly embedded: `Node<K, V>` becomes an inductive type
carrying the three parallel lists, each method becomes a Lean function on it,
and the recursive algorithms (`insert_nonfull`, `remove`, descent loops) are
given an explicit fuel parameter; fuel `height` of the node is always enough,
which is proved as the termination theorem.  Places where the Rust code would
panic (`unwrap`, out-of-bounds indexing, failed `assert!`) are modelled by a
harmless fallback and marked with a comment; all of them are unreachable on
well-formed trees.

Key comparison is modelled by an explicit comparator `cmp : K → K → Ordering`
standing for Rust's `Ord::cmp`; `==` on keys (Rust `PartialEq`, which for a
lawful `Ord` agrees with `cmp` returning `Equal`) is `keq cmp`.
-/

namespace BT

/-- Rust `Ord::cmp` for the key type. -/
abbrev Cmp (K : Type) := K → K → Ordering

/-- Rust `k1 == k2` (`PartialEq`, consistent with `Ord`): mutual non-less-than. -/
def keq (cmp : Cmp K) (a b : K) : Bool :=
  match cmp a b with
  | Ordering.eq => true
  | _ => false

/-- Rust `k1 < k2` derived from `Ord::cmp`. -/
def klt (cmp : Cmp K) (a b : K) : Bool :=
  match cmp a b with
  | Ordering.lt => true
  | _ => false

/-- `Node<K, V>` from `src/map/node.rs`: parallel key/value lists and child links. -/
inductive Node (K V : Type) : Type where
  | mk (keys : List K) (vals : List V) (children : List (Node K V)) : Node K V

/-- The `keys` field. -/
def Node.keys : Node K V → List K
  | .mk ks _ _ => ks

/-- The `vals` field. -/
def Node.vals : Node K V → List V
  | .mk _ vs _ => vs

/-- The `children` field. -/
def Node.children : Node K V → List (Node K V)
  | .mk _ _ cs => cs

/-- `Node::new`: empty leaf node. -/
def Node.new : Node K V := .mk [] [] []

/-- `Node::len`: number of keys. -/
def Node.len (n : Node K V) : Nat := n.keys.length

/-- `Node::is_empty`. -/
def Node.isEmpty (n : Node K V) : Bool := n.keys.isEmpty

/-- `Node::is_full`: `keys.len() == 2 * degree - 1`. -/
def Node.isFull (n : Node K V) (degree : Nat) : Bool := n.len == 2 * degree - 1

/-- `Node::is_leaf`: no children. -/
def Node.isLeaf (n : Node K V) : Bool := n.children.isEmpty

mutual
/-- Height of a node: 1 for a leaf, 1 + max child height otherwise.
Used as the fuel bound of the recursive algorithms. -/
def Node.height : Node K V → Nat
  | .mk _ _ cs => heightL cs + 1

/-- Maximum height of a list of nodes. -/
def heightL : List (Node K V) → Nat
  | [] => 0
  | c :: cs => max c.height (heightL cs)
end

mutual
/-- Total number of keys in the subtree. -/
def Node.size : Node K V → Nat
  | .mk ks _ cs => ks.length + sizeL cs

/-- Total number of keys in a list of subtrees. -/
def sizeL : List (Node K V) → Nat
  | [] => 0
  | c :: cs => c.size + sizeL cs
end

mutual
/-- In-order flattening of a subtree into its (key, value) entries:
`flatten c₀ ++ [(k₀,v₀)] ++ flatten c₁ ++ [(k₁,v₁)] ++ …` (children interleaved
between the separator entries; a leaf flattens to `keys.zip vals`). -/
def Node.flatten : Node K V → List (K × V)
  | .mk ks vs cs => flattenZip ks vs cs

/-- The interleaving underlying `Node.flatten`. -/
def flattenZip : List K → List V → List (Node K V) → List (K × V)
  | ks, vs, [] => ks.zip vs
  | _, _, [c] => c.flatten
  | k :: ks, v :: vs, c :: cs => c.flatten ++ (k, v) :: flattenZip ks vs cs
  | [], _, _ :: _ :: _ => []
  | _ :: _, [], _ :: _ :: _ => []
end

/-- Loop body of `Node::find_index` (binary search).  At every loop head of the
Rust code the local `size` equals `right - left` (it is initialised to `len`
with `left = 0`, `right = len`, and re-assigned to `right - left` at the end of
each iteration), so `mid = left + size / 2 = left + (right - left) / 2`.
The interval `right - left` shrinks at every iteration, so it also serves as
fuel: with fuel ≥ `right - left` the fuel case is never reached. -/
def findIndexAux (cmp : Cmp K) (ks : List K) (k : K) : Nat → Nat → Nat → Nat
  | 0, left, _ => left
  | fuel + 1, left, right =>
    if left < right then
      let mid := left + (right - left) / 2
      match ks.get? mid with
      | none => left  -- unreachable for right ≤ ks.length: Rust `keys[mid]` would panic
      | some km =>
        match cmp km k with
        | Ordering.eq => mid
        | Ordering.lt => findIndexAux cmp ks k fuel (mid + 1) right
        | Ordering.gt => findIndexAux cmp ks k fuel left mid
    else
      left

/-- `Node::find_index`: binary search over the node's keys. -/
def Node.findIndex (cmp : Cmp K) (n : Node K V) (k : K) : Nat :=
  findIndexAux cmp n.keys k n.keys.length 0 n.keys.length

/-- `Node::get` (descent loop), with fuel; `none` means out of fuel, which
never happens for fuel ≥ height.  On success returns what the Rust function
returns: the index and node holding the key, or `none` for absent. -/
def Node.getF (cmp : Cmp K) : Nat → Node K V → K → Option (Option (Nat × Node K V))
  | 0, _, _ => none
  | fuel + 1, n, k =>
    let idx := n.findIndex cmp k
    -- `idx < node.len() && node.keys[idx] == *k`
    if (n.keys.get? idx).any (fun km => keq cmp km k) then
      some (some (idx, n))
    else if n.isLeaf then
      some none
    else
      match n.children.get? idx with
      | some c => Node.getF cmp fuel c k
      | none => some none  -- unreachable under parallelism: Rust `children[idx]` would panic

/-- `Node::split_child(idx, degree)`.  The child is cut around its median
(position `degree - 1`); the median is promoted into `self` at position `idx`

and the upper half becomes a fresh right sibling at `idx + 1`. -/
def Node.splitChild (n : Node K V) (idx degree : Nat) : Node K V :=
  match n.children.get? idx with
  | none => n  -- unreachable: Rust `children[idx]` would panic
  | some child =>
    -- right takes keys/values `[degree..]` of the child
    let rkeys := child.keys.drop degree
    let rvals := child.vals.drop degree
    -- left keeps `[0..degree]`, then pops the median (position `degree - 1`)
    let lkeys0 := child.keys.take degree
    let lvals0 := child.vals.take degree
    -- right takes children `[degree..]` if the child is internal
    let rchildren := if child.isLeaf then [] else child.children.drop degree
    let lchildren := if child.isLeaf then child.children else child.children.take degree
    match lkeys0.getLast?, lvals0.getLast? with
    | some medk, some medv =>
      let left : Node K V := .mk lkeys0.dropLast lvals0.dropLast lchildren
      let right : Node K V := .mk rkeys rvals rchildren
      .mk (n.keys.insertIdx idx medk) (n.vals.insertIdx idx medv)
        ((n.children.set idx left).insertIdx (idx + 1) right)
    | _, _ => n  -- unreachable when the child is full with degree ≥ 1: Rust `pop().expect` would panic

/-- `Node::insert_nonfull` (descent loop), with fuel; `none` means out of fuel.
Returns the updated node and `some old_value` when the key already existed. -/
def Node.insertF (cmp : Cmp K) (degree : Nat) :
    Nat → Node K V → K → V → Option (Node K V × Option V)
  | 0, _, _, _ => none
  | fuel + 1, n, k, v =>
    let idx := n.findIndex cmp k
    if n.isLeaf then
      -- `idx < node.len() && k == node.keys[idx]`
      if (n.keys.get? idx).any (fun km => keq cmp k km) then
        match n.vals.get? idx with
        | some oldv => some (.mk n.keys (n.vals.set idx v) n.children, some oldv)
        | none => some (n, none)  -- unreachable under parallelism: Rust `vals[idx]` would panic
      else
        some (.mk (n.keys.insertIdx idx k) (n.vals.insertIdx idx v) n.children, none)
    else
      -- split the chosen child first when it is full, then re-route on the promoted median
      let step : Node K V × Nat :=
        if (n.children.get? idx).any (fun c => c.isFull degree) then
          let n' := n.splitChild idx degree
          if (n'.keys.get? idx).any (fun km => klt cmp km k) then (n', idx + 1) else (n', idx)
        else (n, idx)
      match step.1.children.get? step.2 with
      | some c =>
        match Node.insertF cmp degree fuel c k v with
        | none => none
        | some (c', res) => some (.mk step.1.keys step.1.vals (step.1.children.set step.2 c'), res)
      | none => some (step.1, none)  -- unreachable under parallelism: Rust `children[idx]` would panic

/-- `Node::max_key` (descent loop), with fuel; `none` on fuel exhaustion or on
an empty node (where Rust's final `unwrap` would panic). -/
def Node.maxKeyF : Nat → Node K V → Option K
  | 0, _ => none
  | fuel + 1, n =>
    match n.children.getLast? with
    | some c => if !n.isLeaf && !c.isEmpty then Node.maxKeyF fuel c else n.keys.getLast?
    | none => n.keys.getLast?

/-- `Node::min_key` (descent loop), with fuel. -/
def Node.minKeyF : Nat → Node K V → Option K
  | 0, _ => none
  | fuel + 1, n =>
    match n.children.head? with
    | some c => if !n.isLeaf && !c.isEmpty then Node.minKeyF fuel c else n.keys.head?
    | none => n.keys.head?

/-- `Node::remove(k, degree)`, with fuel; outer `none` means out of fuel.
Returns the updated node and the removed `(key, value)` pair, if any.
The case analysis follows the Rust source: Case 1 (found in leaf), Case 2a/2b/2c
(found in internal node), Case 3 with the 3a-left / 3a-right / 3b-left /
3b-right rebalancing of a thin descent target. -/
def Node.removeF (cmp : Cmp K) (degree : Nat) :
    Nat → Node K V → K → Option (Node K V × Option (K × V))
  | 0, _, _ => none
  | fuel + 1, n, k =>
    let idx := n.findIndex cmp k
    let found := (n.keys.get? idx).any (fun km => keq cmp km k)
    if found && n.isLeaf then
      -- Case 1: remove the entry at `idx` from the leaf
      match n.keys.get? idx, n.vals.get? idx with
      | some kk, some vv =>
        some (.mk (n.keys.eraseIdx idx) (n.vals.eraseIdx idx) n.children, some (kk, vv))
      | _, _ => some (n, none)  -- unreachable under parallelism
    else if found && !n.isLeaf then
      -- Case 2: found at position `idx` of an internal node
      match n.keys.get? idx, n.vals.get? idx,
            n.children.get? idx, n.children.get? (idx + 1) with
      | some kk, some vv, some pred, some succ =>
        if degree ≤ pred.len then
          -- Case 2a: delete the in-order predecessor from `children[idx]`, swap it in
          match pred.maxKeyF fuel with
          | none => some (n, none)  -- unreachable on well-formed trees: Rust `unwrap` would panic
          | some pk =>
            match Node.removeF cmp degree fuel pred pk with
            | none => none
            | some (pred', some (rk, rv)) =>
              some (.mk (n.keys.set idx rk) (n.vals.set idx rv) (n.children.set idx pred'),
                some (kk, vv))
            | some (pred', none) =>
              -- unreachable on well-formed trees: Rust `unwrap` would panic
              some (.mk n.keys n.vals (n.children.set idx pred'), none)
        else if degree ≤ succ.len then
          -- Case 2b: symmetric, with the in-order successor from `children[idx + 1]`
          match succ.minKeyF fuel with
          | none => some (n, none)  -- unreachable on well-formed trees
          | some sk =>
            match Node.removeF cmp degree fuel succ sk with
            | none => none
            | some (succ', some (rk, rv)) =>
              some (.mk (n.keys.set idx rk) (n.vals.set idx rv)
                  (n.children.set (idx + 1) succ'),
                some (kk, vv))
            | some (succ', none) =>
              -- unreachable on well-formed trees
              some (.mk n.keys n.vals (n.children.set (idx + 1) succ'), none)
        else
          -- Case 2c: splice `keys[idx]` down, merge `children[idx + 1]` into
          -- `children[idx]`, then recursively delete from the merged child
          let merged : Node K V :=
            .mk (pred.keys ++ kk :: succ.keys) (pred.vals ++ vv :: succ.vals)
              (pred.children ++ succ.children)
          match Node.removeF cmp degree fuel merged k with
          | none => none
          | some (merged', res) =>
            some (.mk (n.keys.eraseIdx idx) (n.vals.eraseIdx idx)
                ((n.children.eraseIdx (idx + 1)).set idx merged'),
              res)
      | _, _, _, _ => some (n, none)  -- unreachable under parallelism
    else if n.isLeaf then
      -- key absent and no subtree to search
      some (n, none)
    else
      -- Case 3: key not in this internal node; fatten the descent target if thin
      match n.children.get? idx with
      | none => some (n, none)  -- unreachable under parallelism
      | some c =>
        let step : Node K V × Nat :=
          if c.len + 1 == degree then
            if idx > 0 && (n.children.get? (idx - 1)).any (fun l => degree ≤ l.len) then
              -- Case 3a-left: rotate right through the parent.
              -- `keys.remove(idx-1)` followed by `keys.insert(idx-1, left_key)` is `set`;
              -- `dropLast`/`getLast?` on an empty child list model the leaf-guarded moves.
              match n.keys.get? (idx - 1), n.vals.get? (idx - 1), n.children.get? (idx - 1) with
              | some pk, some pv, some l =>
                match l.keys.getLast?, l.vals.getLast? with
                | some lk, some lv =>
                  let c' : Node K V := .mk (pk :: c.keys) (pv :: c.vals)
                    (match l.children.getLast? with
                     | some lc => lc :: c.children
                     | none => c.children)
                  let l' : Node K V := .mk l.keys.dropLast l.vals.dropLast l.children.dropLast
                  (.mk (n.keys.set (idx - 1) lk) (n.vals.set (idx - 1) lv)
                    ((n.children.set (idx - 1) l').set idx c'), idx)
                | _, _ => (n, idx)  -- unreachable: Rust `pop().unwrap()` would panic
              | _, _, _ => (n, idx)  -- unreachable under parallelism
            else if (n.children.get? (idx + 1)).any (fun r => degree ≤ r.len) then
              -- Case 3a-right: rotate left through the parent
              match n.keys.get? idx, n.vals.get? idx, n.children.get? (idx + 1) with
              | some pk, some pv, some r =>
                match r.keys.head?, r.vals.head? with
                | some rk0, some rv0 =>
                  let c' : Node K V := .mk (c.keys ++ [pk]) (c.vals ++ [pv])
                    (match r.children.head? with
                     | some rc => c.children ++ [rc]
                     | none => c.children)
                  let r' : Node K V := .mk r.keys.tail r.vals.tail r.children.tail
                  (.mk (n.keys.set idx rk0) (n.vals.set idx rv0)
                    ((n.children.set idx c').set (idx + 1) r'), idx)
                | _, _ => (n, idx)  -- unreachable: Rust `remove(0)` would panic
              | _, _, _ => (n, idx)  -- unreachable under parallelism
            else if idx > 0 then
              -- Case 3b-left: merge `children[idx]` into the left sibling, descend at `idx - 1`
              match n.keys.get? (idx - 1), n.vals.get? (idx - 1), n.children.get? (idx - 1) with
              | some pk, some pv, some l =>
                let l' : Node K V :=
                  .mk (l.keys ++ pk :: c.keys) (l.vals ++ pv :: c.vals) (l.children ++ c.children)
                (.mk (n.keys.eraseIdx (idx - 1)) (n.vals.eraseIdx (idx - 1))
                  ((n.children.set (idx - 1) l').eraseIdx idx), idx - 1)
              | _, _, _ => (n, idx)  -- unreachable under parallelism
            else if idx + 1 < n.children.length then
              -- Case 3b-right: merge the right sibling into `children[idx]`
              match n.keys.get? idx, n.vals.get? idx, n.children.get? (idx + 1) with
              | some pk, some pv, some r =>
                let c' : Node K V :=
                  .mk (c.keys ++ pk :: r.keys) (c.vals ++ pv :: r.vals) (c.children ++ r.children)
                (.mk (n.keys.eraseIdx idx) (n.vals.eraseIdx idx)
                  ((n.children.set idx c').eraseIdx (idx + 1)), idx)
              | _, _, _ => (n, idx)  -- unreachable under parallelism
            else (n, idx)  -- no sibling to borrow from or merge with
          else (n, idx)
        match step.1.children.get? step.2 with
        | none => some (step.1, none)  -- unreachable under parallelism
        | some c2 =>
          match Node.removeF cmp degree fuel c2 k with
          | none => none
          | some (c2', res) =>
            some (.mk step.1.keys step.1.vals (step.1.children.set step.2 c2'), res)

/-! ## The map façade (`src/map/mod.rs`) -/

/-- `BTreeMap<K, V>`: element count, minimum degree and root node. -/
structure BTreeMap (K V : Type) where
  len : Nat
  degree : Nat
  root : Node K V

/-- `DEFAULT_DEGREE`. -/
def DEFAULT_DEGREE : Nat := 2

/-- `BTreeMap::with_degree(degree)`: empty tree with the given degree.
The Rust constructor performs no validation of the degree. -/
def BTreeMap.withDegree (K V : Type) (degree : Nat) : BTreeMap K V :=
  { len := 0, degree := degree, root := Node.new }

/-- `BTreeMap::new()`: `with_degree(DEFAULT_DEGREE)`. -/
def BTreeMap.empty (K V : Type) : BTreeMap K V := BTreeMap.withDegree K V DEFAULT_DEGREE

/-- `BTreeMap::is_empty`. -/
def BTreeMap.isEmpty (m : BTreeMap K V) : Bool := m.len == 0

/-- `BTreeMap::get`. -/
def BTreeMap.get (cmp : Cmp K) (m : BTreeMap K V) (k : K) : Option V :=
  match Node.getF cmp m.root.height m.root k with
  | some (some (idx, node)) => node.vals.get? idx
  | _ => none

/-- `BTreeMap::contains`. -/
def BTreeMap.contains (cmp : Cmp K) (m : BTreeMap K V) (k : K) : Bool :=
  (BTreeMap.get cmp m k).isSome

/-- `BTreeMap::get_key_value`. -/
def BTreeMap.getKeyValue (cmp : Cmp K) (m : BTreeMap K V) (k : K) : Option (K × V) :=
  match Node.getF cmp m.root.height m.root k with
  | some (some (idx, node)) =>
    match node.keys.get? idx, node.vals.get? idx with
    | some kk, some vv => some (kk, vv)
    | _, _ => none
  | _ => none

/-- `BTreeMap::insert`: grow the root if it is full, then `insert_nonfull`;
count a new key.  Returns the updated map and the Rust return value. -/
def BTreeMap.insert (cmp : Cmp K) (m : BTreeMap K V) (k : K) (v : V) :
    BTreeMap K V × Option V :=
  let root :=
    if m.root.isFull m.degree then
      (Node.mk [] [] [m.root]).splitChild 0 m.degree
    else m.root
  match Node.insertF cmp m.degree root.height root k v with
  | some (root', res) =>
    ({ len := if res.isNone then m.len + 1 else m.len, degree := m.degree, root := root' }, res)
  | none => (m, none)  -- unreachable: fuel `height` always suffices

/-- `BTreeMap::remove_entry`: `root.remove`, then shrink the root when the
removal succeeded and left an empty internal root (`children.pop()` takes the
last — and on well-formed trees only — child). -/
def BTreeMap.removeEntry (cmp : Cmp K) (m : BTreeMap K V) (k : K) :
    BTreeMap K V × Option (K × V) :=
  match Node.removeF cmp m.degree m.root.height m.root k with
  | some (root', some entry) =>
    let root'' :=
      if !root'.isLeaf && root'.isEmpty then
        match root'.children.getLast? with
        | some c => c
        | none => root'  -- unreachable: `!is_leaf` means children exist
      else root'
    ({ len := m.len - 1, degree := m.degree, root := root'' }, some entry)
  | some (root', none) => ({ m with root := root' }, none)
  | none => (m, none)  -- unreachable: fuel `height` always suffices

/-- `BTreeMap::remove`: `remove_entry` projected to the value. -/
def BTreeMap.remove (cmp : Cmp K) (m : BTreeMap K V) (k : K) :
    BTreeMap K V × Option V :=
  let r := BTreeMap.removeEntry cmp m k
  (r.1, r.2.map Prod.snd)

/-- `BTreeMap::clear`. -/
def BTreeMap.clear (m : BTreeMap K V) : BTreeMap K V :=
  { len := 0, degree := m.degree, root := Node.new }

/-! ## The in-order iterator (`src/map/iter.rs`)

The Rust iterator keeps two parallel `Vec` stacks; we model them as lists whose
head is the top of the stack (the last element of the `Vec`). -/

/-- `Iter<K, V>`: parallel stacks of nodes and indices, top first. -/
structure Iter (K V : Type) where
  nodes : List (Node K V)
  indices : List Nat

/-- The descent loop shared by `Iter::new` and `Iter::next`: push the node with
index 0 and keep drilling down the leftmost-child chain to a leaf.  Fuel
`height` of the pushed node always suffices. -/
def Iter.pushLeft : Nat → Node K V → Iter K V → Iter K V
  | 0, n, it => ⟨n :: it.nodes, 0 :: it.indices⟩  -- unreachable with fuel ≥ height
  | fuel + 1, n, it =>
    if n.isLeaf then ⟨n :: it.nodes, 0 :: it.indices⟩
    else
      match n.children.head? with
      | some c => Iter.pushLeft fuel c ⟨n :: it.nodes, 0 :: it.indices⟩
      | none => ⟨n :: it.nodes, 0 :: it.indices⟩  -- unreachable: non-leaf has children

/-- `Iter::new`: empty stacks for an empty root, otherwise the leftmost path. -/
def Iter.new (root : Node K V) : Iter K V :=
  if root.isEmpty then ⟨[], []⟩ else Iter.pushLeft root.height root ⟨[], []⟩

/-- `Iter::next`: yield the top frame's current entry, advance its index,
pop it when exhausted, and drill into the child right of the yielded entry. -/
def Iter.next : Iter K V → Option ((K × V) × Iter K V)
  | ⟨[], _⟩ => none
  | ⟨n :: ns, is⟩ =>
    let i := is.headD 0  -- parallel stacks: Rust `indices.last().unwrap()`
    match n.keys.get? i, n.vals.get? i with
    | some k, some v =>
      -- advance the top index; pop the frame if its keys are exhausted
      let st : Iter K V :=
        if i + 1 == n.len then ⟨ns, is.tail⟩ else ⟨n :: ns, (i + 1) :: is.tail⟩
      -- `if idx < node.children.len()`: drill into `children[i + 1]`
      match n.children.get? (i + 1) with
      | some c => some ((k, v), Iter.pushLeft c.height c st)
      | none => some ((k, v), st)
    | _, _ => none  -- unreachable on valid states: Rust `keys.get(idx).unwrap()` would panic

/-- Run the iterator to exhaustion, collecting at most `fuel` entries. -/
def Iter.toListF : Nat → Iter K V → List (K × V)
  | 0, _ => []
  | fuel + 1, it =>
    match it.next with
    | none => []
    | some (e, it') => e :: Iter.toListF fuel it'

/-- The full entry sequence of `Iter::new(root)`: the subtree holds
`size` entries, so `size` steps exhaust the iterator. -/
def Node.iterList (root : Node K V) : List (K × V) :=
  Iter.toListF root.size (Iter.new root)

/-- The `Keys` wrapper: project the key component. -/
def Node.keysList (root : Node K V) : List K := root.iterList.map Prod.fst

/-- The `Values` wrapper: project the value component. -/
def Node.valuesList (root : Node K V) : List V := root.iterList.map Prod.snd

/-! ## Well-formedness (the invariants of spec §3) -/

/-- Strictly ascending chain under `klt`. -/
def ascB (cmp : Cmp K) : List K → Bool
  | [] => true
  | [_] => true
  | a :: b :: rest => klt cmp a b && ascB cmp (b :: rest)

/-- All nodes in the list share the height of the first one (uniform depth). -/
def sameHeightB : List (Node K V) → Bool
  | [] => true
  | c :: cs => cs.all (fun d => d.height == c.height)

mutual
/-- Well-formedness of a non-root node within the open interval `(lo, hi)`
(`none` is a ∓∞ sentinel): parallelism, degree bounds `t−1 ≤ |keys| ≤ 2t−1`,
strict order with the bounds, child count `|keys|+1` for internal nodes,
uniform child height, and recursively well-formed children in their windows. -/
def Node.wfN (cmp : Cmp K) (t : Nat) : Option K → Option K → Node K V → Bool
  | lo, hi, .mk ks vs cs =>
    (vs.length == ks.length) &&
    (decide (t - 1 ≤ ks.length)) && (decide (ks.length ≤ 2 * t - 1)) &&
    ascB cmp (lo.toList ++ ks ++ hi.toList) &&
    (if cs.isEmpty then true
     else
       (cs.length == ks.length + 1) &&
       sameHeightB cs &&
       childrenWf cmp t lo ks hi cs)

/-- The children of a node, each in its key window. -/
def childrenWf (cmp : Cmp K) (t : Nat) :
    Option K → List K → Option K → List (Node K V) → Bool
  | _, _, _, [] => true
  | lo, [], hi, [c] => Node.wfN cmp t lo hi c
  | lo, k :: ks, hi, c :: cs =>
    Node.wfN cmp t lo (some k) c && childrenWf cmp t (some k) ks hi cs
  | _, [], _, _ :: _ :: _ => false
end

/-- Well-formedness of the root node: no lower bound on the key count, but a
nonempty root whenever it has children (spec invariant 2), with well-formed
children otherwise as for internal nodes. -/
def rootWf (cmp : Cmp K) (t : Nat) (n : Node K V) : Bool :=
  (n.vals.length == n.keys.length) &&
  (decide (n.keys.length ≤ 2 * t - 1)) &&
  ascB cmp n.keys &&
  (if n.isLeaf then true
   else
     (!n.keys.isEmpty) &&
     (n.children.length == n.keys.length + 1) &&
     sameHeightB n.children &&
     childrenWf cmp t none n.keys none n.children)

/-- Well-formedness of a map value: valid degree, well-formed root, and the
size invariant `len = |entries|` (spec invariants 1–6). -/
def BTreeMap.WF (cmp : Cmp K) (m : BTreeMap K V) : Prop :=
  2 ≤ m.degree ∧ rootWf cmp m.degree m.root = true ∧ m.len = m.root.size

/-- The lower bound seen by the children that follow the keys `ks`: the last
of `ks`, or the inherited bound `lo` when `ks` is empty. -/
def lastOr (lo : Option K) (ks : List K) : Option K :=
  match ks.getLast? with
  | some k => some k
  | none => lo

/-- The upper bound seen by the children that precede the keys `ks`. -/
def headOr (hi : Option K) (ks : List K) : Option K :=
  match ks.head? with
  | some k => some k
  | none => hi

/-- A left segment of a node's children: child `j` paired with separator key
`j`, each child well-formed between its neighbouring keys.  Used to split
`childrenWf` at an arbitrary child position. -/
def segWf (cmp : Cmp K) (t : Nat) : Option K → List K → List (Node K V) → Bool
  | _, [], [] => true
  | lo, k :: ks, c :: cs => Node.wfN cmp t lo (some k) c && segWf cmp t (some k) ks cs
  | _, _, _ => false

mutual
/-- Structural soundness (order-free): every node is nonempty, keys and
values are parallel, and internal nodes have `|keys| + 1` children, all
recursively sound.  Implied by well-formedness with `t ≥ 2`; this is what the
iterator machinery needs. -/
def Node.soundN : Node K V → Bool
  | .mk ks vs cs =>
    (!ks.isEmpty) && (vs.length == ks.length) &&
    (cs.isEmpty || ((cs.length == ks.length + 1) && soundL cs))

/-- All nodes in the list are sound. -/
def soundL : List (Node K V) → Bool
  | [] => true
  | c :: cs => c.soundN && soundL cs
end

/-- What remains to be yielded from a stack frame `(n, i)`: the entry at `i`
followed by the interleaving of the later entries and subtrees (`children[i]`
and everything before it have already been consumed). -/
def frameRest (n : Node K V) (i : Nat) : List (K × V) :=
  match n.keys.get? i, n.vals.get? i with
  | some k, some v =>
    (k, v) :: flattenZip (n.keys.drop (i + 1)) (n.vals.drop (i + 1))
      (n.children.drop (i + 1))
  | _, _ => []

/-- The sequence of entries an iterator state has yet to yield. -/
def denoteAux : List (Node K V) → List Nat → List (K × V)
  | n :: ns, i :: is => frameRest n i ++ denoteAux ns is
  | _, _ => []

/-- The entries still to be yielded by an iterator. -/
def Iter.denote (it : Iter K V) : List (K × V) := denoteAux it.nodes it.indices

/-- Invariant of the iterator's parallel stacks: frames pair up, and every
frame holds a sound node with an in-range index. -/
def stackInv : List (Node K V) → List Nat → Prop
  | [], [] => True
  | n :: ns, i :: is => (Node.soundN n = true ∧ i < n.keys.length) ∧ stackInv ns is
  | _, _ => False

/-! ## Concrete executions of the code

These fully evaluated traces are used to settle the claims that the code
falsifies.  `natCmp` is the derived `Ord` of `Nat` keys; `pairCmp` is a lawful
Rust `Ord` on pairs that compares the first component only (distinct key
objects may compare equal, as the spec's "equality is mutual non-less-than"
allows). -/

/-- `Ord::cmp` for `Nat` keys. -/
def natCmp : Cmp Nat := compare

/-- A lawful comparator on pairs that ignores the second component. -/
def pairCmp : Cmp (Nat × Nat) := fun a b => compare a.1 b.1

/-- Insert a self-mapped `Nat` key, keeping only the map. -/
def insN (m : BTreeMap Nat Nat) (k : Nat) : BTreeMap Nat Nat :=
  (BTreeMap.insert natCmp m k k).1

/-- Degree-2 tree after inserting 1, 2, 3, 4 and removing 4:
root `[2]` with leaf children `[1]` and `[3]`. -/
def exThinTree : BTreeMap Nat Nat :=
  (BTreeMap.removeEntry natCmp (insN (insN (insN (insN (BTreeMap.withDegree Nat Nat 2) 1) 2) 3) 4) 4).1

/-- `exThinTree` after removing the absent key 5: the remove merges at the
root (Case 3b) and returns `None`, so the façade performs no shrink and the
root is left with 0 keys and one child holding `[1, 2, 3]`. -/
def exBrokenRoot : BTreeMap Nat Nat :=
  (BTreeMap.removeEntry natCmp exThinTree 5).1

/-- Degree-2 tree after inserting 3, 4, 5, 6, 1 (self-mapped):
root `[4]` with leaf children `[1, 3]` and `[5, 6]`. -/
def exSplitBase : BTreeMap Nat Nat :=
  insN (insN (insN (insN (insN (BTreeMap.withDegree Nat Nat 2) 3) 4) 5) 6) 1

/-- `exSplitBase` after `insert(2, 100)`: the left leaf becomes the full
`[1, 2, 3]` with 2 at its median position. -/
def exSplitReady : BTreeMap Nat Nat :=
  (BTreeMap.insert natCmp exSplitBase 2 100).1

/-- The second insert of key 2 (`insert(2, 200)`) on `exSplitReady`:
descending splits the full left leaf and promotes its median 2 into the root;
the code then compares `keys[idx] < k`, which is false for the equal key, and
descends into the left half, inserting a duplicate 2. -/
def exDoubleInsert : BTreeMap Nat Nat × Option Nat :=
  BTreeMap.insert natCmp exSplitReady 2 200

/-- Pair-keyed degree-2 tree holding (2,0) (3,0) (4,0) (5,0) (1,0) mapped to
2 3 4 5 1; the key object (3,0) sits in the internal root node. -/
def exPairTree : BTreeMap (Nat × Nat) Nat :=
  ((BTreeMap.insert pairCmp
    ((BTreeMap.insert pairCmp
      ((BTreeMap.insert pairCmp
        ((BTreeMap.insert pairCmp
          ((BTreeMap.insert pairCmp (BTreeMap.withDegree (Nat × Nat) Nat 2)
            (2, 0) 2).1)
          (3, 0) 3).1)
        (4, 0) 4).1)
      (5, 0) 5).1)
    (1, 0) 1).1)

/-- Inserting the equal key object (3, 99) over the stored (3, 0): the equal
key lives in the internal root, where `insert_nonfull` never tests equality,
so the new key object is inserted as a duplicate into a leaf. -/
def exPairInsert : BTreeMap (Nat × Nat) Nat × Option Nat :=
  BTreeMap.insert pairCmp exPairTree (3, 99) 333

/-- A degree-1 map (below the spec's minimum of 2) after `insert(5, 7)`. -/
def exDegreeOne : BTreeMap Nat Nat × Option Nat :=
  BTreeMap.insert natCmp (BTreeMap.withDegree Nat Nat 1) 5 7

/-! ## Order helpers

For the order-sensitive theorems the comparator is `compare` of a linear
order, matching the derived `Ord` of a Rust key type. -/

theorem klt_compare_iff [LinearOrder K] {a b : K} : klt compare a b = true ↔ a < b := by
  unfold klt
  rcases h : compare a b with _ | _ | _
  · simpa using compare_lt_iff_lt.mp h
  · simp only [Bool.false_eq_true, false_iff]
    exact fun hlt => by simp [compare_lt_iff_lt.mpr hlt] at h
  · simp only [Bool.false_eq_true, false_iff]
    exact fun hlt => by simp [compare_lt_iff_lt.mpr hlt] at h

theorem keq_compare_iff [LinearOrder K] {a b : K} : keq compare a b = true ↔ a = b := by
  unfold keq
  rcases h : compare a b with _ | _ | _
  · simp only [Bool.false_eq_true, false_iff]
    exact fun he => by simp [compare_eq_iff_eq.mpr he] at h
  · simpa using compare_eq_iff_eq.mp h
  · simp only [Bool.false_eq_true, false_iff]
    exact fun he => by simp [compare_eq_iff_eq.mpr he] at h

theorem ascB_cons [LinearOrder K] {a : K} {l : List K} :
    ascB compare (a :: l) = true ↔ (∀ b ∈ l.head?, a < b) ∧ ascB compare l = true := by
  cases l with
  | nil => simp [ascB]
  | cons b l' =>
    simp only [ascB, Bool.and_eq_true, klt_compare_iff, List.head?, Option.mem_def,
      Option.some.injEq, forall_eq']

theorem ascB_chain [LinearOrder K] {l : List K} :
    ascB compare l = true ↔ List.Chain' (· < ·) l := by
  induction l with
  | nil => simp [ascB]
  | cons a l ih =>
    rw [ascB_cons, List.chain'_cons', ih]

theorem ascB_pairwise [LinearOrder K] {l : List K} (h : ascB compare l = true) :
    List.Pairwise (· < ·) l :=
  List.chain'_iff_pairwise.mp (ascB_chain.mp h)

theorem pairwise_get_lt [LinearOrder K] {l : List K} (h : List.Pairwise (· < ·) l)
    {i j : Nat} (hi : i < l.length) (hj : j < l.length) (hij : i < j) :
    l.get ⟨i, hi⟩ < l.get ⟨j, hj⟩ :=
  List.pairwise_iff_get.mp h ⟨i, hi⟩ ⟨j, hj⟩ hij

/-! ## The binary search loop -/

/-- Loop correctness of `find_index`: starting from a window `[left, right)`
outside of which the answer is already excluded, the search lands on the lower
bound of `k` (with an exact hit whenever `k` occurs). -/
theorem findIndexAux_spec [LinearOrder K] (ks : List K) (k : K)
    (hsort : List.Pairwise (· < ·) ks) :
    ∀ (fuel left right : Nat), left ≤ right → right ≤ ks.length → right - left ≤ fuel →
    (∀ j (hj : j < ks.length), j < left → ks.get ⟨j, hj⟩ < k) →
    (∀ j (hj : j < ks.length), right ≤ j → k < ks.get ⟨j, hj⟩) →
    (findIndexAux compare ks k fuel left right ≤ ks.length ∧
     (∀ j (hj : j < ks.length), j < findIndexAux compare ks k fuel left right →
        ks.get ⟨j, hj⟩ < k) ∧
     (∀ j (hj : j < ks.length), findIndexAux compare ks k fuel left right ≤ j →
        k ≤ ks.get ⟨j, hj⟩)) := by
  intro fuel
  induction fuel with
  | zero =>
    intro left right hlr hrlen hfuel hL hR
    have hle : right ≤ left := by omega
    simp only [findIndexAux]
    refine ⟨by omega, fun j hj hji => hL j hj hji, fun j hj hij => ?_⟩
    exact le_of_lt (hR j hj (by omega))
  | succ fuel ih =>
    intro left right hlr hrlen hfuel hL hR
    by_cases hcond : left < right
    · have hmidlt : left + (right - left) / 2 < right := by
        have : (right - left) / 2 < right - left := Nat.div_lt_self (by omega) (by omega)
        omega
      have hmidlen : left + (right - left) / 2 < ks.length := by omega
      have hget : ks.get? (left + (right - left) / 2) =
          some (ks.get ⟨left + (right - left) / 2, hmidlen⟩) :=
        List.get?_eq_get hmidlen
      set mid := left + (right - left) / 2 with hmid
      set km := ks.get ⟨mid, hmidlen⟩ with hkm
      rcases hcmp : compare km k with _ | _ | _
      · -- km < k: search right half
        have hklt : km < k := compare_lt_iff_lt.mp hcmp
        have heq : findIndexAux compare ks k (fuel + 1) left right =
            findIndexAux compare ks k fuel (mid + 1) right := by
          simp only [findIndexAux, if_pos hcond, ← hmid, hget, hcmp]
        rw [heq]
        refine ih (mid + 1) right (by omega) hrlen (by omega) ?_ hR
        intro j hj hji
        rcases Nat.lt_or_ge j left with hc | hc
        · exact hL j hj hc
        · rcases Nat.lt_or_ge j mid with hc2 | hc2
          · exact lt_trans (pairwise_get_lt hsort hj hmidlen hc2) hklt
          · have : j = mid := by omega
            subst this
            exact hklt
      · -- km = k: exact hit at mid
        have hkeq : km = k := compare_eq_iff_eq.mp hcmp
        have heq : findIndexAux compare ks k (fuel + 1) left right = mid := by
          simp only [findIndexAux, if_pos hcond, ← hmid, hget, hcmp]
        rw [heq]
        refine ⟨by omega, fun j hj hji => ?_, fun j hj hij => ?_⟩
        · rcases Nat.lt_or_ge j left with hc | hc
          · exact hL j hj hc
          · exact hkeq ▸ pairwise_get_lt hsort hj hmidlen hji
        · rcases Nat.eq_or_lt_of_le hij with hc | hc
          · have hjm : j = mid := hc.symm
            subst hjm
            exact le_of_eq hkeq.symm
          · exact le_of_lt (hkeq ▸ pairwise_get_lt hsort hmidlen hj hc)
      · -- k < km: search left half
        have hkgt : k < km := compare_gt_iff_gt.mp hcmp
        have heq : findIndexAux compare ks k (fuel + 1) left right =
            findIndexAux compare ks k fuel left mid := by
          simp only [findIndexAux, if_pos hcond, ← hmid, hget, hcmp]
        rw [heq]
        refine ih left mid (by omega) (by omega) (by omega) hL ?_
        intro j hj hij
        rcases Nat.eq_or_lt_of_le hij with hc | hc
        · exact hc ▸ hkgt
        · exact lt_trans hkgt (pairwise_get_lt hsort hmidlen hj hc)
    · simp only [findIndexAux, if_neg hcond]
      refine ⟨by omega, fun j hj hji => hL j hj hji, fun j hj hij => ?_⟩
      exact le_of_lt (hR j hj (by omega))

/-- `find_index` on a sorted node returns the lower-bound index of `k`:
everything before it is `< k`, everything from it on is `≥ k`. -/
theorem findIndex_spec [LinearOrder K] (n : Node K V) (k : K)
    (hsort : List.Pairwise (· < ·) n.keys) :
    n.findIndex compare k ≤ n.keys.length ∧
    (∀ j (hj : j < n.keys.length), j < n.findIndex compare k → n.keys.get ⟨j, hj⟩ < k) ∧
    (∀ j (hj : j < n.keys.length), n.findIndex compare k ≤ j → k ≤ n.keys.get ⟨j, hj⟩) := by
  unfold Node.findIndex
  exact findIndexAux_spec n.keys k hsort n.keys.length 0 n.keys.length
    (Nat.zero_le _) le_rfl (by omega)
    (fun j hj hj0 => absurd hj0 (Nat.not_lt_zero j))
    (fun j hj hlen => absurd hj (by omega))

/-! ## Claim C8 (confirmed) -/

/-- C8: on a node with strictly ascending keys, `find_index(&k)` returns the
least index `i ∈ [0, n]` such that `keys[i] = k`, or `i = n`, or `keys[i] > k`
(every smaller index satisfies none of the three), and when `k` is present the
returned index is exactly its position. -/
theorem c8_find_index_returns_least_lower_bound [LinearOrder K] (n : Node K V) (k : K)
    (hasc : ascB compare n.keys = true) :
    (n.findIndex compare k = n.keys.length ∨
     ∃ h : n.findIndex compare k < n.keys.length,
       n.keys.get ⟨n.findIndex compare k, h⟩ = k ∨
       k < n.keys.get ⟨n.findIndex compare k, h⟩) ∧
    (∀ j (hj : j < n.keys.length), j < n.findIndex compare k →
       ¬(n.keys.get ⟨j, hj⟩ = k ∨ j = n.keys.length ∨ k < n.keys.get ⟨j, hj⟩)) ∧
    (∀ p (hp : p < n.keys.length), n.keys.get ⟨p, hp⟩ = k → n.findIndex compare k = p) := by
  have hsort := ascB_pairwise hasc
  obtain ⟨h1, h2, h3⟩ := findIndex_spec n k hsort
  refine ⟨?_, ?_, ?_⟩
  · rcases Nat.eq_or_lt_of_le h1 with hc | hc
    · exact Or.inl hc
    · refine Or.inr ⟨hc, ?_⟩
      rcases (h3 _ hc le_rfl).eq_or_lt with he | hlt
      · exact Or.inl he.symm
      · exact Or.inr hlt
  · intro j hj hji
    have hjk := h2 j hj hji
    rintro (he | he | he)
    · exact absurd he (ne_of_lt hjk)
    · omega
    · exact absurd (lt_trans hjk he) (lt_irrefl _)
  · intro p hp hpk
    rcases Nat.lt_trichotomy (n.findIndex compare k) p with hc | hc | hc
    · have hlen : n.findIndex compare k < n.keys.length := by omega
      have hik := h3 _ hlen le_rfl
      have := pairwise_get_lt hsort hlen hp hc
      rw [hpk] at this
      exact absurd (lt_of_le_of_lt hik this) (lt_irrefl k)
    · exact hc
    · have := h2 p hp hc
      rw [hpk] at this
      exact absurd this (lt_irrefl k)

/-- Witness for C8: on the sorted three-key node `[1, 3, 5]` the hypothesis
holds by evaluation and the theorem places the present key 3 at index 1. -/
theorem c8_find_index_returns_least_lower_bound_witness :
    ascB compare ([1, 3, 5] : List Nat) = true ∧
    (Node.mk [1, 3, 5] [10, 30, 50] ([] : List (Node Nat Nat))).findIndex compare 3 = 1 :=
  ⟨by decide,
   (c8_find_index_returns_least_lower_bound
     (Node.mk [1, 3, 5] [10, 30, 50] ([] : List (Node Nat Nat))) 3 (by decide)).2.2
     1 (by decide) (by decide)⟩

/-! ## Claim C1 (code bug)

The claim says the root never has 0 keys while having children at a public
API boundary, in particular after removing an absent key.  The code only
shrinks an emptied root when `remove` returned `Some`, so removing the absent
key 5 from the tree `[2] / [1] [3]` (built by inserts 1 2 3 4 and remove 4)
merges at the root and leaves the root with 0 keys and one child while the
tree still holds 3 entries. -/

/-- C1: evaluating the public-operation sequence
`insert 1 2 3 4; remove 4; remove 5` (degree 2) leaves a tree that is not
empty (`len = 3`, three entries in order) whose root has 0 keys and 1 child —
the state the claim rules out. -/
theorem c1_absent_remove_leaves_empty_root_with_child :
    exBrokenRoot.len = 3 ∧
    exBrokenRoot.root.flatten = [(1, 1), (2, 2), (3, 3)] ∧
    exBrokenRoot.root.keys = [] ∧
    exBrokenRoot.root.children.length = 1 := by
  refine ⟨by decide, by decide, by decide, by decide⟩

/-! ## Claim C2 (code bug)

`INV-SIZE` fails in the same state: the iterator construction tests only
whether the root node's key list is empty, so on the 0-keys-one-child root it
yields no entries although `len()` is 3. -/

/-- C2: after the public-operation sequence `insert 1 2 3 4; remove 4;
remove 5` (the last removing an absent key), `len()` is 3 but a fresh
in-order traversal yields 0 entries. -/
theorem c2_len_differs_from_traversal_after_absent_remove :
    exBrokenRoot.len = 3 ∧
    exBrokenRoot.root.iterList = [] ∧
    exBrokenRoot.root.iterList.length ≠ exBrokenRoot.len := by
  refine ⟨by decide, by decide, by decide⟩

/-! ## Claim C3 (corrected)

`BTreeMap::with_degree` (and the persistent `BTree::with_degree`) perform no
validation whatsoever: any degree, including 0 and 1, is stored as given and
an empty tree is returned.  A degree-1 tree is returned to the caller and is
usable (insert and get work on it). -/

/-- C3 counterexample: `with_degree(1)` is not rejected — it returns a tree
with degree 1 on which `insert(5, 7)` succeeds (`len` becomes 1) and
`get(5)` finds the value, i.e. a usable tree with degree < 2 reaches the
caller. -/
theorem c3_with_degree_one_returns_usable_tree :
    (BTreeMap.withDegree Nat Nat 1).degree = 1 ∧
    exDegreeOne.1.len = 1 ∧
    BTreeMap.get natCmp exDegreeOne.1 5 = some 7 := by
  refine ⟨by decide, by decide, by decide⟩

/-- C3 amended: `with_degree(t)` performs no validation for any degree `t`
(there is no rejection path): it always returns the empty tree with the given
degree, an empty leaf root and `len = 0`. -/
theorem c3_with_degree_never_rejects (K V : Type) (t : Nat) :
    BTreeMap.withDegree K V t =
      { len := 0, degree := t, root := Node.mk [] [] [] } := rfl

/-! ## Claim C6 (code bug)

The double-insert law fails when the key being re-inserted is (or becomes)
the median of a full child on the descent path: `insert_nonfull` splits the
child, promotes the equal median, and then tests only `keys[idx] < k` before
descending — equality falls through to the left half, where the key is
re-inserted as a duplicate. -/

/-- C6: on the degree-2 tree built by inserting 3 4 5 6 1 (self-mapped),
`insert(2, 100)` then `insert(2, 200)` violates the law: the second insert
returns `none` instead of `some 100`, `len` grows from 6 to 7, and `get 2`
still answers 100 rather than 200 (the tree now stores key 2 twice). -/
theorem c6_double_insert_law_fails_on_split_median :
    exSplitReady.len = 6 ∧
    BTreeMap.get natCmp exSplitReady 2 = some 100 ∧
    exDoubleInsert.2 = none ∧
    exDoubleInsert.1.len = 7 ∧
    BTreeMap.get natCmp exDoubleInsert.1 2 = some 100 ∧
    exDoubleInsert.1.root.keys = [2, 4] ∧
    (exDoubleInsert.1.root.children.map Node.keys) = [[1, 2], [3], [5, 6]] := by
  refine ⟨by decide, by decide, by decide, by decide, by decide, by decide, by decide⟩

/-! ## Claim C10 (code bug)

When the stored equal key sits in an internal node, `insert_nonfull` never
compares for equality (the leaf branch is the only replacement site), so the
new key object is not dropped and no value is replaced: a duplicate entry is
added below.  `pairCmp` compares only the first components, making the two
key objects (3, 0) and (3, 99) equal under the ordering but distinguishable
in the tree. -/

/-- C10: with the stored key object (3, 0) in the internal root, inserting
the order-equal key (3, 99) with value 333 does not replace the stored value
(the lookup still answers ((3, 0), 3)), returns `none` rather than the prior
value, and retains the new key object (3, 99) as a duplicate entry instead of
dropping it (`len` grows to 6 and the flattening shows both key objects). -/
theorem c10_insert_equal_key_not_replaced_in_internal_node :
    exPairTree.root.keys = [(3, 0)] ∧
    exPairInsert.2 = none ∧
    exPairInsert.1.len = 6 ∧
    BTreeMap.getKeyValue pairCmp exPairInsert.1 (3, 77) = some ((3, 0), 3) ∧
    exPairInsert.1.root.flatten =
      [((1, 0), 1), ((2, 0), 2), ((3, 99), 333), ((3, 0), 3), ((4, 0), 4), ((5, 0), 5)] := by
  refine ⟨by decide, by decide, by decide, by decide, by decide⟩

/-! ## Structural helper lemmas -/

@[simp] theorem keys_mk (ks : List K) (vs : List V) (cs : List (Node K V)) :
    (Node.mk ks vs cs).keys = ks := rfl

@[simp] theorem vals_mk (ks : List K) (vs : List V) (cs : List (Node K V)) :
    (Node.mk ks vs cs).vals = vs := rfl

@[simp] theorem children_mk (ks : List K) (vs : List V) (cs : List (Node K V)) :
    (Node.mk ks vs cs).children = cs := rfl

@[simp] theorem len_mk (ks : List K) (vs : List V) (cs : List (Node K V)) :
    (Node.mk ks vs cs).len = ks.length := rfl

@[simp] theorem isLeaf_mk (ks : List K) (vs : List V) (cs : List (Node K V)) :
    (Node.mk ks vs cs).isLeaf = cs.isEmpty := rfl

@[simp] theorem isEmpty_mk (ks : List K) (vs : List V) (cs : List (Node K V)) :
    (Node.mk ks vs cs).isEmpty = ks.isEmpty := rfl

@[simp] theorem height_mk (ks : List K) (vs : List V) (cs : List (Node K V)) :
    (Node.mk ks vs cs).height = heightL cs + 1 := rfl

@[simp] theorem size_mk (ks : List K) (vs : List V) (cs : List (Node K V)) :
    (Node.mk ks vs cs).size = ks.length + sizeL cs := rfl

theorem node_eta (n : Node K V) : Node.mk n.keys n.vals n.children = n := by
  cases n
  rfl

theorem heightL_append (a b : List (Node K V)) :
    heightL (a ++ b) = max (heightL a) (heightL b) := by
  induction a with
  | nil => simp [heightL]
  | cons c a ih => simp [heightL, ih, Nat.max_assoc]

theorem height_le_heightL {c : Node K V} {cs : List (Node K V)} (h : c ∈ cs) :
    c.height ≤ heightL cs := by
  induction cs with
  | nil => cases h
  | cons d cs ih =>
    rcases List.mem_cons.mp h with rfl | h
    · simp [heightL]
    · simp only [heightL]
      exact le_trans (ih h) (Nat.le_max_right _ _)

theorem heightL_eq_of_mem {cs : List (Node K V)} {H : Nat}
    (hne : cs ≠ []) (h : ∀ c ∈ cs, c.height = H) : heightL cs = H := by
  induction cs with
  | nil => cases hne rfl
  | cons c cs ih =>
    rcases List.eq_nil_or_concat cs with rfl | _
    · simp [heightL, h c (List.mem_cons_self _ _)]
    · have hcs : cs ≠ [] := by rintro rfl; simp_all
      rw [heightL, ih hcs (fun d hd => h d (List.mem_cons_of_mem _ hd)),
        h c (List.mem_cons_self _ _)]
      simp

theorem sameHeightB_iff {cs : List (Node K V)} :
    sameHeightB cs = true ↔ ∀ a ∈ cs, ∀ b ∈ cs, a.height = b.height := by
  cases cs with
  | nil => simp [sameHeightB]
  | cons c cs =>
    simp only [sameHeightB, List.all_eq_true, beq_iff_eq]
    constructor
    · intro h a ha b hb
      rcases List.mem_cons.mp ha with ha' | ha' <;> rcases List.mem_cons.mp hb with hb' | hb'
      · rw [ha', hb']
      · rw [ha', h b hb']
      · rw [hb', h a ha']
      · rw [h a ha', h b hb']
    · intro h d hd
      exact h d (List.mem_cons_of_mem _ hd) c (List.mem_cons_self _ _)

theorem lastOr_nil (lo : Option K) : lastOr lo ([] : List K) = lo := rfl

theorem lastOr_cons (lo : Option K) (k : K) (ks : List K) :
    lastOr lo (k :: ks) = lastOr (some k) ks := by
  cases ks with
  | nil => rfl
  | cons k2 ks =>
    unfold lastOr
    rw [List.getLast?_cons_cons]
    cases h : (k2 :: ks).getLast? with
    | none => simp at h
    | some x => rfl

theorem childrenWf_nil_cs (cmp : Cmp K) (t : Nat) (lo hi : Option K) (ks : List K) :
    childrenWf (V := V) cmp t lo ks hi [] = true := by
  cases ks <;> rfl

theorem childrenWf_single (cmp : Cmp K) (t : Nat) (lo hi : Option K) (c : Node K V) :
    childrenWf cmp t lo [] hi [c] = Node.wfN cmp t lo hi c := rfl

theorem childrenWf_cons (cmp : Cmp K) (t : Nat) (lo hi : Option K) (k : K) (ks : List K)
    (c : Node K V) (cs : List (Node K V)) :
    childrenWf cmp t lo (k :: ks) hi (c :: cs) =
      (Node.wfN cmp t lo (some k) c && childrenWf cmp t (some k) ks hi cs) := rfl

theorem segWf_nil (cmp : Cmp K) (t : Nat) (lo : Option K) :
    segWf (V := V) cmp t lo [] [] = true := rfl

theorem segWf_cons (cmp : Cmp K) (t : Nat) (lo : Option K) (k : K) (ks : List K)
    (c : Node K V) (cs : List (Node K V)) :
    segWf cmp t lo (k :: ks) (c :: cs) =
      (Node.wfN cmp t lo (some k) c && segWf cmp t (some k) ks cs) := rfl

/-- Splitting `childrenWf` at a child boundary: a left segment of paired
(child, key) slots followed by the remaining children. -/
theorem childrenWf_append {cmp : Cmp K} {t : Nat} {lo hi : Option K}
    {A B : List K} {CA CB : List (Node K V)} (hlen : CA.length = A.length) :
    childrenWf cmp t lo (A ++ B) hi (CA ++ CB) =
      (segWf cmp t lo A CA && childrenWf cmp t (lastOr lo A) B hi CB) := by
  induction A generalizing lo CA with
  | nil =>
    have : CA = [] := List.length_eq_zero.mp (by simpa using hlen)
    subst this
    simp [segWf_nil, lastOr_nil]
  | cons k A ih =>
    cases CA with
    | nil => simp at hlen
    | cons c CA =>
      have hlen' : CA.length = A.length := by simpa using hlen
      rw [List.cons_append, List.cons_append, childrenWf_cons, ih hlen', segWf_cons,
        lastOr_cons, Bool.and_assoc]

/-- Unfolding of `wfN` on a constructed node, in propositional form. -/
theorem wfN_mk_iff [LinearOrder K] {t : Nat} {lo hi : Option K}
    {ks : List K} {vs : List V} {cs : List (Node K V)} :
    Node.wfN compare t lo hi (.mk ks vs cs) = true ↔
      (vs.length = ks.length ∧ t - 1 ≤ ks.length ∧ ks.length ≤ 2 * t - 1 ∧
       List.Chain' (· < ·) (lo.toList ++ ks ++ hi.toList) ∧
       (cs = [] ∨
        (cs.length = ks.length + 1 ∧ sameHeightB cs = true ∧
         childrenWf compare t lo ks hi cs = true))) := by
  show ((vs.length == ks.length) &&
    (decide (t - 1 ≤ ks.length)) && (decide (ks.length ≤ 2 * t - 1)) &&
    ascB compare (lo.toList ++ ks ++ hi.toList) &&
    (if cs.isEmpty then true
     else
       (cs.length == ks.length + 1) &&
       sameHeightB cs &&
       childrenWf compare t lo ks hi cs)) = true ↔ _
  cases cs with
  | nil =>
    simp only [List.isEmpty_nil, if_pos rfl, Bool.and_true, Bool.and_eq_true, beq_iff_eq,
      decide_eq_true_eq, ascB_chain]
    tauto
  | cons c cs' =>
    simp only [List.isEmpty_cons, if_neg Bool.false_ne_true, Bool.and_eq_true, beq_iff_eq,
      decide_eq_true_eq, ascB_chain, List.cons_ne_nil, false_or]
    tauto

/-- Unfolding of `rootWf`, in propositional form. -/
theorem rootWf_iff [LinearOrder K] {t : Nat} {ks : List K} {vs : List V}
    {cs : List (Node K V)} :
    rootWf compare t (.mk ks vs cs) = true ↔
      (vs.length = ks.length ∧ ks.length ≤ 2 * t - 1 ∧
       List.Chain' (· < ·) ks ∧
       (cs = [] ∨
        (ks ≠ [] ∧ cs.length = ks.length + 1 ∧ sameHeightB cs = true ∧
         childrenWf compare t none ks none cs = true))) := by
  show ((vs.length == ks.length) &&
    (decide (ks.length ≤ 2 * t - 1)) &&
    ascB compare ks &&
    (if (Node.mk ks vs cs).isLeaf then true
     else
       (!ks.isEmpty) &&
       (cs.length == ks.length + 1) &&
       sameHeightB cs &&
       childrenWf compare t none ks none cs)) = true ↔ _
  cases cs with
  | nil =>
    simp only [isLeaf_mk, List.isEmpty_nil, if_pos rfl, Bool.and_true, Bool.and_eq_true,
      beq_iff_eq, decide_eq_true_eq, ascB_chain]
    tauto
  | cons c cs' =>
    simp only [isLeaf_mk, List.isEmpty_cons, if_neg Bool.false_ne_true, Bool.and_eq_true,
      beq_iff_eq, decide_eq_true_eq, ascB_chain, List.cons_ne_nil, false_or,
      Bool.not_eq_eq_eq_not, Bool.not_true, List.isEmpty_eq_false, ne_eq]
    tauto

/-! ## Bound-extraction helpers for ordered windows -/

theorem headOr_nil (hi : Option K) : headOr hi ([] : List K) = hi := rfl

theorem headOr_cons (hi : Option K) (k : K) (ks : List K) :
    headOr hi (k :: ks) = some k := rfl

theorem lastOr_eq_getLast (lo : Option K) (A : List K) :
    lastOr lo A = (lo.toList ++ A).getLast? := by
  cases hA : A.getLast? with
  | none =>
    have : A = [] := List.getLast?_eq_none_iff.mp hA
    subst this
    cases lo <;> rfl
  | some m =>
    have hne : A ≠ [] := by rintro rfl; simp at hA
    rw [List.getLast?_append_of_ne_nil _ hne]
    simp [lastOr, hA]

theorem headOr_eq_head (hi : Option K) (B : List K) :
    headOr hi B = (B ++ hi.toList).head? := by
  cases B with
  | nil => cases hi <;> rfl
  | cons k B => rfl

theorem getLast?_some_mem {l : List K} {m : K} (h : l.getLast? = some m) : m ∈ l := by
  obtain ⟨hne, rfl⟩ := List.mem_getLast?_eq_getLast (Option.mem_def.mpr h)
  exact List.getLast_mem hne

theorem pairwise_le_getLast [LinearOrder K] {L : List K} (h : List.Pairwise (· < ·) L)
    {m : K} (hm : L.getLast? = some m) : ∀ a ∈ L, a ≤ m := by
  induction L with
  | nil => simp
  | cons x L ih =>
    intro a ha
    cases L with
    | nil =>
      simp only [List.getLast?_singleton, Option.some.injEq] at hm
      simp only [List.mem_singleton] at ha
      simp [ha, hm]
    | cons y L' =>
      rw [List.getLast?_cons_cons] at hm
      rcases List.mem_cons.mp ha with rfl | ha'
      · have hmmem : m ∈ y :: L' := getLast?_some_mem hm
        exact le_of_lt ((List.pairwise_cons.mp h).1 m hmmem)
      · exact ih (List.pairwise_cons.mp h).2 hm a ha'

theorem pairwise_head_le [LinearOrder K] {L : List K} (h : List.Pairwise (· < ·) L)
    {m : K} (hm : L.head? = some m) : ∀ a ∈ L, m ≤ a := by
  cases L with
  | nil => simp
  | cons x L =>
    simp only [List.head?_cons, Option.some.injEq] at hm
    subst hm
    intro a ha
    rcases List.mem_cons.mp ha with rfl | ha'
    · exact le_rfl
    · exact le_of_lt ((List.pairwise_cons.mp h).1 a ha')

theorem take_eq_take_concat {α : Type} {l : List α} {n : Nat} (h1 : 1 ≤ n)
    (h2 : n ≤ l.length) :
    ∃ m, l.get? (n - 1) = some m ∧ l.take n = l.take (n - 1) ++ [m] := by
  have hlt : n - 1 < l.length := by omega
  refine ⟨l[n - 1], by simp [List.get?_eq_getElem?, List.getElem?_eq_getElem hlt], ?_⟩
  have hn : n - 1 + 1 = n := by omega
  conv_lhs => rw [← hn]
  rw [List.take_succ]
  simp [List.getElem?_eq_getElem hlt]

/-- A left segment over keys ending in `m` is the same as a `childrenWf` block
bounded above by `m`. -/
theorem segWf_concat_eq_childrenWf {cmp : Cmp K} {t : Nat} {lo : Option K} {m : K}
    {ks : List K} {cs : List (Node K V)} (hlen : cs.length = ks.length) (c : Node K V) :
    segWf cmp t lo (ks ++ [m]) (cs ++ [c]) = childrenWf cmp t lo ks (some m) (cs ++ [c]) := by
  induction ks generalizing lo cs with
  | nil =>
    have : cs = [] := List.length_eq_zero.mp hlen
    subst this
    simp [segWf_cons, segWf_nil, childrenWf_single]
  | cons k ks ih =>
    cases cs with
    | nil => simp at hlen
    | cons d cs =>
      have hlen' : cs.length = ks.length := by simpa using hlen
      rw [List.cons_append, List.cons_append, segWf_cons, childrenWf_cons, ih hlen']

theorem lastOr_concat (lo : Option K) (xs : List K) (m : K) :
    lastOr lo (xs ++ [m]) = some m := by
  unfold lastOr
  rw [List.getLast?_concat]

/-- `insertIdx` as a take/insert/drop splice. -/
theorem insertIdx_eq_take_cons_drop {α : Type} (x : α) :
    ∀ (n : Nat) (l : List α), n ≤ l.length →
      l.insertIdx n x = l.take n ++ x :: l.drop n
  | 0, l, _ => by simp [List.insertIdx_zero]
  | n + 1, [], h => by simp at h
  | n + 1, a :: l, h => by
    rw [List.insertIdx_succ_cons, insertIdx_eq_take_cons_drop x n l (by simpa using h)]
    simp

/-! ## Claim C5 (confirmed): `split_child` -/

/-- C5: splitting the full child `c = children[i]` of a non-full well-formed
node cuts `c` at its median (position `t−1`): the median key/value pair is
promoted into `self` at position `i`, the left half keeps keys/values
`[0..t−1)` (and children `[0..t)` when internal), the right sibling at
`i + 1` receives keys/values `[t..2t−1)` (and children `[t..2t)`), both
halves end up with exactly `t − 1` keys, and the result is again well-formed
(invariants 1–4 of the spec, for `self` and both halves). -/
theorem c5_split_child [LinearOrder K] (t i : Nat) (lo hi : Option K)
    (n c : Node K V) (ht : 2 ≤ t)
    (hwf : Node.wfN compare t lo hi n = true)
    (hnotfull : n.isFull t = false)
    (hgetc : n.children.get? i = some c)
    (hcfull : c.isFull t = true) :
    ∃ medk medv,
      c.keys.get? (t - 1) = some medk ∧ c.vals.get? (t - 1) = some medv ∧
      (n.splitChild i t).keys = n.keys.insertIdx i medk ∧
      (n.splitChild i t).vals = n.vals.insertIdx i medv ∧
      (n.splitChild i t).children =
        (n.children.set i
            (Node.mk (c.keys.take (t - 1)) (c.vals.take (t - 1))
              (if c.isLeaf then [] else c.children.take t))).insertIdx (i + 1)
          (Node.mk (c.keys.drop t) (c.vals.drop t)
            (if c.isLeaf then [] else c.children.drop t)) ∧
      (c.keys.take (t - 1)).length = t - 1 ∧
      (c.keys.drop t).length = t - 1 ∧
      Node.wfN compare t lo hi (n.splitChild i t) = true := by
  obtain ⟨ks, vs, cs⟩ := n
  obtain ⟨cks, cvs, ccs⟩ := c
  simp only [children_mk] at hgetc
  have hic : i < cs.length := by
    by_contra hcon
    rw [List.get?_eq_none.mpr (by omega)] at hgetc
    exact Option.noConfusion hgetc
  have hcsi : cs[i] = Node.mk cks cvs ccs := by
    have hg := List.get?_eq_get hic
    rw [hg] at hgetc
    simpa using hgetc
  obtain ⟨hpv, hmin, hmax, hchain, hkid⟩ := wfN_mk_iff.mp hwf
  rcases hkid with hnil | ⟨hclen, hsh, hcw⟩
  · subst hnil; simp at hic
  have hile : i ≤ ks.length := by omega
  have hckslen : cks.length = 2 * t - 1 := by
    have hf : ((Node.mk cks cvs ccs).len == 2 * t - 1) = true := hcfull
    simpa using hf
  have hksnotfull : ks.length ≠ 2 * t - 1 := by
    have hf : ((Node.mk ks vs cs).len == 2 * t - 1) = false := hnotfull
    simpa using hf
  -- split the parent's keys and children around position i
  set A := ks.take i with hA
  set B := ks.drop i with hB
  set CA := cs.take i with hCA
  set CB := cs.drop (i + 1) with hCB
  have hkssplit : ks = A ++ B := (List.take_append_drop i ks).symm
  have hcssplit : cs = CA ++ Node.mk cks cvs ccs :: CB := by
    conv_lhs => rw [← List.take_append_drop i cs]
    rw [List.drop_eq_getElem_cons hic, hcsi, ← hCA, ← hCB]
  have hCAlen : CA.length = A.length := by
    rw [hCA, hA, List.length_take, List.length_take]
    omega
  set lo' := lastOr lo A with hlo'
  set w := headOr hi B with hw
  have hcwsplit :
      (segWf compare t lo A CA &&
        childrenWf compare t lo' B hi (Node.mk cks cvs ccs :: CB)) = true := by
    rw [← childrenWf_append hCAlen, ← hkssplit, ← hcssplit]
    exact hcw
  have hsegcw : segWf compare t lo A CA = true ∧
      childrenWf compare t lo' B hi (Node.mk cks cvs ccs :: CB) = true := by
    have h := hcwsplit
    simp only [Bool.and_eq_true] at h
    exact h
  have hseg : segWf compare t lo A CA = true := hsegcw.1
  have hcwB : childrenWf compare t lo' B hi (Node.mk cks cvs ccs :: CB) = true := hsegcw.2
  -- the child is well-formed in its window; remember the shape of the suffix
  have hrest : Node.wfN compare t lo' w (Node.mk cks cvs ccs) = true ∧
      ((B = [] ∧ CB = [] ∧ w = hi) ∨
       (∃ bk B', B = bk :: B' ∧ w = some bk ∧
         childrenWf compare t (some bk) B' hi CB = true)) := by
    cases hBc : B with
    | nil =>
      cases hCBc : CB with
      | nil =>
        rw [hBc, hCBc] at hcwB
        rw [childrenWf_single] at hcwB
        exact ⟨by rw [hw, hBc, headOr_nil]; exact hcwB, Or.inl ⟨rfl, rfl, by rw [hw, hBc, headOr_nil]⟩⟩
      | cons d CB' =>
        rw [hBc, hCBc] at hcwB
        exact absurd hcwB (by simp [childrenWf])
    | cons bk B' =>
      rw [hBc] at hcwB
      rw [childrenWf_cons, Bool.and_eq_true] at hcwB
      refine ⟨by rw [hw, hBc, headOr_cons]; exact hcwB.1,
        Or.inr ⟨bk, B', rfl, by rw [hw, hBc, headOr_cons], hcwB.2⟩⟩
  obtain ⟨hcnwf, hsuffix⟩ := hrest
  obtain ⟨hcpv, hcmin, hcmax, hcchain, hckid⟩ := wfN_mk_iff.mp hcnwf
  have hcvslen : cvs.length = 2 * t - 1 := by rw [hcpv, hckslen]
  -- median extraction
  obtain ⟨medk, hmedk, htakek⟩ :=
    take_eq_take_concat (l := cks) (n := t) (by omega) (by omega)
  obtain ⟨medv, hmedv, htakev⟩ :=
    take_eq_take_concat (l := cvs) (n := t) (by omega) (by omega)
  have hckssplit : cks = cks.take (t - 1) ++ medk :: cks.drop t := by
    conv_lhs => rw [← List.take_append_drop t cks]
    rw [htakek]
    simp
  have hmedk_mem : medk ∈ cks := by rw [hckssplit]; simp
  -- the two halves (children as the code computes them: the left keeps the
  -- original empty list when the child is a leaf)
  set L : Node K V := Node.mk (cks.take (t - 1)) (cvs.take (t - 1))
    (if ccs.isEmpty then ccs else ccs.take t) with hL
  set R : Node K V := Node.mk (cks.drop t) (cvs.drop t)
    (if ccs.isEmpty then [] else ccs.drop t) with hR
  have hLbridge : L = Node.mk (cks.take (t - 1)) (cvs.take (t - 1))
      (if ccs.isEmpty then [] else ccs.take t) := by
    rw [hL]
    cases hccse : ccs.isEmpty with
    | true =>
      have : ccs = [] := List.isEmpty_iff.mp hccse
      subst this
      rfl
    | false => rfl
  -- evaluate split_child
  have hsplit_eq : (Node.mk ks vs cs).splitChild i t =
      Node.mk (ks.insertIdx i medk) (vs.insertIdx i medv)
        ((cs.set i L).insertIdx (i + 1) R) := by
    rw [Node.splitChild]
    simp only [keys_mk, vals_mk, children_mk, isLeaf_mk, hgetc]
    rw [htakek, htakev]
    simp only [List.getLast?_concat, List.dropLast_concat]
  -- ordered-window facts for the outer chain
  have hbigpw : List.Pairwise (· < ·) ((Option.toList lo ++ A) ++ (B ++ Option.toList hi)) := by
    have hp := List.chain'_iff_pairwise.mp hchain
    rw [hkssplit] at hp
    simpa [List.append_assoc] using hp
  have hcpw : List.Pairwise (· < ·) (Option.toList lo' ++ (cks ++ Option.toList w)) := by
    have hp := List.chain'_iff_pairwise.mp hcchain
    simpa [List.append_assoc] using hp
  have hA_lt_medk : ∀ a ∈ Option.toList lo ++ A, a < medk := by
    intro a ha
    have hLlast : (Option.toList lo ++ A).getLast? = lo' := (lastOr_eq_getLast lo A).symm
    cases hlov : lo' with
    | none =>
      rw [hlov] at hLlast
      rw [List.getLast?_eq_none_iff.mp hLlast] at ha
      cases ha
    | some lov =>
      have hlast : (Option.toList lo ++ A).getLast? = some lov := by rw [hLlast, hlov]
      have h1 : a ≤ lov :=
        pairwise_le_getLast (List.pairwise_append.mp hbigpw).1 hlast a ha
      have h2 : lov < medk := by
        have hcross := (List.pairwise_append.mp hcpw).2.2
        exact hcross lov (by rw [hlov]; simp) medk (List.mem_append_left _ hmedk_mem)
      exact lt_of_le_of_lt h1 h2
  have hB_gt_medk : ∀ b ∈ B ++ Option.toList hi, medk < b := by
    intro b hb
    have hhead : (B ++ Option.toList hi).head? = w := (headOr_eq_head hi B).symm
    cases hwv : w with
    | none =>
      rw [hwv] at hhead
      rw [List.head?_eq_none_iff.mp hhead] at hb
      cases hb
    | some wv =>
      have hh : (B ++ Option.toList hi).head? = some wv := by rw [hhead, hwv]
      have h1 : wv ≤ b :=
        pairwise_head_le (List.pairwise_append.mp hbigpw).2.1 hh b hb
      have h2 : medk < wv := by
        have hpw2 := (List.pairwise_append.mp hcpw).2.1
        exact (List.pairwise_append.mp hpw2).2.2 medk hmedk_mem wv (by rw [hwv]; simp)
      exact lt_of_lt_of_le h2 h1
  have hins : ks.insertIdx i medk = A ++ medk :: B := by
    rw [insertIdx_eq_take_cons_drop medk i ks hile]
  have hnewchain : List.Chain' (· < ·)
      (Option.toList lo ++ ks.insertIdx i medk ++ Option.toList hi) := by
    rw [hins, List.chain'_iff_pairwise]
    have hre : Option.toList lo ++ (A ++ medk :: B) ++ Option.toList hi =
        (Option.toList lo ++ A) ++ medk :: (B ++ Option.toList hi) := by
      simp [List.append_assoc]
    rw [hre]
    refine List.pairwise_append.mpr ⟨(List.pairwise_append.mp hbigpw).1, ?_, ?_⟩
    · exact List.pairwise_cons.mpr ⟨hB_gt_medk, (List.pairwise_append.mp hbigpw).2.1⟩
    · intro a ha b hb
      rcases List.mem_cons.mp hb with rfl | hb'
      · exact hA_lt_medk a ha
      · exact (List.pairwise_append.mp hbigpw).2.2 a ha b hb'
  -- heights
  have hmemcs : Node.mk cks cvs ccs ∈ cs := by
    rw [← hcsi]
    exact List.getElem_mem hic
  have hsall : ∀ x ∈ cs, x.height = (Node.mk cks cvs ccs).height :=
    fun x hx => sameHeightB_iff.mp hsh x hx _ hmemcs
  have hLRheights : L.height = (Node.mk cks cvs ccs).height ∧
      R.height = (Node.mk cks cvs ccs).height := by
    cases hccse : ccs.isEmpty with
    | true =>
      have hcc0 : ccs = [] := List.isEmpty_iff.mp hccse
      subst hcc0
      rw [hL, hR]
      simp
    | false =>
      have hccsne : ccs ≠ [] := by
        intro hcc0
        rw [hcc0] at hccse
        simp at hccse
      rcases hckid with hcc0 | ⟨hccslen, hcsh, _⟩
      · exact absurd hcc0 hccsne
      obtain ⟨c0, hc0⟩ := List.exists_mem_of_ne_nil ccs hccsne
      have huni : ∀ x ∈ ccs, x.height = c0.height :=
        fun x hx => sameHeightB_iff.mp hcsh x hx c0 hc0
      have hlccs : heightL ccs = c0.height := heightL_eq_of_mem hccsne huni
      have htkne : ccs.take t ≠ [] := by
        apply List.ne_nil_of_length_pos
        rw [List.length_take]
        omega
      have hdrne : ccs.drop t ≠ [] := by
        apply List.ne_nil_of_length_pos
        rw [List.length_drop]
        omega
      have htk : heightL (ccs.take t) = c0.height :=
        heightL_eq_of_mem htkne (fun x hx => huni x ((List.take_sublist t ccs).subset hx))
      have hdr : heightL (ccs.drop t) = c0.height :=
        heightL_eq_of_mem hdrne (fun x hx => huni x ((List.drop_sublist t ccs).subset hx))
      rw [hL, hR]
      simp only [hccse, height_mk]
      rw [if_neg (by simp), if_neg (by simp), htk, hdr, hlccs]
      exact ⟨rfl, rfl⟩
  have hCAi : CA.length = i := by
    rw [hCA, List.length_take]
    omega
  have hset : cs.set i L = CA ++ L :: CB := by
    rw [List.set_eq_take_cons_drop L hic, ← hCA, ← hCB]
  have hinsert : (cs.set i L).insertIdx (i + 1) R = CA ++ L :: R :: CB := by
    rw [hset]
    have h1 : CA ++ L :: CB = (CA ++ [L]) ++ CB := by simp
    have hlen1 : (CA ++ [L]).length = i + 1 := by simp [hCAi]
    rw [h1, insertIdx_eq_take_cons_drop R (i + 1) _
        (by simp only [List.length_append, List.length_cons, hCAi]; omega),
      List.take_left' hlen1, List.drop_left' hlen1]
    simp
  have hnewsh : sameHeightB ((cs.set i L).insertIdx (i + 1) R) = true := by
    rw [hinsert, sameHeightB_iff]
    have hmem : ∀ x, x ∈ CA ++ L :: R :: CB → x.height = (Node.mk cks cvs ccs).height := by
      intro x hx
      rcases List.mem_append.mp hx with hx1 | hx2
      · exact hsall x ((List.take_sublist i cs).subset (hCA ▸ hx1))
      · rcases List.mem_cons.mp hx2 with rfl | hx3
        · exact hLRheights.1
        · rcases List.mem_cons.mp hx3 with rfl | hx4
          · exact hLRheights.2
          · exact hsall x ((List.drop_sublist (i + 1) cs).subset (hCB ▸ hx4))
    intro a ha b hb
    rw [hmem a ha, hmem b hb]
  -- well-formedness of the two halves
  have hbigeqL : Option.toList lo' ++ (cks ++ Option.toList w) =
      (Option.toList lo' ++ List.take t cks) ++ (List.drop t cks ++ Option.toList w) := by
    conv_lhs => rw [← List.take_append_drop t cks]
    simp only [List.append_assoc]
  have hbigeqR : Option.toList lo' ++ (cks ++ Option.toList w) =
      (Option.toList lo' ++ List.take (t - 1) cks) ++
        (medk :: (List.drop t cks ++ Option.toList w)) := by
    conv_lhs => rw [hckssplit]
    simp only [List.append_assoc, List.cons_append]
  have hLwf : Node.wfN compare t lo' (some medk) L = true := by
    rw [hL, wfN_mk_iff]
    refine ⟨?_, ?_, ?_, ?_, ?_⟩
    · simp [List.length_take]
      omega
    · simp [List.length_take]
      omega
    · simp [List.length_take]
      omega
    · rw [List.chain'_iff_pairwise]
      have htgt : Option.toList lo' ++ List.take (t - 1) cks ++ Option.toList (some medk) =
          Option.toList lo' ++ List.take t cks := by
        rw [htakek]
        simp [List.append_assoc]
      rw [htgt]
      refine List.Pairwise.sublist ?_ (hbigeqL ▸ hcpw)
      exact List.sublist_append_left _ _
    · cases hccse : ccs.isEmpty with
      | true =>
        rw [if_pos rfl]
        exact Or.inl (List.isEmpty_iff.mp hccse)
      | false =>
        rw [if_neg (by simp)]
        have hccsne : ccs ≠ [] := by
          intro hcc0
          rw [hcc0] at hccse
          simp at hccse
        rcases hckid with hcc0 | ⟨hccslen, hcsh, hccw⟩
        · exact absurd hcc0 hccsne
        have hccs2t : ccs.length = 2 * t := by omega
        refine Or.inr ⟨?_, ?_, ?_⟩
        · simp [List.length_take]
          omega
        · rw [sameHeightB_iff]
          intro a ha b hb
          exact sameHeightB_iff.mp hcsh a ((List.take_sublist t ccs).subset ha)
            b ((List.take_sublist t ccs).subset hb)
        · have hccw' := hccw
          rw [← List.take_append_drop t cks, ← List.take_append_drop t ccs,
            childrenWf_append (by simp [List.length_take]; omega)] at hccw'
          have hccw2 : segWf compare t lo' (List.take t cks) (List.take t ccs) = true ∧
              childrenWf compare t (lastOr lo' (List.take t cks)) (List.drop t cks) w
                (List.drop t ccs) = true := by
            simp only [Bool.and_eq_true] at hccw'
            exact hccw'
          obtain ⟨cl, hcl, htakec⟩ :=
            take_eq_take_concat (l := ccs) (n := t) (by omega) (by omega)
          have hseg2 := hccw2.1
          rw [htakek, htakec,
            segWf_concat_eq_childrenWf (by simp [List.length_take]; omega)] at hseg2
          rw [htakec]
          exact hseg2
  have hRwf : Node.wfN compare t (some medk) w R = true := by
    rw [hR, wfN_mk_iff]
    refine ⟨?_, ?_, ?_, ?_, ?_⟩
    · simp [List.length_drop]
      omega
    · simp [List.length_drop]
      omega
    · simp [List.length_drop]
      omega
    · rw [List.chain'_iff_pairwise]
      have htgt : Option.toList (some medk) ++ List.drop t cks ++ Option.toList w =
          medk :: (List.drop t cks ++ Option.toList w) := by
        simp [List.append_assoc]
      rw [htgt]
      refine List.Pairwise.sublist ?_ (hbigeqR ▸ hcpw)
      exact List.sublist_append_right _ _
    · cases hccse : ccs.isEmpty with
      | true =>
        rw [if_pos rfl]
        exact Or.inl rfl
      | false =>
        rw [if_neg (by simp)]
        have hccsne : ccs ≠ [] := by
          intro hcc0
          rw [hcc0] at hccse
          simp at hccse
        rcases hckid with hcc0 | ⟨hccslen, hcsh, hccw⟩
        · exact absurd hcc0 hccsne
        have hccs2t : ccs.length = 2 * t := by omega
        refine Or.inr ⟨?_, ?_, ?_⟩
        · simp [List.length_drop]
          omega
        · rw [sameHeightB_iff]
          intro a ha b hb
          exact sameHeightB_iff.mp hcsh a ((List.drop_sublist t ccs).subset ha)
            b ((List.drop_sublist t ccs).subset hb)
        · have hccw' := hccw
          rw [← List.take_append_drop t cks, ← List.take_append_drop t ccs,
            childrenWf_append (by simp [List.length_take]; omega)] at hccw'
          have hccw2 : segWf compare t lo' (List.take t cks) (List.take t ccs) = true ∧
              childrenWf compare t (lastOr lo' (List.take t cks)) (List.drop t cks) w
                (List.drop t ccs) = true := by
            simp only [Bool.and_eq_true] at hccw'
            exact hccw'
          have hlast : lastOr lo' (List.take t cks) = some medk := by
            rw [htakek, lastOr_concat]
          rw [← hlast]
          exact hccw2.2
  -- new children well-formedness
  have hnewcw : childrenWf compare t lo (ks.insertIdx i medk) hi
      ((cs.set i L).insertIdx (i + 1) R) = true := by
    rw [hinsert, hins, childrenWf_append hCAlen, Bool.and_eq_true]
    refine ⟨hseg, ?_⟩
    rw [childrenWf_cons, Bool.and_eq_true]
    refine ⟨hLwf, ?_⟩
    rcases hsuffix with ⟨hB0, hCB0, hwhi⟩ | ⟨bk, B', hBc, hwbk, hrest2⟩
    · rw [hB0, hCB0, childrenWf_single, ← hwhi]
      exact hRwf
    · rw [hBc, childrenWf_cons, Bool.and_eq_true]
      exact ⟨hwbk ▸ hRwf, hrest2⟩
  -- assemble
  refine ⟨medk, medv, by simpa using hmedk, by simpa using hmedv, ?_, ?_, ?_, ?_, ?_, ?_⟩
  · rw [hsplit_eq]
    rfl
  · rw [hsplit_eq]
    rfl
  · rw [hsplit_eq, hLbridge]
    simp
  · simp [List.length_take]
    omega
  · simp [List.length_drop]
    omega
  · rw [hsplit_eq, wfN_mk_iff]
    refine ⟨?_, ?_, ?_, hnewchain, Or.inr ⟨?_, hnewsh, hnewcw⟩⟩
    · rw [List.length_insertIdx _ _ hile, List.length_insertIdx _ _ (by omega), hpv]
    · rw [List.length_insertIdx _ _ hile]
      omega
    · rw [List.length_insertIdx _ _ hile]
      omega
    · rw [List.length_insertIdx _ _ hile]
      have hsetlen : (cs.set i L).length = cs.length := by simp
      rw [List.length_insertIdx _ _ (by omega), hsetlen]
      omega

/-- Concrete parent for the C5 witness: root-like node `[10]` with a full
left child `[1,2,3]` (degree 2) and leaf `[20]`. -/
def wSplitParent : Node Nat Nat :=
  .mk [10] [10] [.mk [1, 2, 3] [1, 2, 3] [], .mk [20] [20] []]

/-- The full child of `wSplitParent` at index 0. -/
def wSplitFull : Node Nat Nat := .mk [1, 2, 3] [1, 2, 3] []

/-- Witness for C5 at degree 2: all hypotheses evaluate on the concrete node
and the theorem yields well-formedness of the split result. -/
theorem c5_split_child_witness :
    (2 ≤ 2 ∧
     Node.wfN compare 2 none none wSplitParent = true ∧
     wSplitParent.isFull 2 = false ∧
     wSplitParent.children.get? 0 = some wSplitFull ∧
     wSplitFull.isFull 2 = true) ∧
    Node.wfN compare 2 none none (wSplitParent.splitChild 0 2) = true :=
  ⟨⟨by decide, by decide, by decide, rfl, by decide⟩, by
    obtain ⟨mk', mv', h1, h2, h3, h4, h5, h6, h7, h8⟩ :=
      c5_split_child 2 0 none none wSplitParent wSplitFull (by decide) (by decide)
        (by decide) rfl (by decide)
    exact h8⟩

/-! ## Structural soundness lemmas (towards the iterator, C7/C9) -/

theorem soundL_iff {cs : List (Node K V)} :
    soundL cs = true ↔ ∀ c ∈ cs, c.soundN = true := by
  induction cs with
  | nil => simp [soundL]
  | cons c cs ih =>
    simp only [soundL, Bool.and_eq_true, ih, List.mem_cons]
    constructor
    · rintro ⟨h1, h2⟩ d hd
      rcases hd with rfl | hd
      · exact h1
      · exact h2 d hd
    · intro h
      exact ⟨h c (Or.inl rfl), fun d hd => h d (Or.inr hd)⟩

theorem soundN_mk_iff {ks : List K} {vs : List V} {cs : List (Node K V)} :
    (Node.mk ks vs cs).soundN = true ↔
      ks ≠ [] ∧ vs.length = ks.length ∧
      (cs = [] ∨ (cs.length = ks.length + 1 ∧ soundL cs = true)) := by
  show ((!ks.isEmpty) && (vs.length == ks.length) &&
    (cs.isEmpty || ((cs.length == ks.length + 1) && soundL cs))) = true ↔ _
  cases cs with
  | nil =>
    simp [List.isEmpty_eq_false]
  | cons c cs' =>
    simp only [List.isEmpty_eq_false, Bool.and_eq_true, Bool.or_eq_true, beq_iff_eq,
      Bool.not_eq_eq_eq_not, Bool.not_true, List.isEmpty_cons, List.cons_ne_nil, false_or,
      List.length_cons, ne_eq]
    tauto

theorem childrenWf_mem_wf {cmp : Cmp K} {t : Nat} :
    ∀ {lo hi : Option K} {ks : List K} {cs : List (Node K V)},
      childrenWf cmp t lo ks hi cs = true → ∀ c ∈ cs,
        ∃ lo' hi', Node.wfN cmp t lo' hi' c = true := by
  intro lo hi ks cs
  induction cs generalizing lo ks with
  | nil => intro _ c hc; cases hc
  | cons c0 cs' ih =>
    intro hcw c hc
    cases ks with
    | nil =>
      cases cs' with
      | nil =>
        rw [childrenWf_single] at hcw
        rcases List.mem_singleton.mp hc with rfl
        exact ⟨lo, hi, hcw⟩
      | cons d cs'' => exact absurd hcw (by simp [childrenWf])
    | cons k ks' =>
      rw [childrenWf_cons, Bool.and_eq_true] at hcw
      rcases List.mem_cons.mp hc with rfl | hc'
      · exact ⟨lo, some k, hcw.1⟩
      · exact ih hcw.2 c hc'

theorem wfN_sound_aux [LinearOrder K] {t : Nat} (ht : 2 ≤ t) :
    ∀ (H : Nat) (n : Node K V) (lo hi : Option K), n.height ≤ H →
      Node.wfN compare t lo hi n = true → n.soundN = true := by
  intro H
  induction H with
  | zero =>
    intro n lo hi hh
    obtain ⟨ks, vs, cs⟩ := n
    simp [height_mk] at hh
  | succ H ih =>
    intro n lo hi hh hwf
    obtain ⟨ks, vs, cs⟩ := n
    obtain ⟨hpv, hmin, hmax, _, hkid⟩ := wfN_mk_iff.mp hwf
    rw [soundN_mk_iff]
    refine ⟨?_, hpv, ?_⟩
    · intro hks0
      rw [hks0] at hmin
      simp at hmin
      omega
    · rcases hkid with hnil | ⟨hclen, _, hcw⟩
      · exact Or.inl hnil
      · refine Or.inr ⟨hclen, soundL_iff.mpr fun c hc => ?_⟩
        obtain ⟨lo', hi', hcwf⟩ := childrenWf_mem_wf hcw c hc
        refine ih c lo' hi' ?_ hcwf
        have h1 : c.height ≤ heightL cs := height_le_heightL hc
        simp only [height_mk] at hh
        omega

/-- Well-formedness with degree ≥ 2 implies structural soundness. -/
theorem wfN_sound [LinearOrder K] {t : Nat} (ht : 2 ≤ t) {n : Node K V}
    {lo hi : Option K} (hwf : Node.wfN compare t lo hi n = true) : n.soundN = true :=
  wfN_sound_aux ht n.height n lo hi le_rfl hwf

/-- A well-formed nonempty root is structurally sound. -/
theorem rootWf_sound [LinearOrder K] {t : Nat} (ht : 2 ≤ t) {n : Node K V}
    (hwf : rootWf compare t n = true) (hne : n.keys ≠ []) : n.soundN = true := by
  obtain ⟨ks, vs, cs⟩ := n
  obtain ⟨hpv, hmax, _, hkid⟩ := rootWf_iff.mp hwf
  rw [soundN_mk_iff]
  refine ⟨hne, hpv, ?_⟩
  rcases hkid with hnil | ⟨_, hclen, hsh, hcw⟩
  · exact Or.inl hnil
  · refine Or.inr ⟨hclen, soundL_iff.mpr fun c hc => ?_⟩
    obtain ⟨lo', hi', hcwf⟩ := childrenWf_mem_wf hcw c hc
    exact wfN_sound ht hcwf

/-! ## Flattening and frame denotation lemmas -/

theorem flatten_mk (ks : List K) (vs : List V) (cs : List (Node K V)) :
    (Node.mk ks vs cs).flatten = flattenZip ks vs cs := rfl

theorem flattenZip_nil_cs (ks : List K) (vs : List V) :
    flattenZip (V := V) ks vs [] = ks.zip vs := by
  cases ks <;> cases vs <;> rfl

theorem flattenZip_single (ks : List K) (vs : List V) (c : Node K V) :
    flattenZip ks vs [c] = c.flatten := by
  cases ks <;> cases vs <;> rfl

theorem flattenZip_cons (k : K) (ks : List K) (v : V) (vs : List V)
    (c c2 : Node K V) (cs : List (Node K V)) :
    flattenZip (k :: ks) (v :: vs) (c :: c2 :: cs) =
      c.flatten ++ (k, v) :: flattenZip ks vs (c2 :: cs) := rfl

theorem frameRest_oob {ks : List K} {vs : List V} {cs : List (Node K V)} {i : Nat}
    (h : ks.get? i = none) : frameRest (Node.mk ks vs cs) i = [] := by
  rw [frameRest]
  simp only [keys_mk, vals_mk, h]

theorem frameRest_leaf {ks : List K} {vs : List V} (hpv : vs.length = ks.length) (i : Nat) :
    frameRest (Node.mk ks vs []) i = (ks.drop i).zip (vs.drop i) := by
  cases hk : ks.get? i with
  | none =>
    rw [frameRest_oob hk]
    have hlen : ks.length ≤ i := List.get?_eq_none.mp hk
    rw [List.drop_eq_nil_of_le hlen]
    simp
  | some k =>
    have hik : i < ks.length := by
      by_contra hcon
      rw [List.get?_eq_none.mpr (by omega)] at hk
      exact Option.noConfusion hk
    have hiv : i < vs.length := by omega
    have hv : vs.get? i = some vs[i] := List.get?_eq_get hiv
    rw [frameRest]
    simp only [keys_mk, vals_mk, children_mk, hk, hv, List.drop_nil, flattenZip_nil_cs]
    rw [List.drop_eq_getElem_cons hik, List.drop_eq_getElem_cons hiv]
    simp only [List.zip_cons_cons]
    have : ks[i] = k := by
      have := List.get?_eq_get hik
      rw [this] at hk
      simpa using hk
    rw [this]

/-- One step of a frame's denotation: entry `i`, then the subtree right of it
(if any), then the rest of the frame. -/
theorem frameRest_step {ks : List K} {vs : List V} {cs : List (Node K V)} {i : Nat}
    (hpv : vs.length = ks.length)
    (hcs : cs = [] ∨ cs.length = ks.length + 1) (hi : i < ks.length) :
    ∃ k v, ks.get? i = some k ∧ vs.get? i = some v ∧
      frameRest (Node.mk ks vs cs) i =
        (k, v) :: ((match cs.get? (i + 1) with | some c => c.flatten | none => []) ++
          frameRest (Node.mk ks vs cs) (i + 1)) := by
  have hiv : i < vs.length := by omega
  refine ⟨ks[i], vs[i], List.get?_eq_get hi, List.get?_eq_get hiv, ?_⟩
  rw [frameRest]
  simp only [keys_mk, vals_mk, children_mk, List.get?_eq_get hi, List.get?_eq_get hiv]
  rcases hcs with rfl | hclen
  · -- leaf: no subtree to the right
    simp only [List.drop_nil, flattenZip_nil_cs, List.get?_nil]
    rw [frameRest_leaf hpv]
    simp
  · -- internal node
    have hic : i + 1 < cs.length := by omega
    have hdropc : cs.drop (i + 1) = cs[i + 1] :: cs.drop (i + 2) :=
      List.drop_eq_getElem_cons hic
    rw [hdropc, List.get?_eq_get hic]
    by_cases hend : i + 1 = ks.length
    · -- the yielded entry was the last of this node
      have hdk : ks.drop (i + 1) = [] := List.drop_eq_nil_of_le (by omega)
      have hdv : vs.drop (i + 1) = [] := List.drop_eq_nil_of_le (by omega)
      have hdc2 : cs.drop (i + 2) = [] := List.drop_eq_nil_of_le (by omega)
      rw [hdk, hdv, hdc2, flattenZip_single, frameRest_oob (List.get?_eq_none.mpr (by omega))]
      simp
    · -- further entries follow in this node
      have hik1 : i + 1 < ks.length := by omega
      have hiv1 : i + 1 < vs.length := by omega
      have hdk : ks.drop (i + 1) = ks[i + 1] :: ks.drop (i + 2) :=
        List.drop_eq_getElem_cons hik1
      have hdv : vs.drop (i + 1) = vs[i + 1] :: vs.drop (i + 2) :=
        List.drop_eq_getElem_cons hiv1
      have hdc2ne : cs.drop (i + 2) ≠ [] := by
        apply List.ne_nil_of_length_pos
        rw [List.length_drop]
        omega
      obtain ⟨c2, Z, hZ⟩ := List.exists_cons_of_ne_nil hdc2ne
      rw [hdk, hdv, hZ, flattenZip_cons, frameRest]
      simp only [keys_mk, vals_mk, children_mk, List.get?_eq_get hik1, List.get?_eq_get hiv1]
      simp only [show i + 1 + 1 = i + 2 from rfl, hZ]
      rfl

/-- An internal sound node flattens to its first subtree followed by the rest
of the root frame. -/
theorem flatten_internal_decomp {ks : List K} {vs : List V} {c0 : Node K V}
    {cs' : List (Node K V)} (hsound : (Node.mk ks vs (c0 :: cs')).soundN = true) :
    (Node.mk ks vs (c0 :: cs')).flatten =
      c0.flatten ++ frameRest (Node.mk ks vs (c0 :: cs')) 0 := by
  obtain ⟨hne, hpv, hkid⟩ := soundN_mk_iff.mp hsound
  rcases hkid with hc0 | ⟨hclen, _⟩
  · exact absurd hc0 (List.cons_ne_nil c0 cs')
  obtain ⟨k, ks', rfl⟩ := List.exists_cons_of_ne_nil hne
  have hvne : vs ≠ [] := by
    intro h0
    rw [h0] at hpv
    simp at hpv
  obtain ⟨v, vs', rfl⟩ := List.exists_cons_of_ne_nil hvne
  have hcs'ne : cs' ≠ [] := by
    intro h0
    rw [h0] at hclen
    simp at hclen
  obtain ⟨c2, Z, rfl⟩ := List.exists_cons_of_ne_nil hcs'ne
  rw [flatten_mk, flattenZip_cons, frameRest]
  simp [flattenZip_cons]

/-- Leaf version of the decomposition: a sound leaf flattens to its root
frame. -/
theorem flatten_leaf_decomp {ks : List K} {vs : List V}
    (hpv : vs.length = ks.length) :
    (Node.mk ks vs []).flatten = frameRest (Node.mk ks vs []) 0 := by
  rw [flatten_mk, flattenZip_nil_cs, frameRest_leaf hpv]
  simp

/-! ## Iterator machine correctness -/

theorem denoteAux_cons (n : Node K V) (ns : List (Node K V)) (i : Nat) (is : List Nat) :
    denoteAux (n :: ns) (i :: is) = frameRest n i ++ denoteAux ns is := rfl

theorem denoteAux_nil (is : List Nat) : denoteAux (V := V) (K := K) [] is = [] := by
  cases is <;> rfl

theorem pushLeft_spec :
    ∀ (fuel : Nat) (c : Node K V), c.soundN = true → c.height ≤ fuel →
      ∀ (ns : List (Node K V)) (is : List Nat), stackInv ns is →
        stackInv (Iter.pushLeft fuel c ⟨ns, is⟩).nodes
          (Iter.pushLeft fuel c ⟨ns, is⟩).indices ∧
        denoteAux (Iter.pushLeft fuel c ⟨ns, is⟩).nodes
            (Iter.pushLeft fuel c ⟨ns, is⟩).indices =
          c.flatten ++ denoteAux ns is := by
  intro fuel
  induction fuel with
  | zero =>
    intro c _ hh
    obtain ⟨ks, vs, cs⟩ := c
    simp [height_mk] at hh
  | succ fuel ih =>
    intro c hsound hh ns is hinv
    obtain ⟨ks, vs, cs⟩ := c
    obtain ⟨hne, hpv, hkid⟩ := soundN_mk_iff.mp hsound
    have hkpos : 0 < ks.length := List.length_pos.mpr hne
    cases cs with
    | nil =>
      rw [Iter.pushLeft]
      simp only [isLeaf_mk, List.isEmpty_nil, if_true, ite_true]
      refine ⟨⟨⟨hsound, by simpa using hkpos⟩, hinv⟩, ?_⟩
      rw [denoteAux_cons, ← flatten_leaf_decomp hpv]
    | cons c0 cs' =>
      rcases hkid with h0 | ⟨hclen, hsl⟩
      · exact absurd h0 (List.cons_ne_nil c0 cs')
      rw [Iter.pushLeft]
      simp only [isLeaf_mk, List.isEmpty_cons, if_neg Bool.false_ne_true, children_mk,
        List.head?_cons]
      have hc0s : c0.soundN = true := soundL_iff.mp hsl c0 (List.mem_cons_self _ _)
      have hc0h : c0.height ≤ fuel := by
        have h1 : c0.height ≤ heightL (c0 :: cs') :=
          height_le_heightL (List.mem_cons_self _ _)
        simp only [height_mk] at hh
        omega
      have hinv2 : stackInv (Node.mk ks vs (c0 :: cs') :: ns) (0 :: is) :=
        ⟨⟨hsound, by simpa using hkpos⟩, hinv⟩
      obtain ⟨ha, hb⟩ := ih c0 hc0s hc0h (Node.mk ks vs (c0 :: cs') :: ns) (0 :: is) hinv2
      refine ⟨ha, ?_⟩
      rw [hb, denoteAux_cons, flatten_internal_decomp hsound]
      simp

theorem next_spec {ns : List (Node K V)} {is : List Nat}
    (hinv : stackInv ns is) (hne : ns ≠ []) :
    ∃ (e : K × V) (st' : Iter K V), Iter.next ⟨ns, is⟩ = some (e, st') ∧
      stackInv st'.nodes st'.indices ∧
      denoteAux ns is = e :: denoteAux st'.nodes st'.indices := by
  obtain ⟨n, ns', rfl⟩ := List.exists_cons_of_ne_nil hne
  cases is with
  | nil => exact absurd hinv (by simp [stackInv])
  | cons i is' =>
  obtain ⟨⟨hsound, hlt⟩, hinv'⟩ := hinv
  obtain ⟨ks, vs, cs⟩ := n
  obtain ⟨hne2, hpv, hkid⟩ := soundN_mk_iff.mp hsound
  simp only [keys_mk] at hlt
  have hkid' : cs = [] ∨ cs.length = ks.length + 1 := by
    rcases hkid with h | ⟨h, _⟩
    · exact Or.inl h
    · exact Or.inr h
  obtain ⟨k, v, hk, hv, hfr⟩ := frameRest_step hpv hkid' hlt
  rw [Iter.next]
  simp only [List.headD_cons, keys_mk, vals_mk, children_mk, len_mk, List.tail_cons, hk, hv]
  -- the two stack shapes after the index advance
  by_cases hend : i + 1 = ks.length
  · have hbeq : (i + 1 == ks.length) = true := by simp [hend]
    have hfr1 : frameRest (Node.mk ks vs cs) (i + 1) = [] :=
      frameRest_oob (List.get?_eq_none.mpr (by omega))
    simp only [hbeq, if_true, ite_true]
    cases hcget : cs.get? (i + 1) with
    | none =>
      refine ⟨(k, v), ⟨ns', is'⟩, rfl, hinv', ?_⟩
      rw [denoteAux_cons, hfr, hfr1, hcget]
      simp
    | some c =>
      have hcs : c.soundN = true := by
        rcases hkid with h0 | ⟨_, hsl⟩
        · rw [h0] at hcget
          simp at hcget
        · exact soundL_iff.mp hsl c (List.get?_mem hcget)
      obtain ⟨ha, hb⟩ := pushLeft_spec c.height c hcs le_rfl ns' is' hinv'
      refine ⟨(k, v), _, rfl, ha, ?_⟩
      rw [denoteAux_cons, hfr, hfr1, hcget, hb]
      simp
  · have hbeq : (i + 1 == ks.length) = false := by simp [hend]
    have hlt1 : i + 1 < ks.length := by omega
    simp only [hbeq, Bool.false_eq_true, if_false, ite_false]
    cases hcget : cs.get? (i + 1) with
    | none =>
      refine ⟨(k, v), ⟨Node.mk ks vs cs :: ns', (i + 1) :: is'⟩, rfl,
        ⟨⟨hsound, by simpa using hlt1⟩, hinv'⟩, ?_⟩
      rw [denoteAux_cons, hfr, hcget, denoteAux_cons]
      simp
    | some c =>
      have hcs : c.soundN = true := by
        rcases hkid with h0 | ⟨_, hsl⟩
        · rw [h0] at hcget
          simp at hcget
        · exact soundL_iff.mp hsl c (List.get?_mem hcget)
      have hinv2 : stackInv (Node.mk ks vs cs :: ns') ((i + 1) :: is') :=
        ⟨⟨hsound, by simpa using hlt1⟩, hinv'⟩
      obtain ⟨ha, hb⟩ := pushLeft_spec c.height c hcs le_rfl _ _ hinv2
      refine ⟨(k, v), _, rfl, ha, ?_⟩
      rw [denoteAux_cons, hfr, hcget, hb, denoteAux_cons]
      simp

theorem toListF_spec :
    ∀ (fuel : Nat) (ns : List (Node K V)) (is : List Nat), stackInv ns is →
      (denoteAux ns is).length ≤ fuel →
      Iter.toListF fuel ⟨ns, is⟩ = denoteAux ns is := by
  intro fuel
  induction fuel with
  | zero =>
    intro ns is hinv hlen
    have h0 : denoteAux ns is = [] := List.eq_nil_of_length_eq_zero (by omega)
    rw [h0]
    rfl
  | succ fuel ih =>
    intro ns is hinv hlen
    cases hns : ns with
    | nil =>
      rw [Iter.toListF]
      have hnone : Iter.next (⟨[], is⟩ : Iter K V) = none := rfl
      rw [hnone, denoteAux_nil]
    | cons n ns' =>
      subst hns
      obtain ⟨e, st', hnext, hinv', hden⟩ := next_spec hinv (List.cons_ne_nil n ns')
      rw [Iter.toListF, hnext]
      show e :: Iter.toListF fuel st' = denoteAux (n :: ns') is
      rw [hden]
      congr 1
      exact ih st'.nodes st'.indices hinv'
        (by rw [hden] at hlen; simp only [List.length_cons] at hlen; omega)

/-- After the stack is exhausted, `next` keeps returning `none`: the zero-fuel
and the successor-fuel runs agree beyond the denotation length. -/
theorem toListF_stable (ns : List (Node K V)) (is : List Nat) (hinv : stackInv ns is) :
    ∀ extra, Iter.toListF ((denoteAux ns is).length + extra) ⟨ns, is⟩ =
      denoteAux ns is := by
  intro extra
  exact toListF_spec _ ns is hinv (by omega)

/-! ## Length and order of the flattening -/

theorem flattenZip_length_aux {cs : List (Node K V)} :
    ∀ (ks : List K) (vs : List V), vs.length = ks.length → cs.length = ks.length + 1 →
      (∀ c ∈ cs, c.flatten.length = c.size) →
      (flattenZip ks vs cs).length = ks.length + sizeL cs := by
  induction cs with
  | nil =>
    intro ks vs _ hclen
    simp at hclen
  | cons c cs' ih =>
    intro ks vs hpv hclen hall
    cases cs' with
    | nil =>
      have hks : ks = [] := by
        have : ks.length = 0 := by simpa using hclen.symm
        exact List.eq_nil_of_length_eq_zero this
      have hvs : vs = [] := by
        have : vs.length = 0 := by rw [hpv, hks]; rfl
        exact List.eq_nil_of_length_eq_zero this
      subst hks hvs
      rw [flattenZip_single, hall c (List.mem_cons_self _ _)]
      simp [sizeL]
    | cons c2 Z =>
      have hksne : ks ≠ [] := by
        intro h0
        rw [h0] at hclen
        simp at hclen
      obtain ⟨k, ks', rfl⟩ := List.exists_cons_of_ne_nil hksne
      have hvsne : vs ≠ [] := by
        intro h0
        rw [h0] at hpv
        simp at hpv
      obtain ⟨v, vs', rfl⟩ := List.exists_cons_of_ne_nil hvsne
      rw [flattenZip_cons]
      have ihp := ih ks' vs' (by simpa using hpv) (by simpa using hclen)
        (fun c hc => hall c (List.mem_cons_of_mem _ hc))
      simp only [List.length_append, List.length_cons, ihp,
        hall c (List.mem_cons_self _ _)]
      simp [sizeL]
      omega

theorem flatten_length_aux :
    ∀ (H : Nat) (n : Node K V), n.height ≤ H → n.soundN = true →
      n.flatten.length = n.size := by
  intro H
  induction H with
  | zero =>
    intro n hh
    obtain ⟨ks, vs, cs⟩ := n
    simp [height_mk] at hh
  | succ H ih =>
    intro n hh hsound
    obtain ⟨ks, vs, cs⟩ := n
    obtain ⟨hne, hpv, hkid⟩ := soundN_mk_iff.mp hsound
    rcases hkid with rfl | ⟨hclen, hsl⟩
    · rw [flatten_mk, flattenZip_nil_cs, size_mk]
      simp [List.length_zip, hpv, sizeL]
    · rw [flatten_mk, size_mk]
      refine flattenZip_length_aux ks vs hpv hclen fun c hc => ?_
      refine ih c ?_ (soundL_iff.mp hsl c hc)
      have := height_le_heightL hc
      simp only [height_mk] at hh
      omega

/-- Gluing two strictly ascending chains that overlap in one element. -/
theorem chain'_glue [LinearOrder K] {A B : List K} {m : K}
    (h1 : List.Chain' (· < ·) (A ++ [m])) (h2 : List.Chain' (· < ·) (m :: B)) :
    List.Chain' (· < ·) (A ++ m :: B) := by
  have h3 : List.Chain' (· < ·) ((A ++ [m]) ++ B) := by
    refine List.chain'_append.mpr ⟨h1, h2.tail, ?_⟩
    intro x hx y hy
    rw [List.getLast?_concat] at hx
    simp only [Option.mem_def, Option.some.injEq] at hx
    subst hx
    exact (List.chain'_cons'.mp h2).1 y hy
  have heq : A ++ m :: B = (A ++ [m]) ++ B := by simp
  rw [heq]
  exact h3

theorem flattenZip_keys_sorted_aux [LinearOrder K] {t : Nat} (hi : Option K) :
    ∀ (cs : List (Node K V)) (ks : List K) (vs : List V) (lo : Option K),
      vs.length = ks.length → cs.length = ks.length + 1 →
      childrenWf compare t lo ks hi cs = true →
      (∀ c ∈ cs, ∀ lo' hi', Node.wfN compare t lo' hi' c = true →
        List.Chain' (· < ·) (lo'.toList ++ c.flatten.map Prod.fst ++ hi'.toList)) →
      List.Chain' (· < ·) (lo.toList ++ (flattenZip ks vs cs).map Prod.fst ++ hi.toList) := by
  intro cs
  induction cs with
  | nil =>
    intro ks vs lo _ hclen
    simp at hclen
  | cons c cs' ih =>
    intro ks vs lo hpv hclen hcw hall
    cases cs' with
    | nil =>
      have hks : ks = [] := by
        have : ks.length = 0 := by simpa using hclen.symm
        exact List.eq_nil_of_length_eq_zero this
      subst hks
      rw [childrenWf_single] at hcw
      rw [flattenZip_single]
      exact hall c (List.mem_cons_self _ _) lo hi hcw
    | cons c2 Z =>
      have hksne : ks ≠ [] := by
        intro h0
        rw [h0] at hclen
        simp at hclen
      obtain ⟨k, ks', rfl⟩ := List.exists_cons_of_ne_nil hksne
      have hvsne : vs ≠ [] := by
        intro h0
        rw [h0] at hpv
        simp at hpv
      obtain ⟨v, vs', rfl⟩ := List.exists_cons_of_ne_nil hvsne
      rw [childrenWf_cons, Bool.and_eq_true] at hcw
      have hc := hall c (List.mem_cons_self _ _) lo (some k) hcw.1
      have hrest := ih ks' vs' (some k) (by simpa using hpv) (by simpa using hclen)
        hcw.2 (fun d hd => hall d (List.mem_cons_of_mem _ hd))
      rw [flattenZip_cons]
      have hmap : (c.flatten ++ (k, v) :: flattenZip ks' vs' (c2 :: Z)).map Prod.fst =
          c.flatten.map Prod.fst ++ k :: (flattenZip ks' vs' (c2 :: Z)).map Prod.fst := by
        simp
      rw [hmap]
      have hre : lo.toList ++ (c.flatten.map Prod.fst ++
          k :: (flattenZip ks' vs' (c2 :: Z)).map Prod.fst) ++ hi.toList =
          (lo.toList ++ c.flatten.map Prod.fst) ++
            k :: ((flattenZip ks' vs' (c2 :: Z)).map Prod.fst ++ hi.toList) := by
        simp
      rw [hre]
      refine chain'_glue ?_ ?_
      · have : lo.toList ++ c.flatten.map Prod.fst ++ [k] =
            lo.toList ++ c.flatten.map Prod.fst ++ (Option.toList (some k)) := rfl
        rw [this]
        exact hc
      · have : (k :: ((flattenZip ks' vs' (c2 :: Z)).map Prod.fst ++ hi.toList)) =
            (Option.toList (some k)) ++ (flattenZip ks' vs' (c2 :: Z)).map Prod.fst
              ++ hi.toList := by simp
        rw [this]
        exact hrest

theorem flatten_keys_sorted_aux [LinearOrder K] {t : Nat} :
    ∀ (H : Nat) (n : Node K V) (lo hi : Option K), n.height ≤ H →
      Node.wfN compare t lo hi n = true →
      List.Chain' (· < ·) (lo.toList ++ n.flatten.map Prod.fst ++ hi.toList) := by
  intro H
  induction H with
  | zero =>
    intro n lo hi hh
    obtain ⟨ks, vs, cs⟩ := n
    simp [height_mk] at hh
  | succ H ih =>
    intro n lo hi hh hwf
    obtain ⟨ks, vs, cs⟩ := n
    obtain ⟨hpv, _, _, hchain, hkid⟩ := wfN_mk_iff.mp hwf
    rcases hkid with rfl | ⟨hclen, _, hcw⟩
    · rw [flatten_mk, flattenZip_nil_cs, List.map_fst_zip ks vs (by omega)]
      exact hchain
    · rw [flatten_mk]
      refine flattenZip_keys_sorted_aux _ _ ks vs lo hpv hclen hcw ?_
      intro c hc lo' hi' hcwf
      refine ih c lo' hi' ?_ hcwf
      have := height_le_heightL hc
      simp only [height_mk] at hh
      omega

/-- The in-order entries of a well-formed root carry strictly ascending keys. -/
theorem root_flatten_sorted [LinearOrder K] {t : Nat} {n : Node K V}
    (hwf : rootWf compare t n = true) :
    List.Chain' (· < ·) (n.flatten.map Prod.fst) := by
  obtain ⟨ks, vs, cs⟩ := n
  obtain ⟨hpv, _, hchain, hkid⟩ := rootWf_iff.mp hwf
  rcases hkid with rfl | ⟨_, hclen, _, hcw⟩
  · rw [flatten_mk, flattenZip_nil_cs, List.map_fst_zip ks vs (by omega)]
    exact hchain
  · rw [flatten_mk]
    have h := flattenZip_keys_sorted_aux (t := t) none cs ks vs none hpv hclen hcw ?_
    · simpa using h
    · intro c hc lo' hi' hcwf
      exact flatten_keys_sorted_aux c.height c lo' hi' le_rfl hcwf

/-- The iterator of a well-formed root enumerates exactly the flattening;
any run of at least `size` steps yields it (the iterator is exhausted). -/
theorem iterList_eq_flatten [LinearOrder K] {t : Nat} (ht : 2 ≤ t) {root : Node K V}
    (hwf : rootWf compare t root = true) :
    root.iterList = root.flatten ∧
    (∀ extra, Iter.toListF (root.size + extra) (Iter.new root) = root.flatten) := by
  cases hroot : root.isEmpty with
  | true =>
    obtain ⟨ks, vs, cs⟩ := root
    have hks : ks = [] := by
      have : ks.isEmpty = true := hroot
      simpa [List.isEmpty_iff] using this
    subst hks
    obtain ⟨hpv, _, _, hkid⟩ := rootWf_iff.mp hwf
    have hvs : vs = [] := List.eq_nil_of_length_eq_zero (by simpa using hpv)
    subst hvs
    rcases hkid with rfl | ⟨hne, _⟩
    · have hnew : Iter.new (Node.mk ([] : List K) ([] : List V) []) = ⟨[], []⟩ := rfl
      constructor
      · rw [Node.iterList, hnew]
        cases h : (Node.mk ([] : List K) ([] : List V) []).size <;> rfl
      · intro extra
        rw [hnew]
        cases h : (Node.mk ([] : List K) ([] : List V) []).size + extra <;> rfl
    · exact absurd rfl hne
  | false =>
    have hne : root.keys ≠ [] := by
      obtain ⟨ks, vs, cs⟩ := root
      simpa [List.isEmpty_eq_false] using hroot
    have hsound : root.soundN = true := rootWf_sound ht hwf hne
    have hnew : Iter.new root = Iter.pushLeft root.height root ⟨[], []⟩ := by
      rw [Iter.new, if_neg (by simp [hroot])]
    obtain ⟨hinv, hden⟩ := pushLeft_spec root.height root hsound le_rfl [] []
      (by rw [stackInv]; trivial)
    rw [denoteAux_nil, List.append_nil] at hden
    have hflen : root.flatten.length = root.size :=
      flatten_length_aux root.height root le_rfl hsound
    have hrun : ∀ fuel, root.size ≤ fuel →
        Iter.toListF fuel (Iter.new root) = root.flatten := by
      intro fuel hfuel
      rw [hnew]
      have hit : Iter.pushLeft root.height root ⟨[], []⟩ =
          (⟨(Iter.pushLeft root.height root ⟨[], []⟩).nodes,
            (Iter.pushLeft root.height root ⟨[], []⟩).indices⟩ : Iter K V) := rfl
      rw [hit, toListF_spec fuel _ _ hinv (by rw [hden, hflen]; omega), hden]
    exact ⟨hrun root.size le_rfl, fun extra => hrun (root.size + extra) (by omega)⟩

/-- Length of the flattening of a well-formed root equals its recursive size. -/
theorem root_flatten_length [LinearOrder K] {t : Nat} (ht : 2 ≤ t) {n : Node K V}
    (hwf : rootWf compare t n = true) : n.flatten.length = n.size := by
  by_cases hne : n.keys = []
  · obtain ⟨ks, vs, cs⟩ := n
    rw [keys_mk] at hne
    subst hne
    obtain ⟨hpv, _, _, hkid⟩ := rootWf_iff.mp hwf
    have hvs : vs = [] := List.eq_nil_of_length_eq_zero (by simpa using hpv)
    subst hvs
    rcases hkid with rfl | ⟨hne', _⟩
    · rfl
    · exact absurd rfl hne'
  · exact flatten_length_aux n.height n le_rfl (rootWf_sound ht hwf hne)

/-- A concrete well-formed degree-2 map with an internal root, used to witness C7. -/
def wC7Map : BTreeMap Nat Nat :=
  ⟨7, 2, Node.mk [2, 4] [20, 40]
    [Node.mk [1] [10] [], Node.mk [3] [30] [], Node.mk [5, 6, 7] [50, 60, 70] []]⟩

/-- C7: for every tree satisfying the structural invariants of spec §3
(well-formedness of the root with degree ≥ 2 and len equal to the stored size),
the iterator yields a finite sequence of exactly `len` entries — running it with
any amount of extra fuel yields the same list, so it is exhausted after `len`
steps — `keys`/`values` are its projections of the same length, and the keys
come out in strictly ascending order. -/
theorem c7_iteration_finite_sorted [LinearOrder K] (m : BTreeMap K V)
    (hwf : BTreeMap.WF compare m) :
    m.root.iterList.length = m.len ∧
    m.root.keysList.length = m.len ∧
    m.root.valuesList.length = m.len ∧
    List.Chain' (· < ·) m.root.keysList ∧
    (∀ extra, Iter.toListF (m.len + extra) (Iter.new m.root) = m.root.iterList) := by
  obtain ⟨hdeg, hroot, hlen⟩ := hwf
  obtain ⟨hif, hextra⟩ := iterList_eq_flatten hdeg hroot
  have hflen : m.root.flatten.length = m.root.size := root_flatten_length hdeg hroot
  have hlist : m.root.iterList.length = m.len := by
    rw [hif, hflen, hlen]
  refine ⟨hlist, ?_, ?_, ?_, ?_⟩
  · rw [Node.keysList, List.length_map, hlist]
  · rw [Node.valuesList, List.length_map, hlist]
  · rw [Node.keysList, hif]
    exact root_flatten_sorted hroot
  · intro extra
    rw [hlen, hextra extra, hif]

theorem c7_iteration_finite_sorted_witness :
    BTreeMap.WF compare wC7Map ∧
    wC7Map.root.iterList.length = wC7Map.len ∧
    List.Chain' (· < ·) wC7Map.root.keysList ∧
    Iter.toListF (wC7Map.len + 5) (Iter.new wC7Map.root) = wC7Map.root.iterList := by
  have hwf : BTreeMap.WF compare wC7Map := ⟨by decide, by decide, by decide⟩
  have h := c7_iteration_finite_sorted wC7Map hwf
  exact ⟨hwf, h.1, h.2.2.2.1, h.2.2.2.2 5⟩

/-! ## Termination: fuel `height` always suffices (claim C9) -/

theorem height_eq_children (n : Node K V) : n.height = heightL n.children + 1 := by
  obtain ⟨ks, vs, cs⟩ := n
  rfl

theorem heightL_le_iff {cs : List (Node K V)} {H : Nat} :
    heightL cs ≤ H ↔ ∀ c ∈ cs, c.height ≤ H := by
  induction cs with
  | nil => simp [heightL]
  | cons c cs ih =>
    rw [heightL, Nat.max_le, ih]
    constructor
    · rintro ⟨h1, h2⟩ d hd
      rcases List.mem_cons.mp hd with rfl | hd2
      · exact h1
      · exact h2 d hd2
    · intro h
      exact ⟨h c (List.mem_cons_self _ _), fun d hd => h d (List.mem_cons_of_mem _ hd)⟩

theorem heightL_le_of_subset {a b : List (Node K V)} (h : ∀ c ∈ a, c ∈ b) :
    heightL a ≤ heightL b :=
  heightL_le_iff.mpr fun c hc => height_le_heightL (h c hc)

theorem mem_of_getLast?_eq {α : Type} {l : List α} {m : α} (h : l.getLast? = some m) :
    m ∈ l := by
  obtain ⟨hne, rfl⟩ := List.mem_getLast?_eq_getLast (Option.mem_def.mpr h)
  exact List.getLast_mem hne

theorem mem_insertIdx_or {α : Type} (b : α) :
    ∀ (n : Nat) (l : List α) (a : α), a ∈ l.insertIdx n b → a = b ∨ a ∈ l
  | 0, l, a, h => by
    rw [List.insertIdx_zero] at h
    exact List.mem_cons.mp h
  | n + 1, [], a, h => by
    simp [List.insertIdx] at h
  | n + 1, x :: l, a, h => by
    rw [List.insertIdx_succ_cons] at h
    rcases List.mem_cons.mp h with h1 | h2
    · exact Or.inr (by rw [h1]; exact List.mem_cons_self _ _)
    · rcases mem_insertIdx_or b n l a h2 with h3 | h4
      · exact Or.inl h3
      · exact Or.inr (List.mem_cons_of_mem _ h4)

/-- The binary-search loop reaches its base case within `right - left`
iterations: any amount of fuel at least `right - left` computes the same
answer, mirroring the strictly shrinking interval of the Rust loop. -/
theorem findIndexAux_stable (cmp : Cmp K) (ks : List K) (k : K) :
    ∀ (d fuel left right : Nat), right - left ≤ d → right - left ≤ fuel →
      findIndexAux cmp ks k fuel left right = findIndexAux cmp ks k d left right := by
  intro d
  induction d with
  | zero =>
    intro fuel left right hd hf
    cases fuel with
    | zero => rfl
    | succ f =>
      show findIndexAux cmp ks k (f + 1) left right = left
      rw [findIndexAux, if_neg (by omega)]
  | succ d ih =>
    intro fuel left right hd hf
    cases fuel with
    | zero =>
      show left = findIndexAux cmp ks k (d + 1) left right
      rw [findIndexAux, if_neg (by omega)]
    | succ f =>
      simp only [findIndexAux]
      by_cases hlr : left < right
      · rw [if_pos hlr, if_pos hlr]
        split
        · rfl
        · split
          · rfl
          · exact ih f (left + (right - left) / 2 + 1) right (by omega) (by omega)
          · exact ih f left (left + (right - left) / 2) (by omega) (by omega)
      · rw [if_neg hlr, if_neg hlr]

/-- The `max_key` descent loop reaches its base case within `height` steps. -/
theorem maxKeyF_stable :
    ∀ (d fuel : Nat) (n : Node K V), n.height ≤ d → n.height ≤ fuel →
      Node.maxKeyF fuel n = Node.maxKeyF d n := by
  intro d
  induction d with
  | zero =>
    intro fuel n hd
    rw [height_eq_children] at hd
    omega
  | succ d ih =>
    intro fuel n hd hf
    cases fuel with
    | zero => rw [height_eq_children] at hf; omega
    | succ f =>
      simp only [Node.maxKeyF]
      split
      · rename_i c hc
        have hcb : c.height ≤ heightL n.children :=
          height_le_heightL (mem_of_getLast?_eq hc)
        rw [height_eq_children] at hd hf
        by_cases hcond : (!n.isLeaf && !c.isEmpty) = true
        · rw [if_pos hcond, if_pos hcond]
          exact ih f c (by omega) (by omega)
        · rw [if_neg hcond, if_neg hcond]
      · rfl

/-- The `min_key` descent loop reaches its base case within `height` steps. -/
theorem minKeyF_stable :
    ∀ (d fuel : Nat) (n : Node K V), n.height ≤ d → n.height ≤ fuel →
      Node.minKeyF fuel n = Node.minKeyF d n := by
  intro d
  induction d with
  | zero =>
    intro fuel n hd
    rw [height_eq_children] at hd
    omega
  | succ d ih =>
    intro fuel n hd hf
    cases fuel with
    | zero => rw [height_eq_children] at hf; omega
    | succ f =>
      simp only [Node.minKeyF]
      split
      · rename_i c hc
        have hcb : c.height ≤ heightL n.children :=
          height_le_heightL (List.mem_of_mem_head? (by rw [hc]; rfl))
        rw [height_eq_children] at hd hf
        by_cases hcond : (!n.isLeaf && !c.isEmpty) = true
        · rw [if_pos hcond, if_pos hcond]
          exact ih f c (by omega) (by omega)
        · rw [if_neg hcond, if_neg hcond]
      · rfl

/-- The `get` descent reaches a base case: fuel `height` is never exhausted. -/
theorem getF_isSome (cmp : Cmp K) :
    ∀ (fuel : Nat) (n : Node K V) (k : K), n.height ≤ fuel →
      (Node.getF cmp fuel n k).isSome = true := by
  intro fuel
  induction fuel with
  | zero =>
    intro n k hh
    rw [height_eq_children] at hh
    omega
  | succ fuel ih =>
    intro n k hh
    simp only [Node.getF]
    split
    · rfl
    · split
      · rfl
      · split
        · rename_i c hc
          refine ih c k ?_
          have h1 := height_le_heightL (List.get?_mem hc)
          rw [height_eq_children] at hh
          omega
        · rfl

theorem splitChild_children_height_le (n : Node K V) (idx degree : Nat) :
    heightL (n.splitChild idx degree).children ≤ heightL n.children := by
  obtain ⟨ks, vs, cs⟩ := n
  simp only [Node.splitChild, children_mk]
  split
  · exact le_rfl
  · rename_i child hc
    have hch : child.height ≤ heightL cs := height_le_heightL (List.get?_mem hc)
    rw [height_eq_children] at hch
    split
    · rename_i medk medv hmedk hmedv
      simp only [children_mk]
      refine heightL_le_iff.mpr fun c hcm => ?_
      rcases mem_insertIdx_or _ _ _ _ hcm with rfl | hmem
      · rw [height_mk]
        by_cases hleaf : child.isLeaf = true
        · rw [if_pos hleaf]
          simp only [heightL]
          omega
        · rw [if_neg hleaf]
          have : heightL (child.children.drop degree) ≤ heightL child.children :=
            heightL_le_of_subset fun x hx => (List.drop_sublist degree _).subset hx
          omega
      · rcases List.mem_or_eq_of_mem_set hmem with hmem' | rfl
        · exact height_le_heightL hmem'
        · rw [height_mk]
          by_cases hleaf : child.isLeaf = true
          · rw [if_pos hleaf]
            omega
          · rw [if_neg hleaf]
            have : heightL (child.children.take degree) ≤ heightL child.children :=
              heightL_le_of_subset fun x hx => (List.take_sublist degree _).subset hx
            omega
    · exact le_rfl

/-- The `insert_nonfull` descent reaches a base case: fuel `height` is never
exhausted (the split performed on a full child never increases the height of
the children the descent steps into). -/
theorem insertF_isSome (cmp : Cmp K) (degree : Nat) :
    ∀ (fuel : Nat) (n : Node K V) (k : K) (v : V), n.height ≤ fuel →
      (Node.insertF cmp degree fuel n k v).isSome = true := by
  intro fuel
  induction fuel with
  | zero =>
    intro n k v hh
    rw [height_eq_children] at hh
    omega
  | succ fuel ih =>
    intro n k v hh
    have hHL : heightL n.children ≤ fuel := by
      rw [height_eq_children] at hh
      omega
    simp only [Node.insertF]
    by_cases hleaf : n.isLeaf = true
    · rw [if_pos hleaf]
      by_cases he : ((n.keys.get? (Node.findIndex cmp n k)).any fun km => keq cmp k km) = true
      · rw [if_pos he]
        cases hv : n.vals.get? (Node.findIndex cmp n k) <;> rfl
      · rw [if_neg he]
        rfl
    · rw [if_neg hleaf]
      by_cases hfull : ((n.children.get? (Node.findIndex cmp n k)).any
          fun c => c.isFull degree) = true
      · rw [if_pos hfull]
        by_cases hroute : (((n.splitChild (Node.findIndex cmp n k) degree).keys.get?
            (Node.findIndex cmp n k)).any fun km => klt cmp km k) = true
        · rw [if_pos hroute]
          dsimp only
          split
          · rename_i c hg
            have hbc : c.height ≤ fuel := by
              have h1 := height_le_heightL (List.get?_mem hg)
              have h2 := splitChild_children_height_le n (Node.findIndex cmp n k) degree
              omega
            have hrec := ih c k v hbc
            cases hr : Node.insertF cmp degree fuel c k v with
            | none => rw [hr] at hrec; simp at hrec
            | some p => obtain ⟨c', res⟩ := p; rfl
          · rfl
        · rw [if_neg hroute]
          dsimp only
          split
          · rename_i c hg
            have hbc : c.height ≤ fuel := by
              have h1 := height_le_heightL (List.get?_mem hg)
              have h2 := splitChild_children_height_le n (Node.findIndex cmp n k) degree
              omega
            have hrec := ih c k v hbc
            cases hr : Node.insertF cmp degree fuel c k v with
            | none => rw [hr] at hrec; simp at hrec
            | some p => obtain ⟨c', res⟩ := p; rfl
          · rfl
      · rw [if_neg hfull]
        dsimp only
        split
        · rename_i c hg
          have hbc : c.height ≤ fuel := by
            have h1 := height_le_heightL (List.get?_mem hg)
            omega
          have hrec := ih c k v hbc
          cases hr : Node.insertF cmp degree fuel c k v with
          | none => rw [hr] at hrec; simp at hrec
          | some p => obtain ⟨c', res⟩ := p; rfl
        · rfl

/-- The recursion in `Node::remove` (including the Case-2c recursion into the
merged child, the Case-2a/2b predecessor/successor deletions, and every
Case-3a/3b rebalanced descent) reaches a base case: fuel `height` is never
exhausted, because each recursive call is on a node of strictly smaller
height (children, merged children, or rotated children built from
grandchildren). -/
theorem removeF_isSome (cmp : Cmp K) (degree : Nat) :
    ∀ (fuel : Nat) (n : Node K V) (k : K), n.height ≤ fuel →
      (Node.removeF cmp degree fuel n k).isSome = true := by
  intro fuel
  induction fuel with
  | zero =>
    intro n k hh
    rw [height_eq_children] at hh
    omega
  | succ fuel ih =>
    intro n k hh
    have hHL : heightL n.children ≤ fuel := by
      rw [height_eq_children] at hh
      omega
    simp only [Node.removeF]
    by_cases hf1 : ((n.keys.get? (Node.findIndex cmp n k)).any (fun km => keq cmp km k) &&
        n.isLeaf) = true
    · rw [if_pos hf1]
      cases hk1 : n.keys.get? (Node.findIndex cmp n k) with
      | none => rfl
      | some kk => cases hv1 : n.vals.get? (Node.findIndex cmp n k) <;> rfl
    · rw [if_neg hf1]
      by_cases hf2 : ((n.keys.get? (Node.findIndex cmp n k)).any (fun km => keq cmp km k) &&
          !n.isLeaf) = true
      · rw [if_pos hf2]
        cases hk2 : n.keys.get? (Node.findIndex cmp n k) with
        | none => rfl
        | some kk =>
          cases hv2 : n.vals.get? (Node.findIndex cmp n k) with
          | none => rfl
          | some vv =>
            cases hp2 : n.children.get? (Node.findIndex cmp n k) with
            | none => rfl
            | some pred =>
              cases hs2 : n.children.get? (Node.findIndex cmp n k + 1) with
              | none => rfl
              | some succ =>
                dsimp only
                have hbp : pred.height ≤ fuel :=
                  le_trans (height_le_heightL (List.get?_mem hp2)) hHL
                have hbs : succ.height ≤ fuel :=
                  le_trans (height_le_heightL (List.get?_mem hs2)) hHL
                by_cases h2a : degree ≤ pred.len
                · rw [if_pos h2a]
                  cases hpk : Node.maxKeyF fuel pred with
                  | none => rfl
                  | some pk =>
                    dsimp only
                    have hrec := ih pred pk hbp
                    cases hr : Node.removeF cmp degree fuel pred pk with
                    | none => rw [hr] at hrec; simp at hrec
                    | some p =>
                      obtain ⟨pred', res⟩ := p
                      cases res with
                      | none => rfl
                      | some e => obtain ⟨rk, rv⟩ := e; rfl
                · rw [if_neg h2a]
                  by_cases h2b : degree ≤ succ.len
                  · rw [if_pos h2b]
                    cases hsk : Node.minKeyF fuel succ with
                    | none => rfl
                    | some sk =>
                      dsimp only
                      have hrec := ih succ sk hbs
                      cases hr : Node.removeF cmp degree fuel succ sk with
                      | none => rw [hr] at hrec; simp at hrec
                      | some p =>
                        obtain ⟨succ', res⟩ := p
                        cases res with
                        | none => rfl
                        | some e => obtain ⟨rk, rv⟩ := e; rfl
                  · rw [if_neg h2b]
                    have hbm : (Node.mk (pred.keys ++ kk :: succ.keys)
                        (pred.vals ++ vv :: succ.vals)
                        (pred.children ++ succ.children)).height ≤ fuel := by
                      rw [height_mk, heightL_append]
                      rw [height_eq_children] at hbp hbs
                      have hmax : max (heightL pred.children) (heightL succ.children) ≤
                          fuel - 1 := Nat.max_le.mpr ⟨by omega, by omega⟩
                      omega
                    have hrec := ih (Node.mk (pred.keys ++ kk :: succ.keys)
                        (pred.vals ++ vv :: succ.vals)
                        (pred.children ++ succ.children)) k hbm
                    cases hr : Node.removeF cmp degree fuel (Node.mk
                        (pred.keys ++ kk :: succ.keys) (pred.vals ++ vv :: succ.vals)
                        (pred.children ++ succ.children)) k with
                    | none => rw [hr] at hrec; simp at hrec
                    | some p => obtain ⟨m', res⟩ := p; rfl
      · rw [if_neg hf2]
        by_cases hleaf : n.isLeaf = true
        · rw [if_pos hleaf]
          rfl
        · rw [if_neg hleaf]
          cases hc : n.children.get? (Node.findIndex cmp n k) with
          | none => rfl
          | some c =>
            have hbc : c.height ≤ fuel :=
              le_trans (height_le_heightL (List.get?_mem hc)) hHL
            dsimp only
            by_cases h31 : (c.len + 1 == degree) = true
            · rw [if_pos h31]
              by_cases h3aL : (Node.findIndex cmp n k > 0 &&
                  (n.children.get? (Node.findIndex cmp n k - 1)).any (fun l => degree ≤ l.len)) = true
              · rw [if_pos h3aL]
                cases hpk3 : n.keys.get? (Node.findIndex cmp n k - 1) with
                | none =>
                  dsimp only
                  rw [hc]
                  dsimp only
                  have hrecF := ih c k hbc
                  cases hrF : Node.removeF cmp degree fuel c k with
                  | none => rw [hrF] at hrecF; simp at hrecF
                  | some p => obtain ⟨c2', res⟩ := p; rfl
                | some pk =>
                  cases hpv3 : n.vals.get? (Node.findIndex cmp n k - 1) with
                  | none =>
                    dsimp only
                    rw [hc]
                    dsimp only
                    have hrecF := ih c k hbc
                    cases hrF : Node.removeF cmp degree fuel c k with
                    | none => rw [hrF] at hrecF; simp at hrecF
                    | some p => obtain ⟨c2', res⟩ := p; rfl
                  | some pv =>
                    cases hl3 : n.children.get? (Node.findIndex cmp n k - 1) with
                    | none =>
                      dsimp only
                      rw [hc]
                      dsimp only
                      have hrecF := ih c k hbc
                      cases hrF : Node.removeF cmp degree fuel c k with
                      | none => rw [hrF] at hrecF; simp at hrecF
                      | some p => obtain ⟨c2', res⟩ := p; rfl
                    | some l =>
                      dsimp only
                      have hbl : l.height ≤ fuel :=
                        le_trans (height_le_heightL (List.get?_mem hl3)) hHL
                      cases hlk : l.keys.getLast? with
                      | none =>
                        dsimp only
                        rw [hc]
                        dsimp only
                        have hrecF := ih c k hbc
                        cases hrF : Node.removeF cmp degree fuel c k with
                        | none => rw [hrF] at hrecF; simp at hrecF
                        | some p => obtain ⟨c2', res⟩ := p; rfl
                      | some lk =>
                        cases hlv : l.vals.getLast? with
                        | none =>
                          dsimp only
                          rw [hc]
                          dsimp only
                          have hrecF := ih c k hbc
                          cases hrF : Node.removeF cmp degree fuel c k with
                          | none => rw [hrF] at hrecF; simp at hrecF
                          | some p => obtain ⟨c2', res⟩ := p; rfl
                        | some lv =>
                          dsimp only
                          cases hlc : l.children.getLast? with
                          | none =>
                            dsimp only
                            split
                            · rfl
                            · rename_i c2 hg
                              have hb2 : c2.height ≤ fuel := by
                                rcases List.mem_or_eq_of_mem_set (List.get?_mem hg)
                                  with h1 | rfl
                                · rcases List.mem_or_eq_of_mem_set h1 with h2 | rfl
                                  · exact le_trans (height_le_heightL h2) hHL
                                  · rw [height_mk]
                                    rw [height_eq_children] at hbl
                                    have hsub : heightL l.children.dropLast ≤
                                        heightL l.children :=
                                      heightL_le_of_subset fun x hx =>
                                        (List.dropLast_sublist _).subset hx
                                    omega
                                · rw [height_mk]
                                  rw [height_eq_children] at hbc
                                  omega
                              have hrec := ih c2 k hb2
                              cases hr : Node.removeF cmp degree fuel c2 k with
                              | none => rw [hr] at hrec; simp at hrec
                              | some p => obtain ⟨c2', res⟩ := p; rfl
                          | some lc =>
                            dsimp only
                            split
                            · rfl
                            · rename_i c2 hg
                              have hb2 : c2.height ≤ fuel := by
                                rcases List.mem_or_eq_of_mem_set (List.get?_mem hg)
                                  with h1 | rfl
                                · rcases List.mem_or_eq_of_mem_set h1 with h2 | rfl
                                  · exact le_trans (height_le_heightL h2) hHL
                                  · rw [height_mk]
                                    rw [height_eq_children] at hbl
                                    have hsub : heightL l.children.dropLast ≤
                                        heightL l.children :=
                                      heightL_le_of_subset fun x hx =>
                                        (List.dropLast_sublist _).subset hx
                                    omega
                                · rw [height_mk]
                                  simp only [heightL]
                                  rw [height_eq_children] at hbc hbl
                                  have hlcb : lc.height ≤ heightL l.children :=
                                    height_le_heightL (mem_of_getLast?_eq hlc)
                                  have hmax : max lc.height (heightL c.children) ≤
                                      fuel - 1 := Nat.max_le.mpr ⟨by omega, by omega⟩
                                  omega
                              have hrec := ih c2 k hb2
                              cases hr : Node.removeF cmp degree fuel c2 k with
                              | none => rw [hr] at hrec; simp at hrec
                              | some p => obtain ⟨c2', res⟩ := p; rfl
              · rw [if_neg h3aL]
                by_cases h3aR : ((n.children.get? (Node.findIndex cmp n k + 1)).any
                    (fun r => degree ≤ r.len)) = true
                · rw [if_pos h3aR]
                  cases hpk4 : n.keys.get? (Node.findIndex cmp n k) with
                  | none =>
                    dsimp only
                    rw [hc]
                    dsimp only
                    have hrecF := ih c k hbc
                    cases hrF : Node.removeF cmp degree fuel c k with
                    | none => rw [hrF] at hrecF; simp at hrecF
                    | some p => obtain ⟨c2', res⟩ := p; rfl
                  | some pk =>
                    cases hpv4 : n.vals.get? (Node.findIndex cmp n k) with
                    | none =>
                      dsimp only
                      rw [hc]
                      dsimp only
                      have hrecF := ih c k hbc
                      cases hrF : Node.removeF cmp degree fuel c k with
                      | none => rw [hrF] at hrecF; simp at hrecF
                      | some p => obtain ⟨c2', res⟩ := p; rfl
                    | some pv =>
                      cases hr4 : n.children.get? (Node.findIndex cmp n k + 1) with
                      | none =>
                        dsimp only
                        rw [hc]
                        dsimp only
                        have hrecF := ih c k hbc
                        cases hrF : Node.removeF cmp degree fuel c k with
                        | none => rw [hrF] at hrecF; simp at hrecF
                        | some p => obtain ⟨c2', res⟩ := p; rfl
                      | some r =>
                        dsimp only
                        have hbr : r.height ≤ fuel :=
                          le_trans (height_le_heightL (List.get?_mem hr4)) hHL
                        cases hrk : r.keys.head? with
                        | none =>
                          dsimp only
                          rw [hc]
                          dsimp only
                          have hrecF := ih c k hbc
                          cases hrF : Node.removeF cmp degree fuel c k with
                          | none => rw [hrF] at hrecF; simp at hrecF
                          | some p => obtain ⟨c2', res⟩ := p; rfl
                        | some rk0 =>
                          cases hrv : r.vals.head? with
                          | none =>
                            dsimp only
                            rw [hc]
                            dsimp only
                            have hrecF := ih c k hbc
                            cases hrF : Node.removeF cmp degree fuel c k with
                            | none => rw [hrF] at hrecF; simp at hrecF
                            | some p => obtain ⟨c2', res⟩ := p; rfl
                          | some rv0 =>
                            dsimp only
                            cases hrc : r.children.head? with
                            | none =>
                              dsimp only
                              split
                              · rfl
                              · rename_i c2 hg
                                have hb2 : c2.height ≤ fuel := by
                                  rcases List.mem_or_eq_of_mem_set (List.get?_mem hg)
                                    with h1 | rfl
                                  · rcases List.mem_or_eq_of_mem_set h1 with h2 | rfl
                                    · exact le_trans (height_le_heightL h2) hHL
                                    · rw [height_mk]
                                      rw [height_eq_children] at hbc
                                      omega
                                  · rw [height_mk]
                                    rw [height_eq_children] at hbr
                                    have hsub : heightL r.children.tail ≤
                                        heightL r.children :=
                                      heightL_le_of_subset fun x hx =>
                                        (List.tail_sublist _).subset hx
                                    omega
                                have hrec := ih c2 k hb2
                                cases hr : Node.removeF cmp degree fuel c2 k with
                                | none => rw [hr] at hrec; simp at hrec
                                | some p => obtain ⟨c2', res⟩ := p; rfl
                            | some rc =>
                              dsimp only
                              split
                              · rfl
                              · rename_i c2 hg
                                have hb2 : c2.height ≤ fuel := by
                                  rcases List.mem_or_eq_of_mem_set (List.get?_mem hg)
                                    with h1 | rfl
                                  · rcases List.mem_or_eq_of_mem_set h1 with h2 | rfl
                                    · exact le_trans (height_le_heightL h2) hHL
                                    · rw [height_mk, heightL_append]
                                      simp only [heightL]
                                      rw [height_eq_children] at hbc hbr
                                      have hrcb : rc.height ≤ heightL r.children :=
                                        height_le_heightL
                                          (List.mem_of_mem_head? (by rw [hrc]; rfl))
                                      have hmax : max (heightL c.children)
                                          (max rc.height 0) ≤ fuel - 1 :=
                                        Nat.max_le.mpr ⟨by omega,
                                          Nat.max_le.mpr ⟨by omega, by omega⟩⟩
                                      omega
                                  · rw [height_mk]
                                    rw [height_eq_children] at hbr
                                    have hsub : heightL r.children.tail ≤
                                        heightL r.children :=
                                      heightL_le_of_subset fun x hx =>
                                        (List.tail_sublist _).subset hx
                                    omega
                                have hrec := ih c2 k hb2
                                cases hr : Node.removeF cmp degree fuel c2 k with
                                | none => rw [hr] at hrec; simp at hrec
                                | some p => obtain ⟨c2', res⟩ := p; rfl
                · rw [if_neg h3aR]
                  by_cases h3b1 : Node.findIndex cmp n k > 0
                  · rw [if_pos h3b1]
                    cases hpk5 : n.keys.get? (Node.findIndex cmp n k - 1) with
                    | none =>
                      dsimp only
                      rw [hc]
                      dsimp only
                      have hrecF := ih c k hbc
                      cases hrF : Node.removeF cmp degree fuel c k with
                      | none => rw [hrF] at hrecF; simp at hrecF
                      | some p => obtain ⟨c2', res⟩ := p; rfl
                    | some pk =>
                      cases hpv5 : n.vals.get? (Node.findIndex cmp n k - 1) with
                      | none =>
                        dsimp only
                        rw [hc]
                        dsimp only
                        have hrecF := ih c k hbc
                        cases hrF : Node.removeF cmp degree fuel c k with
                        | none => rw [hrF] at hrecF; simp at hrecF
                        | some p => obtain ⟨c2', res⟩ := p; rfl
                      | some pv =>
                        cases hl5 : n.children.get? (Node.findIndex cmp n k - 1) with
                        | none =>
                          dsimp only
                          rw [hc]
                          dsimp only
                          have hrecF := ih c k hbc
                          cases hrF : Node.removeF cmp degree fuel c k with
                          | none => rw [hrF] at hrecF; simp at hrecF
                          | some p => obtain ⟨c2', res⟩ := p; rfl
                        | some l =>
                          have hbl : l.height ≤ fuel :=
                            le_trans (height_le_heightL (List.get?_mem hl5)) hHL
                          dsimp only
                          split
                          · rfl
                          · rename_i c2 hg
                            have hb2 : c2.height ≤ fuel := by
                              have hmem := (List.eraseIdx_sublist _ _).subset
                                (List.get?_mem hg)
                              rcases List.mem_or_eq_of_mem_set hmem with h1 | rfl
                              · exact le_trans (height_le_heightL h1) hHL
                              · rw [height_mk, heightL_append]
                                rw [height_eq_children] at hbl hbc
                                have hmax : max (heightL l.children)
                                    (heightL c.children) ≤ fuel - 1 :=
                                  Nat.max_le.mpr ⟨by omega, by omega⟩
                                omega
                            have hrec := ih c2 k hb2
                            cases hr : Node.removeF cmp degree fuel c2 k with
                            | none => rw [hr] at hrec; simp at hrec
                            | some p => obtain ⟨c2', res⟩ := p; rfl
                  · rw [if_neg h3b1]
                    by_cases h3b2 : Node.findIndex cmp n k + 1 < n.children.length
                    · rw [if_pos h3b2]
                      cases hpk6 : n.keys.get? (Node.findIndex cmp n k) with
                      | none =>
                        dsimp only
                        rw [hc]
                        dsimp only
                        have hrecF := ih c k hbc
                        cases hrF : Node.removeF cmp degree fuel c k with
                        | none => rw [hrF] at hrecF; simp at hrecF
                        | some p => obtain ⟨c2', res⟩ := p; rfl
                      | some pk =>
                        cases hpv6 : n.vals.get? (Node.findIndex cmp n k) with
                        | none =>
                          dsimp only
                          rw [hc]
                          dsimp only
                          have hrecF := ih c k hbc
                          cases hrF : Node.removeF cmp degree fuel c k with
                          | none => rw [hrF] at hrecF; simp at hrecF
                          | some p => obtain ⟨c2', res⟩ := p; rfl
                        | some pv =>
                          cases hr6 : n.children.get? (Node.findIndex cmp n k + 1) with
                          | none =>
                            dsimp only
                            rw [hc]
                            dsimp only
                            have hrecF := ih c k hbc
                            cases hrF : Node.removeF cmp degree fuel c k with
                            | none => rw [hrF] at hrecF; simp at hrecF
                            | some p => obtain ⟨c2', res⟩ := p; rfl
                          | some r =>
                            have hbr : r.height ≤ fuel :=
                              le_trans (height_le_heightL (List.get?_mem hr6)) hHL
                            dsimp only
                            split
                            · rfl
                            · rename_i c2 hg
                              have hb2 : c2.height ≤ fuel := by
                                have hmem := (List.eraseIdx_sublist _ _).subset
                                  (List.get?_mem hg)
                                rcases List.mem_or_eq_of_mem_set hmem with h1 | rfl
                                · exact le_trans (height_le_heightL h1) hHL
                                · rw [height_mk, heightL_append]
                                  rw [height_eq_children] at hbr hbc
                                  have hmax : max (heightL c.children)
                                      (heightL r.children) ≤ fuel - 1 :=
                                    Nat.max_le.mpr ⟨by omega, by omega⟩
                                  omega
                              have hrec := ih c2 k hb2
                              cases hr : Node.removeF cmp degree fuel c2 k with
                              | none => rw [hr] at hrec; simp at hrec
                              | some p => obtain ⟨c2', res⟩ := p; rfl
                    · rw [if_neg h3b2]
                      dsimp only
                      rw [hc]
                      dsimp only
                      have hrecF := ih c k hbc
                      cases hrF : Node.removeF cmp degree fuel c k with
                      | none => rw [hrF] at hrecF; simp at hrecF
                      | some p => obtain ⟨c2', res⟩ := p; rfl
            · rw [if_neg h31]
              dsimp only
              rw [hc]
              dsimp only
              have hrecF := ih c k hbc
              cases hrF : Node.removeF cmp degree fuel c k with
              | none => rw [hrF] at hrecF; simp at hrecF
              | some p => obtain ⟨c2', res⟩ := p; rfl

/-- A concrete well-formed degree-2 map used to witness C9. -/
def wC9Map : BTreeMap Nat Nat :=
  ⟨5, 2, Node.mk [3] [30] [Node.mk [1, 2] [10, 20] [], Node.mk [4, 6] [40, 60] []]⟩

/-- C9: on a tree satisfying the structural invariants, every in-memory
operation terminates.  `get`, `insert_nonfull` and the full `Node::remove`
recursion (Cases 1, 2a/2b with their predecessor/successor deletions, 2c with
its recursion into the merged child, and the Case-3 rebalanced descents) all
reach a base case within `height` steps — any fuel of at least `height` avoids
the out-of-fuel branch; the `find_index` binary-search loop reaches its base
case within `right - left` iterations; and iteration is exhausted after `size`
steps (extra steps yield nothing more). -/
theorem c9_operations_terminate [LinearOrder K] (m : BTreeMap K V)
    (hwf : BTreeMap.WF compare m) (k : K) (v : V) :
    (∀ fuel, m.root.height ≤ fuel → (Node.getF compare fuel m.root k).isSome = true) ∧
    (∀ fuel, m.root.height ≤ fuel →
      (Node.insertF compare m.degree fuel m.root k v).isSome = true) ∧
    (∀ fuel, m.root.height ≤ fuel →
      (Node.removeF compare m.degree fuel m.root k).isSome = true) ∧
    (∀ left right fuel, right - left ≤ fuel →
      findIndexAux compare m.root.keys k fuel left right =
        findIndexAux compare m.root.keys k (right - left) left right) ∧
    (∀ extra, Iter.toListF (m.root.size + extra) (Iter.new m.root) =
      Iter.toListF m.root.size (Iter.new m.root)) := by
  obtain ⟨hdeg, hroot, hlen⟩ := hwf
  refine ⟨fun fuel hf => getF_isSome compare fuel m.root k hf,
    fun fuel hf => insertF_isSome compare m.degree fuel m.root k v hf,
    fun fuel hf => removeF_isSome compare m.degree fuel m.root k hf,
    fun left right fuel hf =>
      findIndexAux_stable compare m.root.keys k (right - left) fuel left right le_rfl hf,
    fun extra => ?_⟩
  obtain ⟨hif, hextra⟩ := iterList_eq_flatten hdeg hroot
  have h0 := hextra 0
  rw [Nat.add_zero] at h0
  rw [hextra extra, h0]

theorem c9_operations_terminate_witness :
    BTreeMap.WF compare wC9Map ∧
    (Node.getF compare (wC9Map.root.height + 1) wC9Map.root 5).isSome = true ∧
    (Node.insertF compare wC9Map.degree (wC9Map.root.height + 2) wC9Map.root 5 0).isSome
      = true ∧
    (Node.removeF compare wC9Map.degree wC9Map.root.height wC9Map.root 5).isSome = true ∧
    findIndexAux compare wC9Map.root.keys 5 9 0 1 =
      findIndexAux compare wC9Map.root.keys 5 (1 - 0) 0 1 ∧
    Iter.toListF (wC9Map.root.size + 7) (Iter.new wC9Map.root) =
      Iter.toListF wC9Map.root.size (Iter.new wC9Map.root) := by
  have hwf : BTreeMap.WF compare wC9Map := ⟨by decide, by decide, by decide⟩
  have h := c9_operations_terminate wC9Map hwf 5 0
  exact ⟨hwf, h.1 _ (by decide), h.2.1 _ (by decide), h.2.2.1 _ (by decide),
    h.2.2.2.1 0 1 9 (by decide), h.2.2.2.2 7⟩

/-! ## Claim C4: the Case-2a in-order-predecessor swap.

Positional list splices and a decomposition of `flattenZip` around its last
child, used to track the in-order entry sequence through the rightmost-spine
descent of `Node::remove`. -/

theorem set_at_length {α : Type} : ∀ (A : List α) (x y : α) (B : List α),
    (A ++ x :: B).set A.length y = A ++ y :: B
  | [], _, _, _ => rfl
  | a :: A, x, y, B => congrArg (a :: ·) (set_at_length A x y B)

theorem eraseIdx_at_length {α : Type} : ∀ (A : List α) (x : α) (B : List α),
    (A ++ x :: B).eraseIdx A.length = A ++ B
  | [], _, _ => rfl
  | a :: A, x, B => congrArg (a :: ·) (eraseIdx_at_length A x B)

theorem get?_at_length {α : Type} : ∀ (A : List α) (x : α) (B : List α),
    (A ++ x :: B).get? A.length = some x
  | [], _, _ => rfl
  | _ :: A, x, B => get?_at_length A x B

/-- The interleaving of a (child, key) column list: the part of a node's
flattening contributed by its first `|ks|` children and all its keys. -/
def flatL : List K → List V → List (Node K V) → List (K × V)
  | k :: ks, v :: vs, c :: cs => c.flatten ++ (k, v) :: flatL ks vs cs
  | _, _, _ => []

theorem flatL_nil_cs (ks : List K) (vs : List V) : flatL ks vs ([] : List (Node K V)) = [] := by
  cases ks <;> cases vs <;> rfl

theorem flatL_cons (k : K) (ks : List K) (v : V) (vs : List V) (c : Node K V)
    (cs : List (Node K V)) :
    flatL (k :: ks) (v :: vs) (c :: cs) = c.flatten ++ (k, v) :: flatL ks vs cs := rfl

theorem flattenZip_eq_flatL :
    ∀ (cs0 : List (Node K V)) (ks : List K) (vs : List V) (y : Node K V),
      cs0.length = ks.length → vs.length = ks.length →
      flattenZip ks vs (cs0 ++ [y]) = flatL ks vs cs0 ++ y.flatten := by
  intro cs0
  induction cs0 with
  | nil =>
    intro ks vs y h1 h2
    have hks : ks = [] := List.eq_nil_of_length_eq_zero (by simpa using h1.symm)
    subst hks
    have hvs : vs = [] := List.eq_nil_of_length_eq_zero (by simpa using h2)
    subst hvs
    rw [List.nil_append, flattenZip_single, flatL_nil_cs, List.nil_append]
  | cons c cs0' ih =>
    intro ks vs y h1 h2
    have hksne : ks ≠ [] := by
      intro h0
      rw [h0] at h1
      simp at h1
    obtain ⟨k, ks', rfl⟩ := List.exists_cons_of_ne_nil hksne
    have hvsne : vs ≠ [] := by
      intro h0
      rw [h0] at h2
      simp at h2
    obtain ⟨v, vs', rfl⟩ := List.exists_cons_of_ne_nil hvsne
    have hne : cs0' ++ [y] ≠ [] := by simp
    obtain ⟨c2, Z, hcz⟩ := List.exists_cons_of_ne_nil hne
    rw [List.cons_append, hcz, flattenZip_cons, ← hcz,
      ih ks' vs' y (by simpa using h1) (by simpa using h2), flatL_cons]
    simp only [List.append_assoc, List.cons_append]

theorem flatL_snoc :
    ∀ (ks : List K) (vs : List V) (cs : List (Node K V)) (a : K) (b : V) (y : Node K V),
      cs.length = ks.length → vs.length = ks.length →
      flatL (ks ++ [a]) (vs ++ [b]) (cs ++ [y]) = flatL ks vs cs ++ y.flatten ++ [(a, b)] := by
  intro ks
  induction ks with
  | nil =>
    intro vs cs a b y h1 h2
    have hcs : cs = [] := List.eq_nil_of_length_eq_zero (by simpa using h1)
    subst hcs
    have hvs : vs = [] := List.eq_nil_of_length_eq_zero (by simpa using h2)
    subst hvs
    rw [flatL_nil_cs]
    simp only [List.nil_append, flatL_cons, flatL_nil_cs]
  | cons k ks' ih =>
    intro vs cs a b y h1 h2
    have hcsne : cs ≠ [] := by
      intro h0
      rw [h0] at h1
      simp at h1
    obtain ⟨c, cs', rfl⟩ := List.exists_cons_of_ne_nil hcsne
    have hvsne : vs ≠ [] := by
      intro h0
      rw [h0] at h2
      simp at h2
    obtain ⟨v, vs', rfl⟩ := List.exists_cons_of_ne_nil hvsne
    simp only [List.cons_append, flatL_cons]
    rw [ih vs' cs' a b y (by simpa using h1) (by simpa using h2)]
    simp only [List.append_assoc, List.cons_append]

theorem flatL_eq_flattenZip_concat :
    ∀ (ks : List K) (vs : List V) (cs : List (Node K V)) (a : K) (b : V),
      cs.length = ks.length + 1 → vs.length = ks.length →
      flatL (ks ++ [a]) (vs ++ [b]) cs = flattenZip ks vs cs ++ [(a, b)] := by
  intro ks
  induction ks with
  | nil =>
    intro vs cs a b h1 h2
    have hvs : vs = [] := List.eq_nil_of_length_eq_zero (by simpa using h2)
    subst hvs
    have : ∃ c, cs = [c] := by
      cases cs with
      | nil => simp at h1
      | cons c cs' =>
        cases cs' with
        | nil => exact ⟨c, rfl⟩
        | cons c2 Z => simp at h1
    obtain ⟨c, rfl⟩ := this
    rw [flattenZip_single]
    simp only [List.nil_append, flatL_cons, flatL_nil_cs]
  | cons k ks' ih =>
    intro vs cs a b h1 h2
    have hcsne : cs ≠ [] := by
      intro h0
      rw [h0] at h1
      simp at h1
    obtain ⟨c, cs', rfl⟩ := List.exists_cons_of_ne_nil hcsne
    have hvsne : vs ≠ [] := by
      intro h0
      rw [h0] at h2
      simp at h2
    obtain ⟨v, vs', rfl⟩ := List.exists_cons_of_ne_nil hvsne
    have hcs'ne : cs' ≠ [] := by
      intro h0
      rw [h0] at h1
      simp at h1
    obtain ⟨c2, Z, hcz⟩ := List.exists_cons_of_ne_nil hcs'ne
    simp only [List.cons_append, flatL_cons]
    rw [ih vs' cs' a b (by simpa using h1) (by simpa using h2), hcz, flattenZip_cons, ← hcz]
    simp only [List.append_assoc, List.cons_append]

/-- A merged node's interleaving: gluing two children lists around a
separator pairs the two flattenings around the separator entry. -/
theorem flattenZip_merge :
    ∀ (lks : List K) (lvs : List V) (lcs : List (Node K V)) (km : K) (vm : V)
      (cks : List K) (cvs : List V) (ccs : List (Node K V)),
      lcs.length = lks.length + 1 → lvs.length = lks.length → ccs ≠ [] →
      flattenZip (lks ++ km :: cks) (lvs ++ vm :: cvs) (lcs ++ ccs) =
        flattenZip lks lvs lcs ++ (km, vm) :: flattenZip cks cvs ccs := by
  intro lks
  induction lks with
  | nil =>
    intro lvs lcs km vm cks cvs ccs h1 h2 h3
    have hvs : lvs = [] := List.eq_nil_of_length_eq_zero (by simpa using h2)
    subst hvs
    have : ∃ lc, lcs = [lc] := by
      cases lcs with
      | nil => simp at h1
      | cons lc lcs' =>
        cases lcs' with
        | nil => exact ⟨lc, rfl⟩
        | cons x Z => simp at h1
    obtain ⟨lc, rfl⟩ := this
    obtain ⟨cc, ccs', hccs⟩ := List.exists_cons_of_ne_nil h3
    rw [flattenZip_single]
    simp only [List.nil_append, List.singleton_append]
    rw [hccs, flattenZip_cons, ← hccs]
  | cons lk lks' ih =>
    intro lvs lcs km vm cks cvs ccs h1 h2 h3
    have hvsne : lvs ≠ [] := by
      intro h0
      rw [h0] at h2
      simp at h2
    obtain ⟨lv, lvs', rfl⟩ := List.exists_cons_of_ne_nil hvsne
    have hcsne : lcs ≠ [] := by
      intro h0
      rw [h0] at h1
      simp at h1
    obtain ⟨lc, lcs', rfl⟩ := List.exists_cons_of_ne_nil hcsne
    have hlcs'ne : lcs' ≠ [] := by
      intro h0
      rw [h0] at h1
      simp at h1
    obtain ⟨lc2, Z, hcz⟩ := List.exists_cons_of_ne_nil hlcs'ne
    have hne2 : lcs' ++ ccs ≠ [] := by simp [hlcs'ne]
    obtain ⟨w, W, hw⟩ := List.exists_cons_of_ne_nil hne2
    simp only [List.cons_append]
    rw [hw, flattenZip_cons, ← hw,
      ih lvs' lcs' km vm cks cvs ccs (by simpa using h1) (by simpa using h2) h3,
      hcz, flattenZip_cons, ← hcz]
    simp only [List.append_assoc, List.cons_append]

theorem zip_snoc {ks : List K} {vs : List V} (a : K) (b : V) (h : ks.length = vs.length) :
    (ks ++ [a]).zip (vs ++ [b]) = ks.zip vs ++ [(a, b)] := by
  rw [List.zip_append (by omega)]
  rfl

/-- An element list chained above a `some` lower bound lies strictly above it. -/
theorem chain_some_lo_lt [LinearOrder K] {x : K} {A : List K} {hi : Option K}
    (h : List.Chain' (· < ·) ((some x : Option K).toList ++ A ++ hi.toList)) :
    ∀ a ∈ A, x < a := by
  rw [List.chain'_iff_pairwise] at h
  intro a ha
  have h2 : List.Pairwise (· < ·) (x :: (A ++ hi.toList)) := h
  exact (List.pairwise_cons.mp h2).1 a (List.mem_append.mpr (Or.inl ha))

theorem childrenWf_last {cmp : Cmp K} {t : Nat} {hi : Option K} :
    ∀ (ks : List K) (lo : Option K) (cs0 : List (Node K V)) (y : Node K V),
      childrenWf cmp t lo ks hi (cs0 ++ [y]) = true → cs0.length = ks.length →
      Node.wfN cmp t (lastOr lo ks) hi y = true := by
  intro ks
  induction ks with
  | nil =>
    intro lo cs0 y hcw hlen
    have hcs : cs0 = [] := List.eq_nil_of_length_eq_zero (by simpa using hlen)
    subst hcs
    rw [List.nil_append, childrenWf_single] at hcw
    rw [lastOr_nil]
    exact hcw
  | cons k ks' ih =>
    intro lo cs0 y hcw hlen
    have hcsne : cs0 ≠ [] := by
      intro h0
      rw [h0] at hlen
      simp at hlen
    obtain ⟨c, cs0', rfl⟩ := List.exists_cons_of_ne_nil hcsne
    rw [List.cons_append, childrenWf_cons, Bool.and_eq_true] at hcw
    rw [lastOr_cons]
    exact ih (some k) cs0' y hcw.2 (by simpa using hlen)

theorem childrenWf_snoc2 {cmp : Cmp K} {t : Nat} {hi : Option K} :
    ∀ (ks0 : List K) (lo : Option K) (cs0 : List (Node K V)) (km : K) (l c : Node K V),
      childrenWf cmp t lo (ks0 ++ [km]) hi (cs0 ++ [l, c]) = true →
      cs0.length = ks0.length →
      Node.wfN cmp t (lastOr lo ks0) (some km) l = true ∧
      Node.wfN cmp t (some km) hi c = true := by
  intro ks0
  induction ks0 with
  | nil =>
    intro lo cs0 km l c hcw hlen
    have hcs : cs0 = [] := List.eq_nil_of_length_eq_zero (by simpa using hlen)
    subst hcs
    rw [List.nil_append, List.nil_append, childrenWf_cons, Bool.and_eq_true,
      childrenWf_single] at hcw
    rw [lastOr_nil]
    exact hcw
  | cons k ks0' ih =>
    intro lo cs0 km l c hcw hlen
    have hcsne : cs0 ≠ [] := by
      intro h0
      rw [h0] at hlen
      simp at hlen
    obtain ⟨c0, cs0', rfl⟩ := List.exists_cons_of_ne_nil hcsne
    rw [List.cons_append, List.cons_append, childrenWf_cons, Bool.and_eq_true] at hcw
    rw [lastOr_cons]
    exact ih (some k) cs0' km l c hcw.2 (by simpa using hlen)

theorem childrenWf_merge {cmp : Cmp K} {t : Nat} {hi : Option K} :
    ∀ (ks : List K) (lo : Option K) (cs : List (Node K V)) (m : K) (ks' : List K)
      (cs' : List (Node K V)),
      childrenWf cmp t lo ks (some m) cs = true →
      childrenWf cmp t (some m) ks' hi cs' = true →
      cs.length = ks.length + 1 →
      childrenWf cmp t lo (ks ++ m :: ks') hi (cs ++ cs') = true := by
  intro ks
  induction ks with
  | nil =>
    intro lo cs m ks' cs' h1 h2 hlen
    have : ∃ c, cs = [c] := by
      cases cs with
      | nil => simp at hlen
      | cons c cs2 =>
        cases cs2 with
        | nil => exact ⟨c, rfl⟩
        | cons x Z => simp at hlen
    obtain ⟨c, rfl⟩ := this
    rw [childrenWf_single] at h1
    rw [List.nil_append, List.singleton_append, childrenWf_cons, h1, h2]
    rfl
  | cons k ks2 ih =>
    intro lo cs m ks' cs' h1 h2 hlen
    have hcsne : cs ≠ [] := by
      intro h0
      rw [h0] at hlen
      simp at hlen
    obtain ⟨c, cs2, rfl⟩ := List.exists_cons_of_ne_nil hcsne
    rw [childrenWf_cons, Bool.and_eq_true] at h1
    rw [List.cons_append, List.cons_append, childrenWf_cons, h1.1,
      ih (some k) cs2 m ks' cs' h1.2 h2 (by simpa using hlen)]
    rfl

/-- Every child of a well-formed internal node has height `heightL children`. -/
theorem wf_children_height [LinearOrder K] {t : Nat} {lo hi : Option K}
    {ks : List K} {vs : List V} {cs : List (Node K V)}
    (hwf : Node.wfN compare t lo hi (.mk ks vs cs) = true) (hne : cs ≠ []) :
    ∀ c ∈ cs, c.height = heightL cs := by
  obtain ⟨_, _, _, _, hkid⟩ := wfN_mk_iff.mp hwf
  rcases hkid with rfl | ⟨_, hsh, _⟩
  · exact absurd rfl hne
  · intro c hc
    have hall := sameHeightB_iff.mp hsh
    exact (heightL_eq_of_mem hne (fun d hd => hall d hd c hc)).symm

/-- For a well-formed node, being a leaf is the same as having height 1. -/
theorem wf_leaf_iff_height [LinearOrder K] {t : Nat} {lo hi : Option K} {p : Node K V}
    (hwf : Node.wfN compare t lo hi p = true) :
    p.children = [] ↔ p.height = 1 := by
  obtain ⟨ks, vs, cs⟩ := p
  obtain ⟨_, _, _, _, hkid⟩ := wfN_mk_iff.mp hwf
  constructor
  · intro h
    rw [children_mk] at h
    subst h
    rfl
  · intro h1
    rcases hkid with rfl | ⟨hclen, _, _⟩
    · rfl
    · exfalso
      have hcsne : cs ≠ [] := by
        intro h0
        rw [h0] at hclen
        simp at hclen
      obtain ⟨c, cs', rfl⟩ := List.exists_cons_of_ne_nil hcsne
      have h2 : 1 ≤ c.height := by
        rw [height_eq_children]
        omega
      have h3 : c.height ≤ heightL (c :: cs') :=
        height_le_heightL (List.mem_cons_self _ _)
      rw [height_mk] at h1
      omega

/-- A well-formed subtree flattens to a nonempty entry list. -/
theorem wf_flatten_ne_nil [LinearOrder K] {t : Nat} {lo hi : Option K} (ht : 2 ≤ t)
    {p : Node K V} (hwf : Node.wfN compare t lo hi p = true) : p.flatten ≠ [] := by
  have hs := wfN_sound ht hwf
  have hlen := flatten_length_aux p.height p le_rfl hs
  obtain ⟨ks, vs, cs⟩ := p
  obtain ⟨_, hmin, _, _, _⟩ := wfN_mk_iff.mp hwf
  intro h0
  rw [h0, size_mk] at hlen
  have h1 : ks.length = 0 ∧ sizeL cs = 0 := by
    constructor <;> (simp only [List.length_nil] at hlen; omega)
  omega

/-- `find_index` lands past every smaller key: on a key above the whole key
list it answers `len`. -/
theorem findIndex_all_lt [LinearOrder K] (n : Node K V) (k : K)
    (hsort : List.Pairwise (· < ·) n.keys) (hall : ∀ x ∈ n.keys, x < k) :
    n.findIndex compare k = n.keys.length := by
  obtain ⟨h1, _, h3⟩ := findIndex_spec n k hsort
  by_contra hne
  have hlt : n.findIndex compare k < n.keys.length := lt_of_le_of_ne h1 hne
  have h4 := h3 _ hlt le_rfl
  have h5 := hall (n.keys.get ⟨_, hlt⟩) (n.keys.get_mem _ _)
  exact absurd h4 (not_le.mpr h5)

/-- `find_index` finds the exact position of a present key. -/
theorem findIndex_at_mem [LinearOrder K] (n : Node K V) {i : Nat} {k : K}
    (hsort : List.Pairwise (· < ·) n.keys) (hi : i < n.keys.length)
    (hk : n.keys.get ⟨i, hi⟩ = k) :
    n.findIndex compare k = i := by
  obtain ⟨h1, h2, h3⟩ := findIndex_spec n k hsort
  rcases lt_trichotomy (n.findIndex compare k) i with h | h | h
  · exfalso
    have h4 := h3 _ (by omega) le_rfl
    have h5 : n.keys.get ⟨n.findIndex compare k, by omega⟩ < n.keys.get ⟨i, hi⟩ :=
      pairwise_get_lt hsort _ _ h
    rw [hk] at h5
    exact absurd h4 (not_le.mpr h5)
  · exact h
  · exfalso
    have h4 := h2 i hi h
    rw [hk] at h4
    exact absurd h4 (lt_irrefl k)

/-- An element list chained below a `some` upper bound lies strictly below it. -/
theorem chain_hi_gt [LinearOrder K] {m : K} {A : List K} {lo : Option K}
    (h : List.Chain' (· < ·) (lo.toList ++ A ++ (some m : Option K).toList)) :
    ∀ a ∈ A, a < m := by
  rw [List.chain'_iff_pairwise] at h
  intro a ha
  exact (List.pairwise_append.mp h).2.2 a (List.mem_append.mpr (Or.inr ha)) m
    (List.mem_singleton.mpr rfl)

theorem wf_isEmpty_false [LinearOrder K] {t : Nat} {lo hi : Option K} (ht : 2 ≤ t)
    {p : Node K V} (hwf : Node.wfN compare t lo hi p = true) : p.isEmpty = false := by
  obtain ⟨ks, vs, cs⟩ := p
  obtain ⟨_, hmin, _, _, _⟩ := wfN_mk_iff.mp hwf
  cases hks : ks with
  | nil =>
    rw [hks] at hmin
    simp at hmin
    omega
  | cons k ks' => rfl

/-- Deleting the maximum: on a well-formed subtree, `max_key` names the key of
the last in-order entry, and removing it deletes exactly that entry (the
flattening loses its last element) and returns it. -/
theorem remove_max_aux [LinearOrder K] {t : Nat} (ht : 2 ≤ t) :
    ∀ (H : Nat) (p : Node K V) (lo hi : Option K) (fuel : Nat),
      p.height ≤ H → Node.wfN compare t lo hi p = true → p.height ≤ fuel →
      ∃ (pk : K) (pv : V) (p' : Node K V),
        Node.maxKeyF fuel p = some pk ∧
        Node.removeF compare t fuel p pk = some (p', some (pk, pv)) ∧
        p.flatten.getLast? = some (pk, pv) ∧
        p'.flatten = p.flatten.dropLast := by
  intro H
  induction H with
  | zero =>
    intro p lo hi fuel hH
    rw [height_eq_children] at hH
    omega
  | succ H ih =>
    intro p lo hi fuel hH hwf hfuel
    obtain ⟨ks, vs, cs⟩ := p
    obtain ⟨hpv, hmin, hmax2, hchain, hkid⟩ := wfN_mk_iff.mp hwf
    cases fuel with
    | zero =>
      rw [height_mk] at hfuel
      omega
    | succ fuel =>
      have hks_sorted : List.Pairwise (· < ·) ks :=
        (List.chain'_iff_pairwise.mp hchain).sublist
          ((List.sublist_append_right _ _).trans (List.sublist_append_left _ _))
      have hksne : ks ≠ [] := by
        intro h0
        rw [h0] at hmin
        simp at hmin
        omega
      obtain ⟨ks0, km, rfl⟩ := (List.eq_nil_or_concat ks).resolve_left hksne
      have hvs_len : vs.length = ks0.length + 1 := by simpa using hpv
      have hvsne : vs ≠ [] := by
        intro h0
        rw [h0] at hvs_len
        simp at hvs_len
      obtain ⟨vs0, vm, rfl⟩ := (List.eq_nil_or_concat vs).resolve_left hvsne
      simp only [List.concat_eq_append] at *
      have hvs0_len : vs0.length = ks0.length := by simpa using hvs_len
      rcases hkid with rfl | ⟨hclen, hsh, hcw⟩
      · -- leaf: Case 1 removes the last entry of the key/value lists
        have hidx : Node.findIndex compare
            (Node.mk (ks0 ++ [km]) (vs0 ++ [vm]) ([] : List (Node K V))) km = ks0.length := by
          refine findIndex_at_mem _ hks_sorted (i := ks0.length) (by simp) ?_
          have h5 : (ks0 ++ [km]).get? ks0.length = some km := get?_at_length ks0 km []
          obtain ⟨hb, hg⟩ := List.get?_eq_some.mp h5
          exact hg
        have h5 : (ks0 ++ [km]).get? ks0.length = some km := get?_at_length ks0 km []
        have hv5 : (vs0 ++ [vm]).get? ks0.length = some vm := by
          rw [← hvs0_len]
          exact get?_at_length vs0 vm []
        refine ⟨km, vm, Node.mk ks0 vs0 [], ?_, ?_, ?_, ?_⟩
        · exact List.getLast?_concat _
        · simp only [Node.removeF]
          rw [hidx, keys_mk, vals_mk, children_mk, h5, hv5]
          rw [show Option.any (fun km2 => keq compare km2 km) (some km) = true from by
            simp [keq_compare_iff]]
          rw [if_pos (show (true && (Node.mk (ks0 ++ [km]) (vs0 ++ [vm])
            ([] : List (Node K V))).isLeaf) = true from rfl)]
          dsimp only
          rw [show (ks0 ++ [km]).eraseIdx ks0.length = ks0 from by
              have := eraseIdx_at_length ks0 km ([] : List K)
              simpa using this,
            show (vs0 ++ [vm]).eraseIdx ks0.length = vs0 from by
              rw [← hvs0_len]
              have := eraseIdx_at_length vs0 vm ([] : List V)
              simpa using this]
        · rw [flatten_mk, flattenZip_nil_cs, zip_snoc km vm hvs0_len.symm,
            List.getLast?_concat]
        · rw [flatten_mk, flattenZip_nil_cs, flatten_mk, flattenZip_nil_cs,
            zip_snoc km vm hvs0_len.symm, List.dropLast_concat]
      · -- internal: descend into the last child, rebalancing it when thin
        have hcs_len : cs.length = ks0.length + 2 := by simpa using hclen
        have hcsne0 : cs ≠ [] := by
          intro h0
          rw [h0] at hcs_len
          simp at hcs_len
        obtain ⟨cs1, c, rfl⟩ := (List.eq_nil_or_concat cs).resolve_left hcsne0
        have hcs1ne : cs1 ≠ [] := by
          intro h0
          rw [h0] at hcs_len
          simp at hcs_len
        obtain ⟨A, l, rfl⟩ := (List.eq_nil_or_concat cs1).resolve_left hcs1ne
        simp only [List.concat_eq_append] at *
        have hA_len : A.length = ks0.length := by
          simp only [List.length_append, List.length_cons, List.length_nil] at hcs_len
          omega
        have hcw2 : childrenWf compare t lo (ks0 ++ [km]) hi (A ++ [l, c]) = true := by
          rw [show A ++ [l, c] = (A ++ [l]) ++ [c] from by simp]
          exact hcw
        obtain ⟨hlwf, hcwf⟩ := childrenWf_snoc2 ks0 lo A km l c hcw2 hA_len
        have hch := wf_children_height hwf (by simp : (A ++ [l]) ++ [c] ≠ [])
        have hc_h : c.height = heightL ((A ++ [l]) ++ [c]) := hch c (by simp)
        have hl_h : l.height = heightL ((A ++ [l]) ++ [c]) := hch l (by simp)
        have hH2 : heightL ((A ++ [l]) ++ [c]) ≤ H := by
          rw [height_mk] at hH
          omega
        have hf2 : heightL ((A ++ [l]) ++ [c]) ≤ fuel := by
          rw [height_mk] at hfuel
          omega
        obtain ⟨pk, pv, c', hmaxc, hremc, hlastc, hflatc⟩ :=
          ih c (some km) hi fuel (by omega) hcwf (by omega)
        have hchainc := flatten_keys_sorted_aux c.height c (some km) hi le_rfl hcwf
        have hpk_mem : pk ∈ c.flatten.map Prod.fst :=
          List.mem_map_of_mem Prod.fst (mem_of_getLast?_eq hlastc)
        have hkm_pk : km < pk := chain_some_lo_lt hchainc pk hpk_mem
        have hall_lt : ∀ x ∈ ks0 ++ [km], x < pk := fun x hx =>
          lt_of_le_of_lt (pairwise_le_getLast hks_sorted (List.getLast?_concat _) x hx) hkm_pk
        have hidx : Node.findIndex compare
            (Node.mk (ks0 ++ [km]) (vs0 ++ [vm]) ((A ++ [l]) ++ [c])) pk
            = (ks0 ++ [km]).length :=
          findIndex_all_lt _ pk hks_sorted hall_lt
        have hlen_eq : (ks0 ++ [km]).length = ks0.length + 1 := by simp
        have hcflat_ne : c.flatten ≠ [] := wf_flatten_ne_nil ht hcwf
        have hgetc : ((A ++ [l]) ++ [c]).get? (ks0.length + 1) = some c := by
          rw [show ks0.length + 1 = (A ++ [l]).length from by simp [hA_len]]
          have := get?_at_length (A ++ [l]) c ([] : List (Node K V))
          simpa using this
        have hne_isleaf : (Node.mk (ks0 ++ [km]) (vs0 ++ [vm])
            ((A ++ [l]) ++ [c])).isLeaf = false := by
          simp [Node.isLeaf]
        have hcempty : c.isEmpty = false := wf_isEmpty_false ht hcwf
        have hmaxp : Node.maxKeyF (fuel + 1)
            (Node.mk (ks0 ++ [km]) (vs0 ++ [vm]) ((A ++ [l]) ++ [c])) = some pk := by
          simp only [Node.maxKeyF, children_mk]
          rw [List.getLast?_concat]
          dsimp only
          rw [hne_isleaf, hcempty]
          show Node.maxKeyF fuel c = some pk
          exact hmaxc
        have hfound : ((ks0 ++ [km]).get? (ks0.length + 1)) = none :=
          List.get?_eq_none.mpr (by simp)
        by_cases hthin : c.len + 1 = t
        · by_cases hfat : t ≤ l.len
          · -- Case 3a-left: borrow from the fat left sibling (rotate right
            -- through the parent separator), then recurse into the fattened child
            obtain ⟨lks, lvs, lcs⟩ := l
            obtain ⟨cks, cvs, ccs⟩ := c
            obtain ⟨hlpv, hlmin, hlmax, hlchain, hlkid⟩ := wfN_mk_iff.mp hlwf
            obtain ⟨hcpv, hcmin, hcmax, hcchain, hckid⟩ := wfN_mk_iff.mp hcwf
            simp only [len_mk] at hthin hfat
            have hlc_heq : heightL lcs = heightL ccs := by
              have h9 := hl_h.trans hc_h.symm
              simp only [height_mk] at h9
              omega
            have hlksne : lks ≠ [] := by
              intro h0
              rw [h0] at hfat
              simp at hfat
              omega
            obtain ⟨lks0, lk, rfl⟩ := (List.eq_nil_or_concat lks).resolve_left hlksne
            have hlvs_len0 : lvs.length = lks0.length + 1 := by simpa using hlpv
            have hlvsne : lvs ≠ [] := by
              intro h0
              rw [h0] at hlvs_len0
              simp at hlvs_len0
            obtain ⟨lvs0, lv, rfl⟩ := (List.eq_nil_or_concat lvs).resolve_left hlvsne
            simp only [List.concat_eq_append] at *
            have hlvs0_len : lvs0.length = lks0.length := by simpa using hlvs_len0
            have hlk_km : lk < km := chain_hi_gt hlchain lk (by simp)
            have hchainR : List.Chain' (· < ·) ((some lk : Option K).toList ++
                (km :: cks) ++ hi.toList) := by
              have h2 : List.Chain' (· < ·) (km :: (cks ++ hi.toList)) := hcchain
              exact List.chain'_cons.mpr ⟨hlk_km, h2⟩
            have hgetl : ((A ++ [Node.mk (lks0 ++ [lk]) (lvs0 ++ [lv]) lcs]) ++
                [Node.mk cks cvs ccs]).get? ks0.length =
                some (Node.mk (lks0 ++ [lk]) (lvs0 ++ [lv]) lcs) := by
              rw [← hA_len, show (A ++ [Node.mk (lks0 ++ [lk]) (lvs0 ++ [lv]) lcs]) ++
                [Node.mk cks cvs ccs] = A ++ (Node.mk (lks0 ++ [lk]) (lvs0 ++ [lv]) lcs) ::
                  [Node.mk cks cvs ccs] from by simp]
              exact get?_at_length A _ _
            have hkm5 : (ks0 ++ [km]).get? ks0.length = some km := get?_at_length ks0 km []
            have hvm5 : (vs0 ++ [vm]).get? ks0.length = some vm := by
              rw [← hvs0_len]
              exact get?_at_length vs0 vm []
            rcases List.eq_nil_or_concat lcs with rfl | ⟨lcs0, lc, rfl⟩
            · -- l is a leaf, hence so is c
              have hccs : ccs = [] := by
                rcases hckid with rfl | ⟨hcclen, _, _⟩
                · rfl
                · exfalso
                  have hccsne : ccs ≠ [] := by
                    intro h0
                    rw [h0] at hcclen
                    simp at hcclen
                  obtain ⟨c0, Z, rfl⟩ := List.exists_cons_of_ne_nil hccsne
                  have h8 : 1 ≤ c0.height := by
                    rw [height_eq_children]
                    omega
                  have h9 := height_le_heightL (List.mem_cons_self c0 Z)
                  simp only [heightL] at hlc_heq
                  omega
              subst hccs
              have hcRwf : Node.wfN compare t (some lk) hi
                  (Node.mk (km :: cks) (vm :: cvs) ([] : List (Node K V))) = true := by
                refine wfN_mk_iff.mpr ⟨by simp [hcpv], ?_, ?_, hchainR, Or.inl rfl⟩
                · simp only [List.length_cons]
                  omega
                · simp only [List.length_cons]
                  omega
              have hcR_h : (Node.mk (km :: cks) (vm :: cvs)
                  ([] : List (Node K V))).height =
                  heightL ((A ++ [Node.mk (lks0 ++ [lk]) (lvs0 ++ [lv]) []]) ++
                    [Node.mk cks cvs ([] : List (Node K V))]) := by
                have h9 := hc_h
                simp only [height_mk] at h9 ⊢
                omega
              obtain ⟨pk2, pv2, cR', hmax2, hrem2, hlast2, hflat2⟩ :=
                ih (Node.mk (km :: cks) (vm :: cvs) ([] : List (Node K V)))
                  (some lk) hi fuel (by omega) hcRwf (by omega)
              have hflatR : (Node.mk (km :: cks) (vm :: cvs)
                  ([] : List (Node K V))).flatten =
                  (km, vm) :: (Node.mk cks cvs ([] : List (Node K V))).flatten := by
                rw [flatten_mk, flatten_mk, flattenZip_nil_cs, flattenZip_nil_cs]
                rfl
              have hRlast : (Node.mk (km :: cks) (vm :: cvs)
                  ([] : List (Node K V))).flatten.getLast? = some (pk, pv) := by
                rw [hflatR, show ((km, vm) :: (Node.mk cks cvs
                    ([] : List (Node K V))).flatten) = [(km, vm)] ++
                    (Node.mk cks cvs ([] : List (Node K V))).flatten from rfl,
                  List.getLast?_append_of_ne_nil _ hcflat_ne]
                exact hlastc
              have hpp : pk2 = pk ∧ pv2 = pv := by
                have h9 := Option.some.inj (hlast2.symm.trans hRlast)
                exact ⟨congrArg Prod.fst h9, congrArg Prod.snd h9⟩
              rw [hpp.1, hpp.2] at hrem2
              refine ⟨pk, pv, Node.mk (ks0 ++ [lk]) (vs0 ++ [lv])
                ((A ++ [Node.mk lks0 lvs0 []]) ++ [cR']), hmaxp, ?_, ?_, ?_⟩
              · simp only [Node.removeF]
                rw [hidx, hlen_eq]
                simp only [keys_mk, vals_mk, children_mk]
                rw [hfound]
                rw [show Option.any (fun km2 => keq compare km2 pk) (none : Option K) =
                  false from rfl]
                rw [if_neg (by simp), if_neg (by simp), hne_isleaf, if_neg (by simp)]
                simp only [keys_mk, vals_mk, children_mk]
                rw [hgetc]
                dsimp only
                rw [if_pos (show ((Node.mk cks cvs ([] : List (Node K V))).len + 1 == t) =
                    true from by
                  simp only [beq_iff_eq, len_mk]
                  exact hthin)]
                rw [show (ks0.length + 1 - 1 : Nat) = ks0.length from rfl]
                rw [hgetl]
                rw [if_pos (show ((decide (ks0.length + 1 > 0) &&
                    Option.any (fun x => decide (t ≤ x.len))
                      (some (Node.mk (lks0 ++ [lk]) (lvs0 ++ [lv])
                        ([] : List (Node K V)))))) = true from by
                  simp [len_mk]
                  simp only [List.length_append, List.length_cons, List.length_nil] at hfat
                  omega)]
                rw [hkm5, hvm5]
                simp only [keys_mk, vals_mk, children_mk]
                rw [List.getLast?_concat lks0, List.getLast?_concat lvs0]
                dsimp only
                rw [List.dropLast_concat, List.dropLast_concat, List.dropLast_nil]
                simp only [List.getLast?_nil]
                rw [show (ks0 ++ [km]).set ks0.length lk = ks0 ++ [lk] from by
                    have := set_at_length ks0 km lk ([] : List K)
                    simpa using this,
                  show (vs0 ++ [vm]).set ks0.length lv = vs0 ++ [lv] from by
                    rw [← hvs0_len]
                    have := set_at_length vs0 vm lv ([] : List V)
                    simpa using this]
                rw [show ((A ++ [Node.mk (lks0 ++ [lk]) (lvs0 ++ [lv]) []]) ++
                    [Node.mk cks cvs ([] : List (Node K V))]).set ks0.length
                    (Node.mk lks0 lvs0 []) =
                    (A ++ [Node.mk lks0 lvs0 []]) ++
                      [Node.mk cks cvs ([] : List (Node K V))] from by
                  rw [← hA_len, show (A ++ [Node.mk (lks0 ++ [lk]) (lvs0 ++ [lv]) []]) ++
                    [Node.mk cks cvs ([] : List (Node K V))] =
                    A ++ (Node.mk (lks0 ++ [lk]) (lvs0 ++ [lv]) []) ::
                      [Node.mk cks cvs ([] : List (Node K V))] from by simp]
                  rw [set_at_length A (Node.mk (lks0 ++ [lk]) (lvs0 ++ [lv]) [])
                    (Node.mk lks0 lvs0 []) [Node.mk cks cvs []]]
                  simp]
                rw [show ((A ++ [Node.mk lks0 lvs0 []]) ++
                    [Node.mk cks cvs ([] : List (Node K V))]).set (ks0.length + 1)
                    (Node.mk (km :: cks) (vm :: cvs) ([] : List (Node K V))) =
                    (A ++ [Node.mk lks0 lvs0 []]) ++
                      [Node.mk (km :: cks) (vm :: cvs) ([] : List (Node K V))] from by
                  rw [show (ks0.length + 1 : Nat) =
                    (A ++ [Node.mk lks0 lvs0 []]).length from by
                      simp [hA_len]]
                  have := set_at_length (A ++ [Node.mk lks0 lvs0 []])
                    (Node.mk cks cvs ([] : List (Node K V)))
                    (Node.mk (km :: cks) (vm :: cvs) ([] : List (Node K V)))
                    ([] : List (Node K V))
                  simpa using this]
                simp only [keys_mk, vals_mk, children_mk]
                rw [show ((A ++ [Node.mk lks0 lvs0 []]) ++
                    [Node.mk (km :: cks) (vm :: cvs) ([] : List (Node K V))]).get?
                    (ks0.length + 1) =
                    some (Node.mk (km :: cks) (vm :: cvs) ([] : List (Node K V))) from by
                  rw [show (ks0.length + 1 : Nat) =
                    (A ++ [Node.mk lks0 lvs0 []]).length from by
                      simp [hA_len]]
                  have := get?_at_length (A ++ [Node.mk lks0 lvs0 []])
                    (Node.mk (km :: cks) (vm :: cvs) ([] : List (Node K V)))
                    ([] : List (Node K V))
                  simpa using this]
                dsimp only
                rw [hrem2]
                dsimp only
                rw [show ((A ++ [Node.mk lks0 lvs0 []]) ++
                    [Node.mk (km :: cks) (vm :: cvs) ([] : List (Node K V))]).set
                    (ks0.length + 1) cR' =
                    (A ++ [Node.mk lks0 lvs0 []]) ++ [cR'] from by
                  rw [show (ks0.length + 1 : Nat) =
                    (A ++ [Node.mk lks0 lvs0 []]).length from by
                      simp [hA_len]]
                  have := set_at_length (A ++ [Node.mk lks0 lvs0 []])
                    (Node.mk (km :: cks) (vm :: cvs) ([] : List (Node K V))) cR'
                    ([] : List (Node K V))
                  simpa using this]
              · rw [flatten_mk, flattenZip_eq_flatL
                    (A ++ [Node.mk (lks0 ++ [lk]) (lvs0 ++ [lv]) []]) (ks0 ++ [km])
                    (vs0 ++ [vm]) (Node.mk cks cvs []) (by simp [hA_len]) hpv,
                  List.getLast?_append_of_ne_nil _ hcflat_ne, hlastc]
              · rw [flatten_mk, flatten_mk,
                  flattenZip_eq_flatL (A ++ [Node.mk lks0 lvs0 []]) (ks0 ++ [lk])
                    (vs0 ++ [lv]) cR' (by simp [hA_len]) (by simp [hvs0_len]),
                  flatL_snoc ks0 vs0 A lk lv (Node.mk lks0 lvs0 []) hA_len hvs0_len,
                  hflat2, hflatR,
                  show ((km, vm) :: (Node.mk cks cvs ([] : List (Node K V))).flatten) =
                    [(km, vm)] ++ (Node.mk cks cvs ([] : List (Node K V))).flatten
                    from rfl,
                  List.dropLast_append_of_ne_nil _ hcflat_ne,
                  flattenZip_eq_flatL (A ++ [Node.mk (lks0 ++ [lk]) (lvs0 ++ [lv]) []])
                    (ks0 ++ [km]) (vs0 ++ [vm]) (Node.mk cks cvs [])
                    (by simp [hA_len]) hpv,
                  flatL_snoc ks0 vs0 A km vm (Node.mk (lks0 ++ [lk]) (lvs0 ++ [lv]) [])
                    hA_len hvs0_len,
                  List.dropLast_append_of_ne_nil _ hcflat_ne,
                  flatten_mk, flatten_mk, flattenZip_nil_cs, flattenZip_nil_cs]
                rw [show (Node.mk (lks0 ++ [lk]) (lvs0 ++ [lv])
                    ([] : List (Node K V))).flatten = lks0.zip lvs0 ++ [(lk, lv)] from by
                  rw [flatten_mk, flattenZip_nil_cs, zip_snoc lk lv hlvs0_len.symm]]
                simp only [List.append_assoc, List.singleton_append, List.cons_append,
                  List.nil_append]
            · -- l and c are internal: the rotation also moves l's last child
              simp only [List.concat_eq_append] at *
              have hlkid2 : lcs0.length = (lks0 ++ [lk]).length ∧
                  sameHeightB (lcs0 ++ [lc]) = true ∧
                  childrenWf compare t (lastOr lo ks0) (lks0 ++ [lk]) (some km)
                    (lcs0 ++ [lc]) = true := by
                rcases hlkid with h0 | ⟨hlclen, hlsh, hlcw⟩
                · exact absurd h0 (by simp)
                · refine ⟨?_, hlsh, hlcw⟩
                  simp only [List.length_append, List.length_cons,
                    List.length_nil] at hlclen ⊢
                  omega
              obtain ⟨hlclen2, hlsh, hlcw⟩ := hlkid2
              have hlclen3 : lcs0.length = lks0.length + 1 := by
                simp only [List.length_append, List.length_cons,
                  List.length_nil] at hlclen2
                omega
              have hckid2 : ccs.length = cks.length + 1 ∧ sameHeightB ccs = true ∧
                  childrenWf compare t (some km) cks hi ccs = true := by
                rcases hckid with rfl | ⟨hcclen, hcsh, hccw⟩
                · exfalso
                  have h8 : 1 ≤ lc.height := by
                    rw [height_eq_children]
                    omega
                  have h9 : lc.height ≤ heightL (lcs0 ++ [lc]) :=
                    height_le_heightL (by simp)
                  simp only [heightL] at hlc_heq
                  omega
                · exact ⟨hcclen, hcsh, hccw⟩
              obtain ⟨hcclen, hcsh, hccw⟩ := hckid2
              have hccsne : ccs ≠ [] := by
                intro h0
                rw [h0] at hcclen
                simp at hcclen
              have hlcwf : Node.wfN compare t (some lk) (some km) lc = true := by
                have h9 := childrenWf_last (lks0 ++ [lk]) (lastOr lo ks0) lcs0 lc hlcw
                  hlclen2
                rw [lastOr_concat] at h9
                exact h9
              have hlc_h : lc.height = heightL (lcs0 ++ [lc]) := by
                refine (heightL_eq_of_mem (by simp) fun d hd =>
                  sameHeightB_iff.mp hlsh d hd lc (by simp)).symm
              have hcall : ∀ x ∈ ccs, x.height = heightL ccs := by
                intro x hx
                refine (heightL_eq_of_mem (by rintro rfl; cases hx) fun d hd =>
                  sameHeightB_iff.mp hcsh d hd x hx).symm
              have hcRwf : Node.wfN compare t (some lk) hi
                  (Node.mk (km :: cks) (vm :: cvs) (lc :: ccs)) = true := by
                refine wfN_mk_iff.mpr ⟨by simp [hcpv], ?_, ?_, hchainR, Or.inr
                  ⟨by simp only [List.length_cons]; omega, ?_, ?_⟩⟩
                · simp only [List.length_cons]
                  omega
                · simp only [List.length_cons]
                  omega
                · refine sameHeightB_iff.mpr fun a ha b hb => ?_
                  have hval : ∀ x ∈ lc :: ccs, x.height = heightL ccs := by
                    intro x hx
                    rcases List.mem_cons.mp hx with rfl | hx2
                    · rw [hlc_h, hlc_heq]
                    · exact hcall x hx2
                  rw [hval a ha, hval b hb]
                · rw [childrenWf_cons, hlcwf, hccw]
                  rfl
              have hcR_h : (Node.mk (km :: cks) (vm :: cvs) (lc :: ccs)).height =
                  heightL ((A ++ [Node.mk (lks0 ++ [lk]) (lvs0 ++ [lv])
                    (lcs0 ++ [lc])]) ++ [Node.mk cks cvs ccs]) := by
                have h9 := hc_h
                simp only [height_mk, heightL] at h9 ⊢
                rw [hlc_h, hlc_heq, max_self]
                omega
              obtain ⟨pk2, pv2, cR', hmax2, hrem2, hlast2, hflat2⟩ :=
                ih (Node.mk (km :: cks) (vm :: cvs) (lc :: ccs))
                  (some lk) hi fuel (by omega) hcRwf (by omega)
              obtain ⟨cc0, Z, rfl⟩ := List.exists_cons_of_ne_nil hccsne
              have hflatR : (Node.mk (km :: cks) (vm :: cvs)
                  (lc :: cc0 :: Z)).flatten =
                  (lc.flatten ++ [(km, vm)]) ++ (Node.mk cks cvs (cc0 :: Z)).flatten := by
                rw [flatten_mk, flattenZip_cons, flatten_mk]
                simp [List.append_assoc]
              have hRlast : (Node.mk (km :: cks) (vm :: cvs)
                  (lc :: cc0 :: Z)).flatten.getLast? = some (pk, pv) := by
                rw [hflatR, List.getLast?_append_of_ne_nil _ hcflat_ne]
                exact hlastc
              have hpp : pk2 = pk ∧ pv2 = pv := by
                have h9 := Option.some.inj (hlast2.symm.trans hRlast)
                exact ⟨congrArg Prod.fst h9, congrArg Prod.snd h9⟩
              rw [hpp.1, hpp.2] at hrem2
              have hflat_l : (Node.mk (lks0 ++ [lk]) (lvs0 ++ [lv])
                  (lcs0 ++ [lc])).flatten =
                  ((Node.mk lks0 lvs0 lcs0).flatten ++ [(lk, lv)]) ++ lc.flatten := by
                rw [flatten_mk, flattenZip_eq_flatL lcs0 (lks0 ++ [lk]) (lvs0 ++ [lv]) lc
                    hlclen2 hlpv,
                  flatL_eq_flattenZip_concat lks0 lvs0 lcs0 lk lv hlclen3 hlvs0_len,
                  flatten_mk]
              refine ⟨pk, pv, Node.mk (ks0 ++ [lk]) (vs0 ++ [lv])
                ((A ++ [Node.mk lks0 lvs0 lcs0]) ++ [cR']), hmaxp, ?_, ?_, ?_⟩
              · simp only [Node.removeF]
                rw [hidx, hlen_eq]
                simp only [keys_mk, vals_mk, children_mk]
                rw [hfound]
                rw [show Option.any (fun km2 => keq compare km2 pk) (none : Option K) =
                  false from rfl]
                rw [if_neg (by simp), if_neg (by simp), hne_isleaf, if_neg (by simp)]
                simp only [keys_mk, vals_mk, children_mk]
                rw [hgetc]
                dsimp only
                rw [if_pos (show ((Node.mk cks cvs (cc0 :: Z)).len + 1 == t) =
                    true from by
                  simp only [beq_iff_eq, len_mk]
                  exact hthin)]
                rw [show (ks0.length + 1 - 1 : Nat) = ks0.length from rfl]
                rw [hgetl]
                rw [if_pos (show ((decide (ks0.length + 1 > 0) &&
                    Option.any (fun x => decide (t ≤ x.len))
                      (some (Node.mk (lks0 ++ [lk]) (lvs0 ++ [lv])
                        (lcs0 ++ [lc]))))) = true from by
                  simp [len_mk]
                  simp only [List.length_append, List.length_cons, List.length_nil] at hfat
                  omega)]
                rw [hkm5, hvm5]
                simp only [keys_mk, vals_mk, children_mk]
                rw [List.getLast?_concat lks0, List.getLast?_concat lvs0]
                dsimp only
                rw [List.getLast?_concat lcs0]
                dsimp only
                rw [List.dropLast_concat, List.dropLast_concat, List.dropLast_concat]
                rw [show (ks0 ++ [km]).set ks0.length lk = ks0 ++ [lk] from by
                    have := set_at_length ks0 km lk ([] : List K)
                    simpa using this,
                  show (vs0 ++ [vm]).set ks0.length lv = vs0 ++ [lv] from by
                    rw [← hvs0_len]
                    have := set_at_length vs0 vm lv ([] : List V)
                    simpa using this]
                rw [show ((A ++ [Node.mk (lks0 ++ [lk]) (lvs0 ++ [lv]) (lcs0 ++ [lc])]) ++
                    [Node.mk cks cvs (cc0 :: Z)]).set ks0.length
                    (Node.mk lks0 lvs0 lcs0) =
                    (A ++ [Node.mk lks0 lvs0 lcs0]) ++
                      [Node.mk cks cvs (cc0 :: Z)] from by
                  rw [← hA_len, show (A ++ [Node.mk (lks0 ++ [lk]) (lvs0 ++ [lv])
                    (lcs0 ++ [lc])]) ++ [Node.mk cks cvs (cc0 :: Z)] =
                    A ++ (Node.mk (lks0 ++ [lk]) (lvs0 ++ [lv]) (lcs0 ++ [lc])) ::
                      [Node.mk cks cvs (cc0 :: Z)] from by simp]
                  rw [set_at_length A (Node.mk (lks0 ++ [lk]) (lvs0 ++ [lv])
                    (lcs0 ++ [lc])) (Node.mk lks0 lvs0 lcs0) [Node.mk cks cvs (cc0 :: Z)]]
                  simp]
                rw [show ((A ++ [Node.mk lks0 lvs0 lcs0]) ++
                    [Node.mk cks cvs (cc0 :: Z)]).set (ks0.length + 1)
                    (Node.mk (km :: cks) (vm :: cvs) (lc :: cc0 :: Z)) =
                    (A ++ [Node.mk lks0 lvs0 lcs0]) ++
                      [Node.mk (km :: cks) (vm :: cvs) (lc :: cc0 :: Z)] from by
                  rw [show (ks0.length + 1 : Nat) =
                    (A ++ [Node.mk lks0 lvs0 lcs0]).length from by
                      simp [hA_len]]
                  have := set_at_length (A ++ [Node.mk lks0 lvs0 lcs0])
                    (Node.mk cks cvs (cc0 :: Z))
                    (Node.mk (km :: cks) (vm :: cvs) (lc :: cc0 :: Z))
                    ([] : List (Node K V))
                  simpa using this]
                simp only [keys_mk, vals_mk, children_mk]
                rw [show ((A ++ [Node.mk lks0 lvs0 lcs0]) ++
                    [Node.mk (km :: cks) (vm :: cvs) (lc :: cc0 :: Z)]).get?
                    (ks0.length + 1) =
                    some (Node.mk (km :: cks) (vm :: cvs) (lc :: cc0 :: Z)) from by
                  rw [show (ks0.length + 1 : Nat) =
                    (A ++ [Node.mk lks0 lvs0 lcs0]).length from by
                      simp [hA_len]]
                  have := get?_at_length (A ++ [Node.mk lks0 lvs0 lcs0])
                    (Node.mk (km :: cks) (vm :: cvs) (lc :: cc0 :: Z))
                    ([] : List (Node K V))
                  simpa using this]
                dsimp only
                rw [hrem2]
                dsimp only
                rw [show ((A ++ [Node.mk lks0 lvs0 lcs0]) ++
                    [Node.mk (km :: cks) (vm :: cvs) (lc :: cc0 :: Z)]).set
                    (ks0.length + 1) cR' =
                    (A ++ [Node.mk lks0 lvs0 lcs0]) ++ [cR'] from by
                  rw [show (ks0.length + 1 : Nat) =
                    (A ++ [Node.mk lks0 lvs0 lcs0]).length from by
                      simp [hA_len]]
                  have := set_at_length (A ++ [Node.mk lks0 lvs0 lcs0])
                    (Node.mk (km :: cks) (vm :: cvs) (lc :: cc0 :: Z)) cR'
                    ([] : List (Node K V))
                  simpa using this]
              · rw [flatten_mk, flattenZip_eq_flatL
                    (A ++ [Node.mk (lks0 ++ [lk]) (lvs0 ++ [lv]) (lcs0 ++ [lc])])
                    (ks0 ++ [km]) (vs0 ++ [vm]) (Node.mk cks cvs (cc0 :: Z))
                    (by simp [hA_len]) hpv,
                  List.getLast?_append_of_ne_nil _ hcflat_ne, hlastc]
              · rw [flatten_mk, flatten_mk,
                  flattenZip_eq_flatL (A ++ [Node.mk lks0 lvs0 lcs0]) (ks0 ++ [lk])
                    (vs0 ++ [lv]) cR' (by simp [hA_len]) (by simp [hvs0_len]),
                  flatL_snoc ks0 vs0 A lk lv (Node.mk lks0 lvs0 lcs0) hA_len hvs0_len,
                  hflat2, hflatR,
                  List.dropLast_append_of_ne_nil _ hcflat_ne,
                  flattenZip_eq_flatL
                    (A ++ [Node.mk (lks0 ++ [lk]) (lvs0 ++ [lv]) (lcs0 ++ [lc])])
                    (ks0 ++ [km]) (vs0 ++ [vm]) (Node.mk cks cvs (cc0 :: Z))
                    (by simp [hA_len]) hpv,
                  flatL_snoc ks0 vs0 A km vm
                    (Node.mk (lks0 ++ [lk]) (lvs0 ++ [lv]) (lcs0 ++ [lc]))
                    hA_len hvs0_len,
                  List.dropLast_append_of_ne_nil _ hcflat_ne, hflat_l]
                simp only [List.append_assoc, List.singleton_append, List.cons_append,
                  List.nil_append]
          · -- Case 3b-left: merge the thin last child into its thin left
            -- sibling around the separator, then recurse into the merged child
            obtain ⟨lks, lvs, lcs⟩ := l
            obtain ⟨cks, cvs, ccs⟩ := c
            obtain ⟨hlpv, hlmin, hlmax, hlchain, hlkid⟩ := wfN_mk_iff.mp hlwf
            obtain ⟨hcpv, hcmin, hcmax, hcchain, hckid⟩ := wfN_mk_iff.mp hcwf
            simp only [len_mk] at hthin hfat
            have hlc_heq : heightL lcs = heightL ccs := by
              have h9 := hl_h.trans hc_h.symm
              simp only [height_mk] at h9
              omega
            have hkey : Node.wfN compare t (lastOr lo ks0) hi
                (Node.mk (lks ++ km :: cks) (lvs ++ vm :: cvs) (lcs ++ ccs)) = true ∧
                (Node.mk (lks ++ km :: cks) (lvs ++ vm :: cvs) (lcs ++ ccs)).flatten =
                  (Node.mk lks lvs lcs).flatten ++ (km, vm) ::
                    (Node.mk cks cvs ccs).flatten := by
              have hchainM : List.Chain' (· < ·) ((lastOr lo ks0).toList ++
                  (lks ++ km :: cks) ++ hi.toList) := by
                have hg := chain'_glue (A := (lastOr lo ks0).toList ++ lks)
                  (B := cks ++ hi.toList) (m := km) hlchain hcchain
                simpa [List.append_assoc] using hg
              have hlenM : (lvs ++ vm :: cvs).length = (lks ++ km :: cks).length := by
                simp [hlpv, hcpv]
              have hminM : t - 1 ≤ (lks ++ km :: cks).length := by
                simp only [List.length_append, List.length_cons]
                omega
              have hmaxM : (lks ++ km :: cks).length ≤ 2 * t - 1 := by
                simp only [List.length_append, List.length_cons]
                omega
              rcases hlkid with rfl | ⟨hlclen, hlsh, hlcw⟩ <;>
                rcases hckid with rfl | ⟨hcclen, hcsh, hccw⟩
              · refine ⟨wfN_mk_iff.mpr ⟨hlenM, hminM, hmaxM, hchainM, Or.inl rfl⟩, ?_⟩
                have hz : (lks ++ km :: cks).zip (lvs ++ vm :: cvs) =
                    lks.zip lvs ++ (km :: cks).zip (vm :: cvs) :=
                  List.zip_append (by omega)
                rw [flatten_mk, flatten_mk, flatten_mk, List.append_nil,
                  flattenZip_nil_cs, flattenZip_nil_cs, flattenZip_nil_cs, hz]
                rfl
              · exfalso
                have hccsne : ccs ≠ [] := by
                  intro h0
                  rw [h0] at hcclen
                  simp at hcclen
                obtain ⟨c0, Z, rfl⟩ := List.exists_cons_of_ne_nil hccsne
                have h8 : 1 ≤ c0.height := by
                  rw [height_eq_children]
                  omega
                have h9 := height_le_heightL (List.mem_cons_self c0 Z)
                simp only [heightL] at hlc_heq
                omega
              · exfalso
                have hlcsne : lcs ≠ [] := by
                  intro h0
                  rw [h0] at hlclen
                  simp at hlclen
                obtain ⟨c0, Z, rfl⟩ := List.exists_cons_of_ne_nil hlcsne
                have h8 : 1 ≤ c0.height := by
                  rw [height_eq_children]
                  omega
                have h9 := height_le_heightL (List.mem_cons_self c0 Z)
                simp only [heightL] at hlc_heq
                omega
              · have hccsne : ccs ≠ [] := by
                  intro h0
                  rw [h0] at hcclen
                  simp at hcclen
                have hlall : ∀ x ∈ lcs, x.height = heightL lcs := by
                  intro x hx
                  refine (heightL_eq_of_mem (by rintro rfl; cases hx) fun d hd =>
                    sameHeightB_iff.mp hlsh d hd x hx).symm
                have hcall : ∀ x ∈ ccs, x.height = heightL ccs := by
                  intro x hx
                  refine (heightL_eq_of_mem (by rintro rfl; cases hx) fun d hd =>
                    sameHeightB_iff.mp hcsh d hd x hx).symm
                refine ⟨wfN_mk_iff.mpr ⟨hlenM, hminM, hmaxM, hchainM, Or.inr
                  ⟨by simp only [List.length_append, List.length_cons]; omega, ?_, ?_⟩⟩, ?_⟩
                · refine sameHeightB_iff.mpr fun a ha b hb => ?_
                  have hval : ∀ x ∈ lcs ++ ccs, x.height = heightL ccs := by
                    intro x hx
                    rcases List.mem_append.mp hx with hx1 | hx2
                    · rw [hlall x hx1, hlc_heq]
                    · exact hcall x hx2
                  rw [hval a ha, hval b hb]
                · exact childrenWf_merge lks (lastOr lo ks0) lcs km cks ccs hlcw hccw hlclen
                · rw [flatten_mk, flatten_mk, flatten_mk]
                  exact flattenZip_merge lks lvs lcs km vm cks cvs ccs hlclen hlpv hccsne
            obtain ⟨hMwf, hflatM⟩ := hkey
            have hM_h : (Node.mk (lks ++ km :: cks) (lvs ++ vm :: cvs)
                (lcs ++ ccs)).height = heightL ((A ++ [Node.mk lks lvs lcs]) ++
                  [Node.mk cks cvs ccs]) := by
              rw [height_mk, heightL_append, hlc_heq, max_self]
              have h9 := hc_h
              simp only [height_mk] at h9
              simpa using h9
            obtain ⟨pk3, pv3, M', hmax3, hrem3, hlast3, hflat3⟩ :=
              ih (Node.mk (lks ++ km :: cks) (lvs ++ vm :: cvs) (lcs ++ ccs))
                (lastOr lo ks0) hi fuel (by omega) hMwf (by omega)
            have hMlast : (Node.mk (lks ++ km :: cks) (lvs ++ vm :: cvs)
                (lcs ++ ccs)).flatten.getLast? = some (pk, pv) := by
              rw [hflatM, List.getLast?_append_of_ne_nil _ (by simp),
                show ((km, vm) :: (Node.mk cks cvs ccs).flatten) =
                  [(km, vm)] ++ (Node.mk cks cvs ccs).flatten from rfl,
                List.getLast?_append_of_ne_nil _ hcflat_ne]
              exact hlastc
            have hpp : pk3 = pk ∧ pv3 = pv := by
              have h9 := Option.some.inj (hlast3.symm.trans hMlast)
              exact ⟨congrArg Prod.fst h9, congrArg Prod.snd h9⟩
            rw [hpp.1, hpp.2] at hrem3
            have hgetl : ((A ++ [Node.mk lks lvs lcs]) ++ [Node.mk cks cvs ccs]).get?
                ks0.length = some (Node.mk lks lvs lcs) := by
              rw [← hA_len, show (A ++ [Node.mk lks lvs lcs]) ++ [Node.mk cks cvs ccs] =
                A ++ (Node.mk lks lvs lcs) :: [Node.mk cks cvs ccs] from by simp]
              exact get?_at_length A _ _
            have hkm5 : (ks0 ++ [km]).get? ks0.length = some km := get?_at_length ks0 km []
            have hvm5 : (vs0 ++ [vm]).get? ks0.length = some vm := by
              rw [← hvs0_len]
              exact get?_at_length vs0 vm []
            refine ⟨pk, pv, Node.mk ks0 vs0 (A ++ [M']), hmaxp, ?_, ?_, ?_⟩
            · simp only [Node.removeF]
              rw [hidx, hlen_eq]
              simp only [keys_mk, vals_mk, children_mk]
              rw [hfound]
              rw [show Option.any (fun km2 => keq compare km2 pk) (none : Option K) = false
                from rfl]
              rw [if_neg (by simp), if_neg (by simp), hne_isleaf, if_neg (by simp)]
              simp only [keys_mk, vals_mk, children_mk]
              rw [hgetc]
              dsimp only
              rw [if_pos (show ((Node.mk cks cvs ccs).len + 1 == t) = true from by
                simp only [beq_iff_eq, len_mk]
                exact hthin)]
              rw [show (ks0.length + 1 - 1 : Nat) = ks0.length from rfl]
              rw [hgetl]
              rw [if_neg (show ¬((decide (ks0.length + 1 > 0) &&
                  Option.any (fun x => decide (t ≤ x.len))
                    (some (Node.mk lks lvs lcs))) = true) from by
                simp [len_mk, hfat])]
              rw [show ((A ++ [Node.mk lks lvs lcs]) ++ [Node.mk cks cvs ccs]).get?
                  (ks0.length + 1 + 1) = none from List.get?_eq_none.mpr (by simp [hA_len])]
              rw [if_neg (by simp)]
              rw [if_pos (show (ks0.length + 1 > 0) from by omega)]
              rw [hkm5, hvm5]
              dsimp only
              simp only [keys_mk, vals_mk, children_mk]
              rw [show (ks0 ++ [km]).eraseIdx ks0.length = ks0 from by
                  have := eraseIdx_at_length ks0 km ([] : List K)
                  simpa using this,
                show (vs0 ++ [vm]).eraseIdx ks0.length = vs0 from by
                  rw [← hvs0_len]
                  have := eraseIdx_at_length vs0 vm ([] : List V)
                  simpa using this]
              rw [show ((A ++ [Node.mk lks lvs lcs]) ++ [Node.mk cks cvs ccs]).set ks0.length
                  (Node.mk (lks ++ km :: cks) (lvs ++ vm :: cvs) (lcs ++ ccs)) =
                  (A ++ [Node.mk (lks ++ km :: cks) (lvs ++ vm :: cvs) (lcs ++ ccs)]) ++
                    [Node.mk cks cvs ccs] from by
                rw [← hA_len, show (A ++ [Node.mk lks lvs lcs]) ++ [Node.mk cks cvs ccs] =
                  A ++ (Node.mk lks lvs lcs) :: [Node.mk cks cvs ccs] from by simp]
                rw [set_at_length A (Node.mk lks lvs lcs)
                  (Node.mk (lks ++ km :: cks) (lvs ++ vm :: cvs) (lcs ++ ccs))
                  [Node.mk cks cvs ccs]]
                simp]
              rw [show ((A ++ [Node.mk (lks ++ km :: cks) (lvs ++ vm :: cvs) (lcs ++ ccs)]) ++
                  [Node.mk cks cvs ccs]).eraseIdx (ks0.length + 1) =
                  A ++ [Node.mk (lks ++ km :: cks) (lvs ++ vm :: cvs) (lcs ++ ccs)] from by
                rw [show (ks0.length + 1 : Nat) =
                  (A ++ [Node.mk (lks ++ km :: cks) (lvs ++ vm :: cvs) (lcs ++ ccs)]).length
                  from by simp [hA_len]]
                have := eraseIdx_at_length
                  (A ++ [Node.mk (lks ++ km :: cks) (lvs ++ vm :: cvs) (lcs ++ ccs)])
                  (Node.mk cks cvs ccs) ([] : List (Node K V))
                simpa using this]
              rw [show (A ++ [Node.mk (lks ++ km :: cks) (lvs ++ vm :: cvs)
                  (lcs ++ ccs)]).get? ks0.length =
                  some (Node.mk (lks ++ km :: cks) (lvs ++ vm :: cvs) (lcs ++ ccs)) from by
                rw [← hA_len]
                have := get?_at_length A
                  (Node.mk (lks ++ km :: cks) (lvs ++ vm :: cvs) (lcs ++ ccs))
                  ([] : List (Node K V))
                simpa using this]
              dsimp only
              rw [hrem3]
              dsimp only
              rw [show (A ++ [Node.mk (lks ++ km :: cks) (lvs ++ vm :: cvs)
                  (lcs ++ ccs)]).set ks0.length M' = A ++ [M'] from by
                rw [← hA_len]
                have := set_at_length A
                  (Node.mk (lks ++ km :: cks) (lvs ++ vm :: cvs) (lcs ++ ccs)) M'
                  ([] : List (Node K V))
                simpa using this]
            · rw [flatten_mk, flattenZip_eq_flatL (A ++ [Node.mk lks lvs lcs])
                  (ks0 ++ [km]) (vs0 ++ [vm]) (Node.mk cks cvs ccs)
                  (by simp [hA_len]) hpv,
                List.getLast?_append_of_ne_nil _ hcflat_ne, hlastc]
            · rw [flatten_mk, flatten_mk,
                flattenZip_eq_flatL A ks0 vs0 M' hA_len hvs0_len,
                hflat3, hflatM,
                flattenZip_eq_flatL (A ++ [Node.mk lks lvs lcs]) (ks0 ++ [km])
                  (vs0 ++ [vm]) (Node.mk cks cvs ccs) (by simp [hA_len]) hpv,
                flatL_snoc ks0 vs0 A km vm (Node.mk lks lvs lcs) hA_len hvs0_len,
                List.dropLast_append_of_ne_nil _ (by simp :
                  ((km, vm) :: (Node.mk cks cvs ccs).flatten) ≠ []),
                show ((km, vm) :: (Node.mk cks cvs ccs).flatten) =
                  [(km, vm)] ++ (Node.mk cks cvs ccs).flatten from rfl,
                List.dropLast_append_of_ne_nil _ hcflat_ne,
                List.dropLast_append_of_ne_nil _ hcflat_ne]
              simp only [List.append_assoc, List.singleton_append]
        · -- the descent target is not thin: no rebalance, recurse into `c`
          refine ⟨pk, pv, Node.mk (ks0 ++ [km]) (vs0 ++ [vm]) ((A ++ [l]) ++ [c']),
            hmaxp, ?_, ?_, ?_⟩
          · simp only [Node.removeF]
            rw [hidx, keys_mk, vals_mk, children_mk, hlen_eq, hfound]
            rw [show Option.any (fun km2 => keq compare km2 pk) (none : Option K) = false
              from rfl]
            rw [if_neg (by simp), if_neg (by simp), hne_isleaf, if_neg (by simp)]
            simp only [keys_mk, vals_mk, children_mk]
            rw [hgetc]
            dsimp only
            rw [if_neg (show ¬((c.len + 1 == t) = true) from by
              simp only [beq_iff_eq]
              exact hthin)]
            dsimp only
            simp only [keys_mk, vals_mk, children_mk]
            rw [hgetc]
            dsimp only
            rw [hremc]
            dsimp only
            rw [show ((A ++ [l]) ++ [c]).set (ks0.length + 1) c' = (A ++ [l]) ++ [c'] from by
              rw [show ks0.length + 1 = (A ++ [l]).length from by simp [hA_len]]
              have := set_at_length (A ++ [l]) c c' ([] : List (Node K V))
              simpa using this]
          · rw [flatten_mk, flattenZip_eq_flatL (A ++ [l]) (ks0 ++ [km]) (vs0 ++ [vm]) c
                (by simp [hA_len]) hpv,
              List.getLast?_append_of_ne_nil _ hcflat_ne, hlastc]
          · rw [flatten_mk, flatten_mk,
              flattenZip_eq_flatL (A ++ [l]) (ks0 ++ [km]) (vs0 ++ [vm]) c'
                (by simp [hA_len]) hpv,
              flattenZip_eq_flatL (A ++ [l]) (ks0 ++ [km]) (vs0 ++ [vm]) c
                (by simp [hA_len]) hpv,
              List.dropLast_append_of_ne_nil _ hcflat_ne, hflatc]

/-- Well-formedness of any child extracted positionally from a well-formed
children list: there exist key windows under which it satisfies `wfN`. -/
theorem childrenWf_wf_get (cmp : Cmp K) (t : Nat) :
    ∀ (ks : List K) (lo hi : Option K) (cs : List (Node K V)) (i : Nat) (c : Node K V),
      childrenWf cmp t lo ks hi cs = true → cs.length = ks.length + 1 →
      cs.get? i = some c →
      ∃ (l2 r2 : Option K), Node.wfN cmp t l2 r2 c = true := by
  intro ks
  induction ks with
  | nil =>
    intro lo hi cs i c hcw hlen hget
    cases cs with
    | nil => simp at hlen
    | cons c0 cs2 =>
      cases cs2 with
      | nil =>
        cases i with
        | zero =>
          rw [List.get?_cons_zero] at hget
          cases Option.some.inj hget
          exact ⟨lo, hi, hcw⟩
        | succ j =>
          rw [List.get?_cons_succ, List.get?_nil] at hget
          cases hget
      | cons c1 cs3 => simp at hlen
  | cons kh kt ih =>
    intro lo hi cs i c hcw hlen hget
    cases cs with
    | nil => simp at hlen
    | cons c0 cs2 =>
      rw [childrenWf_cons, Bool.and_eq_true] at hcw
      obtain ⟨h1, h2⟩ := hcw
      cases i with
      | zero =>
        rw [List.get?_cons_zero] at hget
        cases Option.some.inj hget
        exact ⟨lo, some kh, h1⟩
      | succ j =>
        rw [List.get?_cons_succ] at hget
        exact ih (some kh) hi cs2 j c h2 (by simpa using hlen) hget

/-- C4: in a well-formed internal node of degree `t ≥ 2` storing `k` at key
position `i`, when the left child `children[i]` has at least `t` keys, removing
`k` swaps in the in-order predecessor pair of `k` — the last entry of
`children[i]`'s in-order traversal — at position `i`, deletes that pair from the
subtree (whose traversal loses exactly its last entry), and returns the pair
`(k, v)` originally stored at position `i`. -/
theorem c4_remove_internal_swaps_in_predecessor [LinearOrder K] (t : Nat)
    (ht : 2 ≤ t) (lo hi : Option K) (ks : List K) (vs : List V)
    (cs : List (Node K V)) (fuel i : Nat) (k : K) (pred : Node K V)
    (hwf : Node.wfN compare t lo hi (Node.mk ks vs cs) = true)
    (hfuel : heightL cs ≤ fuel)
    (hilt : i < ks.length) (hk : ks.get ⟨i, hilt⟩ = k)
    (hpred : cs.get? i = some pred) (hfat : t ≤ pred.len) :
    ∃ (pk : K) (pv : V) (pred2 : Node K V) (vv : V),
      pred.flatten.getLast? = some (pk, pv) ∧
      pred2.flatten = pred.flatten.dropLast ∧
      vs.get? i = some vv ∧
      Node.removeF compare t (fuel + 1) (Node.mk ks vs cs) k =
        some (Node.mk (ks.set i pk) (vs.set i pv) (cs.set i pred2),
          some (k, vv)) := by
  obtain ⟨hpv, hmin, hmax, hchain, hkid⟩ := wfN_mk_iff.mp hwf
  have hcsne : cs ≠ [] := by
    intro h0
    rw [h0, List.get?_nil] at hpred
    cases hpred
  rcases hkid with h0 | ⟨hclen, hsh, hcw⟩
  · exact absurd h0 hcsne
  have hks_sorted2 : List.Pairwise (· < ·) ks :=
    (List.chain'_iff_pairwise.mp hchain).sublist
      ((List.sublist_append_right _ _).trans (List.sublist_append_left _ _))
  have hidx : Node.findIndex compare (Node.mk ks vs cs) k = i :=
    findIndex_at_mem _ hks_sorted2 hilt hk
  have hgetk : ks.get? i = some k := by
    rw [List.get?_eq_get hilt, hk]
  have hvlen : i < vs.length := by
    rw [hpv]
    exact hilt
  have hgetv : vs.get? i = some (vs.get ⟨i, hvlen⟩) := List.get?_eq_get hvlen
  have hsucclt : i + 1 < cs.length := by
    rw [hclen]
    omega
  have hgets : cs.get? (i + 1) = some (cs.get ⟨i + 1, hsucclt⟩) :=
    List.get?_eq_get hsucclt
  obtain ⟨lo2, hi2, hpwf⟩ := childrenWf_wf_get compare t ks lo hi cs i pred hcw hclen hpred
  have hph : pred.height ≤ fuel :=
    le_trans (height_le_heightL (List.get?_mem hpred)) hfuel
  obtain ⟨pk, pv, pred2, hmaxp, hremp, hlastp, hflatp⟩ :=
    remove_max_aux ht pred.height pred lo2 hi2 fuel le_rfl hpwf hph
  refine ⟨pk, pv, pred2, vs.get ⟨i, hvlen⟩, hlastp, hflatp, hgetv, ?_⟩
  simp only [Node.removeF]
  rw [hidx]
  simp only [keys_mk, vals_mk, children_mk, isLeaf_mk]
  rw [hgetk]
  rw [show Option.any (fun km => keq compare km k) (some k) = true from by
    simp [keq_compare_iff]]
  rw [show cs.isEmpty = false from by
    cases cs with
    | nil => exact absurd rfl hcsne
    | cons a b => rfl]
  rw [if_neg (by simp), if_pos (by simp)]
  rw [hgetv, hpred, hgets]
  dsimp only
  rw [if_pos hfat]
  rw [hmaxp]
  dsimp only
  rw [hremp]

theorem c4_remove_internal_swaps_in_predecessor_witness :
    ∃ (pk : Nat) (pv : Nat) (pred2 : Node Nat Nat) (vv : Nat),
      (Node.mk [1, 2] [10, 20] ([] : List (Node Nat Nat))).flatten.getLast? =
        some (pk, pv) ∧
      pred2.flatten =
        (Node.mk [1, 2] [10, 20] ([] : List (Node Nat Nat))).flatten.dropLast ∧
      [30].get? 0 = some vv ∧
      Node.removeF compare 2 (1 + 1)
        (Node.mk [3] [30]
          [Node.mk [1, 2] [10, 20] [], Node.mk [4, 6] [40, 60] []]) 3 =
        some (Node.mk ([3].set 0 pk) ([30].set 0 pv)
          ([Node.mk [1, 2] [10, 20] ([] : List (Node Nat Nat)),
            Node.mk [4, 6] [40, 60] []].set 0 pred2),
          some (3, vv)) :=
  c4_remove_internal_swaps_in_predecessor 2 (by decide) none none [3] [30]
    [Node.mk [1, 2] [10, 20] [], Node.mk [4, 6] [40, 60] []] 1 0 3
    (Node.mk [1, 2] [10, 20] []) (by decide) (by decide) (by decide) rfl
    rfl (by decide)

end BT
